import Mathlib

/-!
Click `glue.cc`: the bounded iterative sorter and the debugging allocator.

A shallow embedding of `click_qsort_partition`, `click_qsort`, the `CLICK_DMALLOC`
versions of `operator new` / `operator delete`, `click_dmalloc_cleanup`,
`printable_where` and `click_lalloc` from `lib/glue.cc`, followed by theorems
about them.

Conventions of the sorter's embedding:

* The array `base` of `n` records of `size` bytes is a `List α` of records.  A
  `memcpy` of `size` bytes from one record slot to another (or to and from the
  scratch buffers `pivot` and `tmp`) is a record read followed by a record store.
* The comparator `compar(a, b, thunk)` is a function of the two records it is
  handed (`thunk` is passed through unchanged and is part of the function).
* Index variables of type `size_t` are natural numbers.  The places where the
  source subtracts from a `size_t` are guarded: a subtraction that would wrap
  is the fault `Fault.wrap`.
* Every access to `base` made while partitioning the range popped as
  `stack[0] .. stack[3]` is monitored: an index outside `[stack[0], stack[3])`, or
  outside the array, is the fault `Fault.arrayIndex`.  Every access to the
  descriptor stack is monitored: an index outside the buffer is
  `Fault.stackIndex`.
* Loops carry a fuel argument; running out of it is `Fault.fuel`.
* `ncmp` and `nstore` are ghost counters: calls of the comparator and record
  stores into `base`.
-/

namespace Click

/-! ## The embedding of the sorter -/

/-- The value of `E2BIG` in `errno.h`. -/
def E2BIG : Int := 7

/-- The value of `ENOMEM` in `errno.h`. -/
def ENOMEM : Int := 12

/-- The constant `CLICK_QSORT_INITSTACK`. -/
def CLICK_QSORT_INITSTACK : Nat := 20

/-- The size in bytes of a `size_t` (used only in the byte counts handed to the
allocation primitive). -/
def SIZEOF_SIZE_T : Nat := 8

/-- Machine states the C program must not reach. -/
inductive Fault where
  | arrayIndex
  | stackIndex
  | wrap
  | nullDeref
  | fuel
  deriving DecidableEq, Repr

/-- The memory the sorter works on: the records, the descriptor stack buffer
(its length is the buffer's capacity), and the two ghost counters. -/
structure QState (α : Type) where
  base : List α
  stack : List Nat
  ncmp : Nat
  nstore : Nat
  deriving DecidableEq, Repr

/-- Read of `base[i]` while partitioning the range `[lo, hi)`. -/
def rdBase {α : Type} (s : QState α) (lo hi i : Nat) : Except Fault α :=
  if lo ≤ i ∧ i < hi then
    match s.base[i]? with
    | some x => Except.ok x
    | none => Except.error Fault.arrayIndex
  else Except.error Fault.arrayIndex

/-- Store of the record `x` into `base[i]` while partitioning the range `[lo, hi)`. -/
def wrBase {α : Type} (s : QState α) (lo hi i : Nat) (x : α) : Except Fault (QState α) :=
  if lo ≤ i ∧ i < hi ∧ i < s.base.length then
    Except.ok { s with base := s.base.set i x, nstore := s.nstore + 1 }
  else Except.error Fault.arrayIndex

/-- Read of `stack[i]`. -/
def rdStack {α : Type} (s : QState α) (i : Nat) : Except Fault Nat :=
  match s.stack[i]? with
  | some x => Except.ok x
  | none => Except.error Fault.stackIndex

/-- Store `stack[i] = v`. -/
def wrStack {α : Type} (s : QState α) (i v : Nat) : Except Fault (QState α) :=
  if i < s.stack.length then Except.ok { s with stack := s.stack.set i v }
  else Except.error Fault.stackIndex

/-- One call of the comparator: the ghost counter goes up by one. -/
def tick {α : Type} (s : QState α) : QState α := { s with ncmp := s.ncmp + 1 }

/-- The loop `while (left < right)` of `click_qsort_partition` ("optimize for
already-sorted case").  Returns whether the loop was left by `goto true_qsort`,
and the value of `left`. -/
def prescan {α : Type} (compar : α → α → Int) (lo hi right : Nat) :
    Nat → Nat → QState α → Except Fault (Bool × Nat × QState α)
  | 0, left, s =>
    if left < right then Except.error Fault.fuel else Except.ok (false, left, s)
  | fuel + 1, left, s =>
    if left < right then do
      let x ← rdBase s lo hi left
      let y ← rdBase s lo hi (left + 1)
      let cmp := compar x y
      let s := tick s
      if cmp > 0 then Except.ok (true, left, s)
      else prescan compar lo hi right fuel (left + 1) s
    else Except.ok (false, left, s)

/-- The loop `while (middle <= right)` of `click_qsort_partition` (the three-way
partition around `pivot`).  Returns the final `left` and `right`. -/
def dutch {α : Type} (compar : α → α → Int) (lo hi : Nat) (pivot : α) :
    Nat → Nat → Nat → Nat → QState α → Except Fault (Nat × Nat × QState α)
  | 0, left, middle, right, s =>
    if middle ≤ right then Except.error Fault.fuel else Except.ok (left, right, s)
  | fuel + 1, left, middle, right, s =>
    if middle ≤ right then do
      let x ← rdBase s lo hi middle
      let cmp := compar x pivot
      let s := tick s
      let swapper := if cmp < 0 then left else right
      let s ←
        if cmp ≠ 0 ∧ middle ≠ swapper then do
          let tmp ← rdBase s lo hi swapper
          let m ← rdBase s lo hi middle
          let s ← wrBase s lo hi swapper m
          wrBase s lo hi middle tmp
        else Except.ok s
      if cmp < 0 then dutch compar lo hi pivot fuel (left + 1) (middle + 1) right s
      else if cmp > 0 then
        if right = 0 then Except.error Fault.wrap
        else dutch compar lo hi pivot fuel left middle (right - 1) s
      else dutch compar lo hi pivot fuel left (middle + 1) right s
    else Except.ok (left, right, s)

/-- The function `click_qsort_partition(base, size, stack + sp, compar, thunk)`:
`sp` is the offset of the four-slot window handed over by the caller.  Returns
the `int` result and the memory. -/
def click_qsort_partition {α : Type} (compar : α → α → Int) (size sp : Nat)
    (s : QState α) : Except Fault (Int × QState α) :=
  if size ≥ 64 then do
    let s ← wrStack s (sp + 2) 0
    let s ← wrStack s (sp + 1) 0
    Except.ok (-E2BIG, s)
  else do
    let lo ← rdStack s (sp + 0)
    let hi ← rdStack s (sp + 3)
    if hi = 0 then Except.error Fault.wrap
    else do
      let right := hi - 1
      let (inv, left, s) ← prescan compar lo hi right (right - lo) lo s
      if inv then do
        -- true_qsort:
        let pivot ← rdBase s lo hi left
        let nxt ← rdBase s lo hi (left + 1)
        let s ← wrBase s lo hi left nxt
        let s ← wrBase s lo hi (left + 1) pivot
        let left := left + 1
        let middle := left + 1
        let (left, right, s) ← dutch compar lo hi pivot (right + 1 - middle) left middle right s
        let s ← wrStack s (sp + 1) left
        let s ← wrStack s (sp + 2) (right + 1)
        Except.ok (0, s)
      else do
        let s0 ← rdStack s (sp + 0)
        let s ← wrStack s (sp + 1) s0
        let s3 ← rdStack s (sp + 3)
        let s ← wrStack s (sp + 2) s3
        Except.ok (0, s)

/-- The block "grow stack if appropriate" of `click_qsort`: `none` when
`CLICK_LALLOC` returns a null pointer, else the new `stacksiz` and the memory with
the new buffer.  `lalloc nbytes` tells whether `CLICK_LALLOC(nbytes)` returns a
buffer; the `memcpy` reads `stacksiz` cells of the old buffer, and the cells of
the fresh buffer beyond the copied ones are written here as `0`. -/
def growStack {α : Type} (lalloc : Nat → Bool) (stacksiz stackpos : Nat) (s : QState α) :
    Except Fault (Option (Nat × QState α)) :=
  if stackpos + 4 > stacksiz then
    if lalloc (SIZEOF_SIZE_T * stacksiz * 2) then
      if stacksiz ≤ s.stack.length then
        Except.ok (some (stacksiz * 2,
          { s with stack := s.stack.take stacksiz ++ List.replicate stacksiz 0 }))
      else Except.error Fault.stackIndex
    else Except.ok none
  else Except.ok (some (stacksiz, s))

/-- The loop `while (stackpos != 0 && r >= 0)` of `click_qsort`, from the state
`(stacksiz, stackpos, r, s)`; returns the final `r` and memory. -/
def click_qsort_loop {α : Type} (compar : α → α → Int) (lalloc : Nat → Bool) (size : Nat) :
    Nat → Nat → Nat → Int → QState α → Except Fault (Int × QState α)
  | 0, _, stackpos, r, s =>
    if stackpos ≠ 0 ∧ r ≥ 0 then Except.error Fault.fuel else Except.ok (r, s)
  | fuel + 1, stacksiz, stackpos, r, s =>
    if stackpos ≠ 0 ∧ r ≥ 0 then
      if stackpos < 2 then Except.error Fault.wrap
      else do
        let stackpos := stackpos - 2
        let a ← rdStack s stackpos
        let b ← rdStack s (stackpos + 1)
        if a + 1 ≥ b then click_qsort_loop compar lalloc size fuel stacksiz stackpos r s
        else do
          match ← growStack lalloc stacksiz stackpos s with
          | none => Except.ok (-ENOMEM, s)
          | some (stacksiz, s) => do
            -- partition
            let b ← rdStack s (stackpos + 1)
            let s ← wrStack s (stackpos + 3) b
            let (r, s) ← click_qsort_partition compar size stackpos s
            click_qsort_loop compar lalloc size fuel stacksiz (stackpos + 4) r s
    else Except.ok (r, s)

/-- The function `click_qsort(base, n, size, compar, thunk)`. -/
def click_qsort {α : Type} (compar : α → α → Int) (lalloc : Nat → Bool) (fuel : Nat)
    (base : List α) (n size : Nat) : Except Fault (Int × QState α) := do
  let s : QState α :=
    { base := base, stack := List.replicate CLICK_QSORT_INITSTACK 0, ncmp := 0, nstore := 0 }
  let s ← wrStack s 0 0
  let s ← wrStack s 1 n
  click_qsort_loop compar lalloc size fuel CLICK_QSORT_INITSTACK 2 0 s

/-! ## The sorter: predicates and ghost functions of the proofs -/

/-- The relation `SegPerm lo hi a b`: the array `b` is the array `a` with the records of the
index range `[lo, hi)` rearranged among themselves. -/
structure SegPerm {α : Type} (lo hi : Nat) (a b : List α) : Prop where
  len : b.length = a.length
  perm : b.Perm a
  frame : ∀ i, (i < lo ∨ hi ≤ i) → b[i]? = a[i]?
  from_seg : ∀ j y, lo ≤ j → j < hi → b[j]? = some y →
    ∃ k, lo ≤ k ∧ k < hi ∧ a[k]? = some y

/-- The loop invariant of `while (middle <= right)`, as in the source's comment:
the records of `[lo, left)` satisfy `PL`, those of `[left, middle)` are the pivot
or compare equal to it, those of `(right, hi)` compare greater than the pivot. -/
structure DutchInv {α : Type} (compar : α → α → Int) (PL : α → Prop) (lo hi : Nat) (pivot : α)
    (a0 : List α) (stk : List Nat) (left middle right : Nat) (s : QState α) : Prop where
  stack_eq : s.stack = stk
  seg : SegPerm lo hi a0 s.base
  hi_le : hi ≤ a0.length
  lo_lt : lo < left
  left_lt : left < middle
  mid_le : middle ≤ right + 1
  right_lt : right < hi
  regL : ∀ i x, lo ≤ i → i < left → s.base[i]? = some x → PL x
  regE : ∀ i x, left ≤ i → i < middle → s.base[i]? = some x → (compar x pivot = 0 ∨ x = pivot)
  regR : ∀ i x, right < i → i < hi → s.base[i]? = some x → 0 < compar x pivot

/-- The comparator is a consistent total preorder: `compar a b ≤ 0` reads
"`a` is not after `b`".  Both fields follow from the usual contract of a
three-way comparison (the sign of `compar b a` is the opposite of the sign of
`compar a b`, and "not after" is transitive). -/
structure IsTotalPreorder {α : Type} (compar : α → α → Int) : Prop where
  total : ∀ a b, 0 ≤ compar a b → compar b a ≤ 0
  trans : ∀ a b c, compar a b ≤ 0 → compar b c ≤ 0 → compar a c ≤ 0

/-- The stack cells taken by a list of range descriptors `(left, right)`, the
descriptor on top of the stack first in the list. -/
def flat : List (Nat × Nat) → List Nat
  | [] => []
  | d :: ds => flat ds ++ [d.1, d.2]

/-- A bound on the number of iterations of the main loop that the stacked
descriptors can still cause: one for each descriptor and two for each record in
its range. -/
def weight : List (Nat × Nat) → Nat
  | [] => 0
  | d :: ds => weight ds + (2 * (d.2 - d.1) + 1)

/-- The invariant of the loop `while (stackpos != 0 && r >= 0)`, for the ghost
list `ds` of the stacked descriptors (top first): they are well-formed ranges
of the array, each one lies to the left of the ones above it, the array is a
permutation of the input, and (for a total preorder) two records that no
stacked range covers together are in order. -/
structure LoopInv {α : Type} (compar : α → α → Int) (n : Nat) (a0 : List α)
    (ds : List (Nat × Nat)) (stacksiz stackpos : Nat) (s : QState α) : Prop where
  cap : s.stack.length = stacksiz
  two_le : 2 ≤ stacksiz
  pos : stackpos = 2 * ds.length
  pos_le : stackpos ≤ stacksiz
  cells : ∀ i, i < stackpos → s.stack[i]? = (flat ds)[i]?
  len : s.base.length = n
  perm : s.base.Perm a0
  wf : ∀ d ∈ ds, d.1 ≤ d.2 ∧ d.2 ≤ n
  ordered : ds.Pairwise (fun d e => e.2 ≤ d.1)
  sorted : IsTotalPreorder compar → ∀ (i j : Nat) (x y : α), i < j → s.base[i]? = some x →
    s.base[j]? = some y → (∀ d ∈ ds, ¬ (d.1 ≤ i ∧ j < d.2)) → compar x y ≤ 0

/-- The stack buffer when the loop of `click_qsort` is entered. -/
def initStack (n : Nat) : List Nat := 0 :: n :: List.replicate 18 0

/-! ## The sorter: the iterations of the main loop -/

/-- The variables of `click_qsort` when the condition of its loop is tested:
the capacity of the stack buffer, `stackpos`, `r` and the memory. -/
structure LoopState (α : Type) where
  stacksiz : Nat
  stackpos : Nat
  r : Int
  s : QState α

/-- One pass through the body of the loop `while (stackpos != 0 && r >= 0)` of
`click_qsort`, from a state in which the condition holds to the state in which
the condition is tested next.  The `break` after a failed `CLICK_LALLOC` leaves
`r = -ENOMEM`, with which the next test fails. -/
def click_qsort_pass {α : Type} (compar : α → α → Int) (lalloc : Nat → Bool) (size : Nat)
    (c : LoopState α) : Except Fault (LoopState α) :=
  if c.stackpos < 2 then Except.error Fault.wrap
  else do
    let stackpos := c.stackpos - 2
    let a ← rdStack c.s stackpos
    let b ← rdStack c.s (stackpos + 1)
    if a + 1 ≥ b then Except.ok { c with stackpos := stackpos }
    else do
      match ← growStack lalloc c.stacksiz stackpos c.s with
      | none => Except.ok { c with stackpos := stackpos, r := -ENOMEM }
      | some (stacksiz, s) => do
        -- partition
        let b ← rdStack s (stackpos + 1)
        let s ← wrStack s (stackpos + 3) b
        let (r, s) ← click_qsort_partition compar size stackpos s
        Except.ok { stacksiz := stacksiz, stackpos := stackpos + 4, r := r, s := s }

/-- The states at the start of the iterations of the loop of `click_qsort`
that are run from the state `c` on, in order: `c` itself when the condition of
the loop holds in it, then the states at the start of the later iterations. -/
def click_qsort_heads {α : Type} (compar : α → α → Int) (lalloc : Nat → Bool) (size : Nat) :
    Nat → LoopState α → List (LoopState α)
  | 0, _ => []
  | fuel + 1, c =>
    if c.stackpos ≠ 0 ∧ c.r ≥ 0 then
      c :: (match click_qsort_pass compar lalloc size c with
        | Except.ok c1 => click_qsort_heads compar lalloc size fuel c1
        | Except.error _ => [])
    else []

/-- The state in which `click_qsort` enters its loop. -/
def loopStart {α : Type} (base : List α) (n : Nat) : LoopState α :=
  { stacksiz := CLICK_QSORT_INITSTACK, stackpos := 2, r := 0,
    s := { base := base, stack := initStack n, ncmp := 0, nstore := 0 } }

/-- Stack cells read two at a time, from the bottom of the stack. -/
def pairUp : List Nat → List (Nat × Nat)
  | a :: b :: rest => (a, b) :: pairUp rest
  | _ => []

/-- The range descriptors on the stack in a state of the loop, the one at the
bottom of the stack first. -/
def descriptors {α : Type} (c : LoopState α) : List (Nat × Nat) :=
  pairUp (c.s.stack.take c.stackpos)

/-- The index `i` lies in the range of a stacked descriptor. -/
def Covered {α : Type} (c : LoopState α) (i : Nat) : Prop :=
  ∃ d ∈ descriptors c, d.1 ≤ i ∧ i < d.2

/-- The part of the loop invariant of `click_qsort` that is about the stack:
the stacked descriptors are the ghost list `ds` (top first), well-formed ranges
of the array, each one to the left of the ones above it. -/
structure StackInv {α : Type} (n : Nat) (ds : List (Nat × Nat)) (c : LoopState α) : Prop where
  cap : c.s.stack.length = c.stacksiz
  two_le : 2 ≤ c.stacksiz
  pos : c.stackpos = 2 * ds.length
  pos_le : c.stackpos ≤ c.stacksiz
  cells : ∀ i, i < c.stackpos → c.s.stack[i]? = (flat ds)[i]?
  len : c.s.base.length = n
  wf : ∀ d ∈ ds, d.1 ≤ d.2 ∧ d.2 ≤ n
  ordered : ds.Pairwise (fun d e => e.2 ≤ d.1)

/-- The property of the iterations of the loop, for a list `H` of states at
the start of iterations and the final array `fin`: in every state of `H` the
stacked descriptors are ranges inside `[0, n)`, each one ending where or before
the next one starts, and an index that none of them covers holds the record of
`fin`, and holds it and stays uncovered in every later state of `H`. -/
def Settling {α : Type} (n : Nat) (fin : List α) (H : List (LoopState α)) : Prop :=
  ∀ (k : Nat) (c : LoopState α), H[k]? = some c →
    (descriptors c).Pairwise (fun d e => d.2 ≤ e.1) ∧
    (∀ d ∈ descriptors c, d.1 ≤ d.2 ∧ d.2 ≤ n) ∧
    ∀ i, i < n → ¬ Covered c i →
      fin[i]? = c.s.base[i]? ∧
      ∀ (m : Nat) (c1 : LoopState α), k ≤ m → H[m]? = some c1 →
        ¬ Covered c1 i ∧ c1.s.base[i]? = c.s.base[i]?

/-! ## The debugging allocator (`CLICK_DMALLOC` in a kernel module)

Conventions of the embedding:

* A `size_t` is a natural number below `SIZE_T_MOD`; `++`, `+=` and `-=` on the
  counters wrap modulo `SIZE_T_MOD`, and `--` takes `0` to `SIZE_T_MOD - 1`.
* A `Chunk *` is a `Ptr`: null, the address of the static sentinel `chunks`, or
  the address of a block handed out by the raw allocation primitive.  The
  `void *` values that `operator new` returns and `operator delete` receives are
  plain addresses, `0` for null.
* `heap a` is what the memory at address `a` holds when it is read as a `Chunk`
  header; `bytes a` is the byte at address `a`.  `CLICK_FREE` hands a block back
  to the raw allocation primitive and leaves what the memory holds as it is.
* The pointer that `CLICK_ALLOC` returns is an argument of `operator_new`.
* `click_chatter` appends a message to `chatter`.
* Storing through a null pointer is the fault `Fault.nullDeref`.
-/

/-- The constant `CHUNK_MAGIC`. -/
def CHUNK_MAGIC : Nat := 0xffff3f7f

/-- The constant `CHUNK_MAGIC_FREED`. -/
def CHUNK_MAGIC_FREED : Nat := 0xc66b04f5

/-- The number of values of a `size_t`. -/
def SIZE_T_MOD : Nat := 2 ^ 64

/-- The number of values of a `uint32_t`. -/
def UINT32_MOD : Nat := 2 ^ 32

/-- The value of `sizeof(Chunk)`: two `uint32_t`, one `size_t`, two pointers. -/
def SIZEOF_CHUNK : Nat := 32

/-- A value of type `Chunk *`. -/
inductive Ptr where
  | null
  | chunks
  | heap (a : Nat)
  deriving DecidableEq, Repr

/-- The structure `Chunk`; the field `where` of the source is `tag` here. -/
structure Chunk where
  magic : Nat
  tag : Nat
  size : Nat
  prev : Ptr
  next : Ptr
  deriving DecidableEq, Repr

/-- A message handed to `click_chatter`: the double-free report of `operator
delete`, its corruption report, or the report of `click_dmalloc_cleanup` for
one chunk (the calls of `click_chatter` of one iteration of its loop, gathered:
payload address, size, rendered origin tag and dumped bytes). -/
inductive Chatter where
  | doubleFree (addr size : Nat) (origin : List Char)
  | corruption (addr : Nat)
  | leak (addr size : Nat) (origin : List Char) (data : List Nat)
  deriving DecidableEq, Repr

/-- The global variables of the allocator and the memory. -/
structure DState where
  click_dmalloc_where : Nat
  click_dmalloc_curnew : Nat
  click_dmalloc_totalnew : Nat
  click_dmalloc_curmem : Nat
  click_dmalloc_maxmem : Nat
  chunks : Chunk
  heap : Nat → Chunk
  bytes : Nat → Nat
  chatter : List Chatter

/-- The string `hexstr` of `printable_where`. -/
def hexstr : List Char :=
  ['0', '1', '2', '3', '4', '5', '6', '7', '8', '9', 'A', 'B', 'C', 'D', 'E', 'F']

/-- The loop `for (int i = 24; i >= 0; i -= 8)` of `printable_where`: `s` holds
the characters stored in `wherebuf` so far. -/
def printable_where_loop (tag : Nat) : Nat → Int → List Char → List Char
  | 0, _, s => s
  | fuel + 1, i, s =>
    if i ≥ 0 then
      let ch := (tag >>> i.toNat) &&& 0xFF
      if ch ≥ 32 ∧ ch < 127 then
        printable_where_loop tag fuel (i - 8) (s ++ [Char.ofNat ch])
      else
        printable_where_loop tag fuel (i - 8)
          (s ++ ['%', hexstr.getD ((ch >>> 4) &&& 0xF) '0', hexstr.getD (ch &&& 0xF) '0'])
    else s

/-- The function `printable_where(c)`: the characters stored in `wherebuf` in
front of the terminating zero. -/
def printable_where (c : Chunk) : List Char :=
  printable_where_loop c.tag 5 24 []

/-- The initial values of the globals; what the memory holds is arbitrary. -/
def initState (heap : Nat → Chunk) (bytes : Nat → Nat) : DState :=
  { click_dmalloc_where := 0x3F3F3F3F
    click_dmalloc_curnew := 0
    click_dmalloc_totalnew := 0
    click_dmalloc_curmem := 0
    click_dmalloc_maxmem := 0
    chunks := { magic := CHUNK_MAGIC, tag := 0, size := 0, prev := Ptr.chunks, next := Ptr.chunks }
    heap := heap
    bytes := bytes
    chatter := [] }

/-- The store `p->next = q`. -/
def setNext (st : DState) (p q : Ptr) : Except Fault DState :=
  match p with
  | Ptr.null => Except.error Fault.nullDeref
  | Ptr.chunks => Except.ok { st with chunks := { st.chunks with next := q } }
  | Ptr.heap a =>
    Except.ok { st with heap := Function.update st.heap a { st.heap a with next := q } }

/-- The store `p->prev = q`. -/
def setPrev (st : DState) (p q : Ptr) : Except Fault DState :=
  match p with
  | Ptr.null => Except.error Fault.nullDeref
  | Ptr.chunks => Except.ok { st with chunks := { st.chunks with prev := q } }
  | Ptr.heap a =>
    Except.ok { st with heap := Function.update st.heap a { st.heap a with prev := q } }

/-- The function `operator new(sz)` when `CLICK_ALLOC(sz + sizeof(Chunk))` returns
the address `v` (`0` for a null pointer).  `operator new[]` has the same body. -/
def operator_new (st : DState) (sz v : Nat) : Except Fault (Nat × DState) :=
  let st := { st with click_dmalloc_curnew := (st.click_dmalloc_curnew + 1) % SIZE_T_MOD }
  let st := { st with click_dmalloc_totalnew := (st.click_dmalloc_totalnew + 1) % SIZE_T_MOD }
  if v = 0 then Except.error Fault.nullDeref
  else do
    let c : Chunk :=
      { magic := CHUNK_MAGIC, size := sz, tag := st.click_dmalloc_where, prev := Ptr.chunks,
        next := st.chunks.next }
    let st := { st with heap := Function.update st.heap v c }
    -- c->next->prev = chunks.next = c;
    let st := { st with chunks := { st.chunks with next := Ptr.heap v } }
    let st ← setPrev st (st.heap v).next (Ptr.heap v)
    let st := { st with click_dmalloc_curmem := (st.click_dmalloc_curmem + sz) % SIZE_T_MOD }
    let st :=
      if st.click_dmalloc_curmem > st.click_dmalloc_maxmem then
        { st with click_dmalloc_maxmem := st.click_dmalloc_curmem }
      else st
    Except.ok (v + SIZEOF_CHUNK, st)

/-- The function `operator delete(addr)`.  `operator delete[]` has the same body
(its corruption message names `delete[]`). -/
def operator_delete (st : DState) (addr : Nat) : Except Fault DState :=
  if addr ≠ 0 then
    let curnew := if st.click_dmalloc_curnew = 0 then SIZE_T_MOD - 1 else st.click_dmalloc_curnew - 1
    let st := { st with click_dmalloc_curnew := curnew }
    let c := addr - SIZEOF_CHUNK
    if (st.heap c).magic = CHUNK_MAGIC_FREED then
      let msg := Chatter.doubleFree addr (st.heap c).size (printable_where (st.heap c))
      Except.ok { st with chatter := st.chatter ++ [msg] }
    else if (st.heap c).magic ≠ CHUNK_MAGIC then
      Except.ok { st with chatter := st.chatter ++ [Chatter.corruption addr] }
    else do
      let curmem :=
        (st.click_dmalloc_curmem + SIZE_T_MOD - (st.heap c).size % SIZE_T_MOD) % SIZE_T_MOD
      let st := { st with click_dmalloc_curmem := curmem }
      let freed : Chunk := { st.heap c with magic := CHUNK_MAGIC_FREED }
      let st := { st with heap := Function.update st.heap c freed }
      let st ← setNext st (st.heap c).prev (st.heap c).next
      let st ← setPrev st (st.heap c).next (st.heap c).prev
      -- CLICK_FREE((void *)c);
      Except.ok st
  else Except.ok st

/-- The bytes printed by the loop `for (int i = 0; i < 20 && i < c->size; i++)`. -/
def dumpData (st : DState) (c : Nat) : List Nat :=
  (List.range (min 20 (st.heap c).size)).map (fun i => st.bytes (c + SIZEOF_CHUNK + i))

/-- The function `click_dmalloc_cleanup()`: the loop
`while (chunks.next != &chunks)`. -/
def click_dmalloc_cleanup : Nat → DState → Except Fault DState
  | 0, st => if st.chunks.next ≠ Ptr.chunks then Except.error Fault.fuel else Except.ok st
  | fuel + 1, st =>
    if st.chunks.next ≠ Ptr.chunks then
      match st.chunks.next with
      | Ptr.heap c => do
        let st := { st with chunks := { st.chunks with next := (st.heap c).next } }
        let st ← setPrev st (st.heap c).next Ptr.chunks
        let msg := Chatter.leak (c + SIZEOF_CHUNK) (st.heap c).size (printable_where (st.heap c))
          (dumpData st c)
        let st := { st with chatter := st.chatter ++ [msg] }
        -- CLICK_FREE((void *)c);
        click_dmalloc_cleanup fuel st
      | _ => Except.error Fault.nullDeref
    else Except.ok st

/-- A call made by the program that uses the allocator: it sets
`click_dmalloc_where`, calls `operator new` (the raw allocation primitive
returning `v`), or calls `operator delete`. -/
inductive Op where
  | tag (w : Nat)
  | alloc (sz v : Nat)
  | release (addr : Nat)
  deriving DecidableEq, Repr

/-- The effect of one call on the allocator. -/
def step (st : DState) : Op → Except Fault DState
  | Op.tag w => Except.ok { st with click_dmalloc_where := w % UINT32_MOD }
  | Op.alloc sz v => (operator_new st sz v).map Prod.snd
  | Op.release addr => operator_delete st addr

/-- The effect of a sequence of calls. -/
def run : DState → List Op → Except Fault DState
  | st, [] => Except.ok st
  | st, op :: ops => do
    let st ← step st op
    run st ops

/-- The function `click_lalloc(size)` when `vmalloc` or `kmalloc` returns the
address `v` (`0` for a null pointer): the counters are counted up only for a
non-null block. -/
def click_lalloc (st : DState) (_size v : Nat) : Nat × DState :=
  if v ≠ 0 then
    (v, { st with
      click_dmalloc_curnew := (st.click_dmalloc_curnew + 1) % SIZE_T_MOD
      click_dmalloc_totalnew := (st.click_dmalloc_totalnew + 1) % SIZE_T_MOD })
  else (v, st)

/-- A live allocation: the address of its header, the size asked for, and the
origin tag in force when it was made. -/
structure Block where
  addr : Nat
  size : Nat
  tag : Nat
  deriving DecidableEq, Repr

/-- What a call sequence has done so far, told without the allocator: the
origin tag in force, the allocations made and not released (the most recent
first), and the addresses of the headers of released allocations whose memory
the raw allocation primitive has not handed out again. -/
structure Ghost where
  tag : Nat
  live : List Block
  freed : List Nat
  deriving DecidableEq, Repr

/-- The bookkeeping of one call. -/
def Ghost.step (g : Ghost) : Op → Ghost
  | Op.tag w => { g with tag := w % UINT32_MOD }
  | Op.alloc sz v =>
    { g with
      live := { addr := v, size := sz, tag := g.tag } :: g.live
      freed := g.freed.filter
        (fun a => decide (a + SIZEOF_CHUNK ≤ v ∨ v + SIZEOF_CHUNK + sz ≤ a)) }
  | Op.release addr =>
    { g with
      live := g.live.filter (fun b => decide (b.addr + SIZEOF_CHUNK ≠ addr))
      freed :=
        if g.live.any (fun b => decide (b.addr + SIZEOF_CHUNK = addr)) then
          (addr - SIZEOF_CHUNK) :: g.freed
        else g.freed }

/-- The bookkeeping of a sequence of calls. -/
def Ghost.steps (g : Ghost) : List Op → Ghost
  | [] => g
  | op :: ops => (g.step op).steps ops

/-- Before any call. -/
def ghost0 : Ghost := { tag := 0x3F3F3F3F, live := [], freed := [] }

/-- Two blocks of memory (header and payload) do not overlap. -/
def Apart (a b : Block) : Prop :=
  a.addr + SIZEOF_CHUNK + a.size ≤ b.addr ∨ b.addr + SIZEOF_CHUNK + b.size ≤ a.addr

/-- A call the allocator is made for.  For `operator new`: the raw allocation
primitive returns a non-null block inside the address space that overlaps no
live block.  For `operator delete`: the pointer is null or the pointer of a live
allocation (no misuse); when `strict` is `false` it may also be a pointer that
was released before and whose memory has not been handed out again (a double
free). -/
def okOp (strict : Bool) (g : Ghost) : Op → Prop
  | Op.tag _ => True
  | Op.alloc sz v =>
    v ≠ 0 ∧ v + SIZEOF_CHUNK + sz ≤ SIZE_T_MOD ∧
      ∀ b ∈ g.live, Apart { addr := v, size := sz, tag := g.tag } b
  | Op.release addr =>
    addr = 0 ∨ (∃ b ∈ g.live, b.addr + SIZEOF_CHUNK = addr) ∨
      (strict = false ∧ ∃ a ∈ g.freed, a + SIZEOF_CHUNK = addr)

/-- A sequence of such calls: without misuse when `strict` is `true`, with
double frees allowed when it is `false`. -/
def Valid (strict : Bool) : Ghost → List Op → Prop
  | _, [] => True
  | g, op :: ops => okOp strict g op ∧ Valid strict (g.step op) ops

/-- The value of `p->next`. -/
def nextOf (st : DState) : Ptr → Ptr
  | Ptr.null => Ptr.null
  | Ptr.chunks => st.chunks.next
  | Ptr.heap a => (st.heap a).next

/-- The value of `p->prev`. -/
def prevOf (st : DState) : Ptr → Ptr
  | Ptr.null => Ptr.null
  | Ptr.chunks => st.chunks.prev
  | Ptr.heap a => (st.heap a).prev

/-- The chunk `q` follows the chunk `p` in the registry. -/
def Link (st : DState) (p q : Ptr) : Prop := nextOf st p = q ∧ prevOf st q = p

/-- The headers of a list of blocks. -/
def ptrs (l : List Block) : List Ptr := l.map (fun b => Ptr.heap b.addr)

/-- The registry holds exactly the blocks `l`, in this order from
`chunks.next` on: a circular doubly-linked list through the sentinel. -/
def Ring (st : DState) (l : List Block) : Prop :=
  List.Chain' (Link st) (Ptr.chunks :: (ptrs l ++ [Ptr.chunks]))

/-- The invariant of the allocator along the call sequences of `Valid`.  The
outstanding count and the absence of messages are part of it only without
misuse (`strict = true`). -/
structure AInv (strict : Bool) (g : Ghost) (st : DState) : Prop where
  tag_eq : st.click_dmalloc_where = g.tag
  ring : Ring st g.live
  hdr : ∀ b ∈ g.live, (st.heap b.addr).magic = CHUNK_MAGIC ∧
    (st.heap b.addr).size = b.size ∧ (st.heap b.addr).tag = b.tag
  gone : ∀ a ∈ g.freed, (st.heap a).magic = CHUNK_MAGIC_FREED
  apart : g.live.Pairwise Apart
  inside : ∀ b ∈ g.live, b.addr ≠ 0 ∧ b.addr + SIZEOF_CHUNK + b.size ≤ SIZE_T_MOD
  curnew : strict = true → st.click_dmalloc_curnew = g.live.length
  curmem : st.click_dmalloc_curmem = (g.live.map Block.size).sum
  maxmem : st.click_dmalloc_curmem ≤ st.click_dmalloc_maxmem
  quiet : strict = true → st.chatter = []

/-- The addresses taken by a list of blocks. -/
def cover : List Block → Finset Nat
  | [] => ∅
  | b :: l => Finset.Ico b.addr (b.addr + SIZEOF_CHUNK + b.size) ∪ cover l

/-- Everything but the `prev` and `next` links is the same in two states. -/
structure SameData (st st1 : DState) : Prop where
  tag_eq : st1.click_dmalloc_where = st.click_dmalloc_where
  curnew : st1.click_dmalloc_curnew = st.click_dmalloc_curnew
  totalnew : st1.click_dmalloc_totalnew = st.click_dmalloc_totalnew
  curmem : st1.click_dmalloc_curmem = st.click_dmalloc_curmem
  maxmem : st1.click_dmalloc_maxmem = st.click_dmalloc_maxmem
  bytes : st1.bytes = st.bytes
  chatter : st1.chatter = st.chatter
  hdr : ∀ a, (st1.heap a).magic = (st.heap a).magic ∧ (st1.heap a).size = (st.heap a).size ∧
    (st1.heap a).tag = (st.heap a).tag

/-- The state of `operator new` after `chunks.next = c`: the counters counted
up, the header of the new chunk written, the sentinel pointing to it. -/
def newLinked (st : DState) (sz v : Nat) : DState :=
  { st with
    click_dmalloc_curnew := (st.click_dmalloc_curnew + 1) % SIZE_T_MOD
    click_dmalloc_totalnew := (st.click_dmalloc_totalnew + 1) % SIZE_T_MOD
    heap := Function.update st.heap v
      { magic := CHUNK_MAGIC, size := sz, tag := st.click_dmalloc_where, prev := Ptr.chunks,
        next := st.chunks.next }
    chunks := { st.chunks with next := Ptr.heap v } }

/-- The end of `operator new`: `click_dmalloc_curmem += sz` and the update of
`click_dmalloc_maxmem`. -/
def newCounted (st : DState) (sz : Nat) : DState :=
  if (st.click_dmalloc_curmem + sz) % SIZE_T_MOD > st.click_dmalloc_maxmem then
    { st with
      click_dmalloc_curmem := (st.click_dmalloc_curmem + sz) % SIZE_T_MOD
      click_dmalloc_maxmem := (st.click_dmalloc_curmem + sz) % SIZE_T_MOD }
  else { st with click_dmalloc_curmem := (st.click_dmalloc_curmem + sz) % SIZE_T_MOD }

/-- The state of `operator delete` in front of the two unlinking stores: the
outstanding count counted down, the size taken off the current bytes, the
header marked as freed. -/
def delMarked (st : DState) (c : Nat) : DState :=
  { st with
    click_dmalloc_curnew :=
      if st.click_dmalloc_curnew = 0 then SIZE_T_MOD - 1 else st.click_dmalloc_curnew - 1
    click_dmalloc_curmem :=
      (st.click_dmalloc_curmem + SIZE_T_MOD - (st.heap c).size % SIZE_T_MOD) % SIZE_T_MOD
    heap := Function.update st.heap c { st.heap c with magic := CHUNK_MAGIC_FREED } }

/-- The values that `click_dmalloc_curmem` takes along a sequence of calls,
the value in the starting state first. -/
def curmemTrace : DState → List Op → List Nat
  | st, [] => [st.click_dmalloc_curmem]
  | st, op :: ops =>
    st.click_dmalloc_curmem ::
      (match step st op with
        | Except.ok st1 => curmemTrace st1 ops
        | Except.error _ => [])

/-- The largest value of a list of byte counts. -/
def highest (l : List Nat) : Nat := l.foldr max 0

/-- The report that `click_dmalloc_cleanup` is to give for a leaked block: the
payload address, the size, the rendering of the origin tag and the first bytes
of the payload. -/
def leakReport (bytes : Nat → Nat) (b : Block) : Chatter :=
  Chatter.leak (b.addr + SIZEOF_CHUNK) b.size (printable_where_loop b.tag 5 24 [])
    ((List.range (min 20 b.size)).map (fun i => bytes (b.addr + SIZEOF_CHUNK + i)))

/-- The four counters of a state: outstanding count, lifetime count, current
bytes, peak bytes. -/
def counters (st : DState) : Nat × Nat × Nat × Nat :=
  (st.click_dmalloc_curnew, st.click_dmalloc_totalnew, st.click_dmalloc_curmem,
    st.click_dmalloc_maxmem)

/-- The byte `(tag >> i) & 0xFF` that the loop of `printable_where` looks at. -/
def byteOf (tag i : Nat) : Nat := (tag >>> i) &&& 0xFF

/-- What the body of the loop of `printable_where` stores for the byte `ch`. -/
def renderByte (ch : Nat) : List Char :=
  if ch ≥ 32 ∧ ch < 127 then [Char.ofNat ch]
  else ['%', hexstr.getD ((ch >>> 4) &&& 0xF) '0', hexstr.getD (ch &&& 0xF) '0']

/-- A header whose `magic` field has been overwritten with `m`. -/
def overwriteMagic (st : DState) (c m : Nat) : DState :=
  { st with heap := Function.update st.heap c { st.heap c with magic := m } }

/-! ## The allocator: the rendering of the origin tag in the words of the specification -/

/-- The uppercase hexadecimal digit of the value `d` (below 16): `0` to `9`,
then `A` to `F`. -/
def hexDigit (d : Nat) : Char :=
  if d < 10 then Char.ofNat (48 + d) else Char.ofNat (55 + d)

/-- The rendering of one byte in the words of the specification: the
character itself when the byte is printable, otherwise a percent sign and the
two uppercase hexadecimal digits of the byte. -/
def escapeByte (b : Nat) : List Char :=
  if 32 ≤ b ∧ b < 127 then [Char.ofNat b] else ['%', hexDigit (b / 16), hexDigit (b % 16)]

/-- The four bytes of a 32-bit value, the most significant first. -/
def bytesOf (tag : Nat) : List Nat :=
  [tag / 2 ^ 24 % 256, tag / 2 ^ 16 % 256, tag / 2 ^ 8 % 256, tag % 256]

/-- The rendering of an origin tag in the words of the specification. -/
def escapeTag (tag : Nat) : List Char :=
  (bytesOf tag).foldr (fun b s => escapeByte b ++ s) []

/-- The number of bytes of a tag that are not printable. -/
def unprintable (tag : Nat) : Nat :=
  (bytesOf tag).countP (fun b => decide (¬ (32 ≤ b ∧ b < 127)))

/-! ## The inputs of the examples -/

/-- The comparator of two integers used in the examples. -/
def intCompar (a b : Int) : Int := if a < b then -1 else if a = b then 0 else 1

/-- A comparator that is no order at all: every record is "after" every record. -/
def alwaysAfter (_ _ : Nat) : Int := 1

/-- Twenty records: with `alwaysAfter` the descriptor stack outgrows its first
buffer. -/
def twenty : List Nat :=
  [0, 1, 2, 3, 4, 5, 6, 7, 8, 9, 10, 11, 12, 13, 14, 15, 16, 17, 18, 19]

/-- A memory that holds zeros (and null pointers) everywhere. -/
def heapZero : Nat → Chunk :=
  fun _ => { magic := 0, tag := 0, size := 0, prev := Ptr.null, next := Ptr.null }

/-- Payload bytes that are all zero. -/
def bytesZero : Nat → Nat := fun _ => 0

/-- A chunk header with the initial origin tag `0x3F3F3F3F`. -/
def questionChunk : Chunk :=
  { magic := CHUNK_MAGIC, tag := 0x3F3F3F3F, size := 0, prev := Ptr.chunks, next := Ptr.chunks }

/-- The array and the four-slot stack window of the example of C15: the
records 3, 3, 1 and the range `[0, 3)`. -/
def threeRecords : QState Int :=
  { base := [3, 3, 1], stack := [0, 0, 0, 3], ncmp := 0, nstore := 0 }

/-- The state reached from the initial state over a memory of zeros by a
sequence of calls (the initial state itself if a fault occurs). -/
def stateAfter (ops : List Op) : DState :=
  match run (initState heapZero bytesZero) ops with
  | Except.ok st => st
  | Except.error _ => initState heapZero bytesZero

/-- Two allocations, the header of the first one overwritten afterwards. -/
def corruptedState : DState :=
  overwriteMagic (stateAfter [Op.alloc 16 4096, Op.alloc 8 8192]) 4096 0xdeadbeef

/-- The calls of the example of a drain: three chunks are allocated and never
released. -/
def threeLeaks : List Op :=
  [Op.alloc 16 4096, Op.alloc 32 8192, Op.alloc 8 12288]

theorem cons_set_perm {α : Type} (a y : α) : ∀ (l : List α) (j : Nat), l[j]? = some y →
    (y :: l.set j a).Perm (a :: l)
  | [], _, h => by simp at h
  | b :: l, 0, h => by
    simp at h
    subst h
    simpa using List.Perm.swap a b l
  | b :: l, j + 1, h => by
    simp at h
    have ih := cons_set_perm a y l j h
    exact ((List.Perm.swap b y _).trans (ih.cons b)).trans (List.Perm.swap a b l)

/-- Exchanging the records at two positions gives a permutation. -/
theorem swap_perm {α : Type} : ∀ (l : List α) (i j : Nat) (x y : α),
    l[i]? = some x → l[j]? = some y → ((l.set i y).set j x).Perm l
  | [], _, _, _, _, h, _ => by simp at h
  | a :: l, 0, 0, x, y, hi, hj => by
    simp at hi hj
    subst hi
    simp
  | a :: l, 0, j + 1, x, y, hi, hj => by
    simp at hi hj
    subst hi
    simpa using cons_set_perm a y l j hj
  | a :: l, i + 1, 0, x, y, hi, hj => by
    simp at hi hj
    subst hj
    simpa using cons_set_perm a x l i hi
  | a :: l, i + 1, j + 1, x, y, hi, hj => by
    simp at hi hj
    simpa using (swap_perm l i j x y hi hj).cons a

theorem SegPerm.seg_refl {α : Type} (lo hi : Nat) (a : List α) : SegPerm lo hi a a :=
  ⟨rfl, List.Perm.refl a, fun _ _ => rfl, fun j y h1 h2 h3 => ⟨j, h1, h2, h3⟩⟩

theorem SegPerm.seg_trans {α : Type} {lo hi : Nat} {a b c : List α}
    (h1 : SegPerm lo hi a b) (h2 : SegPerm lo hi b c) : SegPerm lo hi a c := by
  refine ⟨h2.len.trans h1.len, h2.perm.trans h1.perm, ?_, ?_⟩
  · intro i hi1
    rw [h2.frame i hi1, h1.frame i hi1]
  · intro j y hj1 hj2 hy
    obtain ⟨k, hk1, hk2, hk⟩ := h2.from_seg j y hj1 hj2 hy
    exact h1.from_seg k y hk1 hk2 hk

theorem SegPerm.seg_swap {α : Type} {lo hi : Nat} (a : List α) (i k : Nat) (x y : α)
    (hi1 : lo ≤ i) (hi2 : i < hi) (hk1 : lo ≤ k) (hk2 : k < hi)
    (hx : a[i]? = some x) (hy : a[k]? = some y) :
    SegPerm lo hi a ((a.set i y).set k x) := by
  have hil : i < a.length := by
    rcases Nat.lt_or_ge i a.length with h | h
    · exact h
    · rw [List.getElem?_eq_none h] at hx; cases hx
  have hkl : k < a.length := by
    rcases Nat.lt_or_ge k a.length with h | h
    · exact h
    · rw [List.getElem?_eq_none h] at hy; cases hy
  refine ⟨by simp, swap_perm a i k x y hx hy, ?_, ?_⟩
  · intro m hm
    have h1 : k ≠ m := by omega
    have h2 : i ≠ m := by omega
    rw [List.getElem?_set_ne h1, List.getElem?_set_ne h2]
  · intro j z hj1 hj2 hz
    by_cases hjk : k = j
    · subst hjk
      rw [List.getElem?_set_self (by simpa using hkl)] at hz
      cases hz
      exact ⟨i, hi1, hi2, hx⟩
    · rw [List.getElem?_set_ne hjk] at hz
      by_cases hji : i = j
      · subst hji
        rw [List.getElem?_set_self hil] at hz
        cases hz
        exact ⟨k, hk1, hk2, hy⟩
      · rw [List.getElem?_set_ne hji] at hz
        exact ⟨j, hj1, hj2, hz⟩

/-! ## The sorter: the monitored accesses -/

theorem getElem?_lt_length {α : Type} {l : List α} {i : Nat} {x : α} (h : l[i]? = some x) :
    i < l.length := by
  rcases Nat.lt_or_ge i l.length with h1 | h1
  · exact h1
  · rw [List.getElem?_eq_none h1] at h; cases h

theorem exists_getElem? {α : Type} {l : List α} {i : Nat} (h : i < l.length) :
    ∃ x, l[i]? = some x := ⟨l[i], List.getElem?_eq_getElem h⟩

theorem rdBase_ok {α : Type} {s : QState α} {lo hi i : Nat} {x : α}
    (h1 : lo ≤ i) (h2 : i < hi) (hx : s.base[i]? = some x) :
    rdBase s lo hi i = Except.ok x := by
  simp [rdBase, h1, h2, hx]

theorem wrBase_ok {α : Type} (s : QState α) (lo hi i : Nat) (x : α)
    (h1 : lo ≤ i) (h2 : i < hi) (h3 : i < s.base.length) :
    wrBase s lo hi i x =
      Except.ok { s with base := s.base.set i x, nstore := s.nstore + 1 } := by
  simp [wrBase, h1, h2, h3]

theorem rdStack_ok {α : Type} {s : QState α} {i v : Nat} (h : s.stack[i]? = some v) :
    rdStack s i = Except.ok v := by
  simp [rdStack, h]

theorem wrStack_ok {α : Type} {s : QState α} {i : Nat} (v : Nat) (h : i < s.stack.length) :
    wrStack s i v = Except.ok { s with stack := s.stack.set i v } := by
  simp [wrStack, h]

@[simp] theorem tick_base {α : Type} (s : QState α) : (tick s).base = s.base := rfl

@[simp] theorem tick_stack {α : Type} (s : QState α) : (tick s).stack = s.stack := rfl

@[simp] theorem tick_nstore {α : Type} (s : QState α) : (tick s).nstore = s.nstore := rfl

@[simp] theorem tick_ncmp {α : Type} (s : QState α) : (tick s).ncmp = s.ncmp + 1 := rfl

/-! ## The sorter: the three-way partition loop -/

theorem dutch_spec {α : Type} (compar : α → α → Int) (PL : α → Prop) (lo hi : Nat) (pivot : α)
    (a0 : List α) (stk : List Nat) (hPL : ∀ x, compar x pivot < 0 → PL x) :
    ∀ (fuel left middle right : Nat) (s : QState α),
      DutchInv compar PL lo hi pivot a0 stk left middle right s →
      right + 1 - middle ≤ fuel →
      ∃ l r s1, dutch compar lo hi pivot fuel left middle right s = Except.ok (l, r, s1) ∧
        DutchInv compar PL lo hi pivot a0 stk l (r + 1) r s1
  | 0, left, middle, right, s, inv, hf => by
    have hm : ¬ middle ≤ right := by omega
    have hmr : middle = right + 1 := by have := inv.mid_le; omega
    refine ⟨left, right, s, by simp [dutch, hm], ?_⟩
    rw [← hmr]; exact inv
  | fuel + 1, left, middle, right, s, inv, hf => by
    by_cases hm : middle ≤ right
    · have hlen : s.base.length = a0.length := inv.seg.len
      have hhi := inv.hi_le
      have h1 := inv.lo_lt
      have h2 := inv.left_lt
      have h3 := inv.right_lt
      obtain ⟨x, hx⟩ := exists_getElem? (l := s.base) (i := middle) (by omega)
      have hrd : rdBase s lo hi middle = Except.ok x := rdBase_ok (by omega) (by omega) hx
      rcases lt_trichotomy (compar x pivot) 0 with hc | hc | hc
      · -- the record goes to the low region
        obtain ⟨t, ht⟩ := exists_getElem? (l := s.base) (i := left) (by omega)
        have hne : middle ≠ left := by omega
        have hlm : left ≠ middle := by omega
        have hc0 : compar x pivot ≠ 0 := by omega
        let s1 : QState α :=
          { base := (s.base.set left x).set middle t, stack := s.stack, ncmp := s.ncmp + 1,
            nstore := s.nstore + 1 + 1 }
        have inv1 : DutchInv compar PL lo hi pivot a0 stk (left + 1) (middle + 1) right s1 := by
          refine ⟨inv.stack_eq, inv.seg.seg_trans (SegPerm.seg_swap s.base left middle t x
            (by omega) (by omega) (by omega) (by omega) ht hx), hhi, by omega, by omega,
            by omega, h3, ?_, ?_, ?_⟩
          · intro i y hi1 hi2 hy
            simp only [s1] at hy
            rw [List.getElem?_set_ne (by omega)] at hy
            by_cases hil : left = i
            · subst hil
              rw [List.getElem?_set_self (by omega)] at hy
              cases hy
              exact hPL _ hc
            · rw [List.getElem?_set_ne hil] at hy
              exact inv.regL i y hi1 (by omega) hy
          · intro i y hi1 hi2 hy
            simp only [s1] at hy
            by_cases him : middle = i
            · subst him
              rw [List.getElem?_set_self (by simp; omega)] at hy
              cases hy
              exact inv.regE left _ (le_refl _) h2 ht
            · rw [List.getElem?_set_ne him, List.getElem?_set_ne (by omega)] at hy
              exact inv.regE i y (by omega) (by omega) hy
          · intro i y hi1 hi2 hy
            simp only [s1] at hy
            rw [List.getElem?_set_ne (by omega), List.getElem?_set_ne (by omega)] at hy
            exact inv.regR i y hi1 hi2 hy
        obtain ⟨l, r, s2, hrun, inv2⟩ :=
          dutch_spec compar PL lo hi pivot a0 stk hPL fuel (left + 1) (middle + 1) right s1 inv1
            (by omega)
        refine ⟨l, r, s2, ?_, inv2⟩
        rw [← hrun]
        have hrdl : rdBase (tick s) lo hi left = Except.ok t :=
          rdBase_ok (by omega) (by omega) ht
        have hrdm : rdBase (tick s) lo hi middle = Except.ok x :=
          rdBase_ok (by omega) (by omega) hx
        simp [dutch, hm, hrd, hc, hc0, hne, hrdl, hrdm, bind, Except.bind,
          wrBase_ok (tick s) lo hi left x (by omega) (by omega) (by simp; omega)]
        rw [wrBase_ok _ lo hi _ t (by omega) (by omega) (by simp; omega)]
      · -- the record stays in the middle region
        have inv1 : DutchInv compar PL lo hi pivot a0 stk left (middle + 1) right (tick s) := by
          refine ⟨inv.stack_eq, inv.seg, hhi, h1, by omega, by omega, h3, inv.regL, ?_, inv.regR⟩
          intro i y hi1 hi2 hy
          by_cases him : i = middle
          · subst him
            rw [tick_base, hx] at hy
            cases hy
            exact Or.inl hc
          · exact inv.regE i y hi1 (by omega) hy
        obtain ⟨l, r, s2, hrun, inv2⟩ :=
          dutch_spec compar PL lo hi pivot a0 stk hPL fuel left (middle + 1) right (tick s) inv1
            (by omega)
        refine ⟨l, r, s2, ?_, inv2⟩
        rw [← hrun]
        simp [dutch, hm, hrd, hc, bind, Except.bind]
      · -- the record goes to the high region
        have hc1 : ¬ compar x pivot < 0 := by omega
        have hc0 : compar x pivot ≠ 0 := by omega
        have hr0 : right ≠ 0 := by omega
        by_cases hmr : middle = right
        · subst hmr
          have inv1 : DutchInv compar PL lo hi pivot a0 stk left middle (middle - 1) (tick s) := by
            refine ⟨inv.stack_eq, inv.seg, hhi, h1, h2, by omega, by omega, inv.regL, inv.regE, ?_⟩
            intro i y hi1 hi2 hy
            by_cases hir : i = middle
            · subst hir
              rw [tick_base, hx] at hy
              cases hy
              exact hc
            · exact inv.regR i y (by omega) hi2 hy
          obtain ⟨l, r, s2, hrun, inv2⟩ :=
            dutch_spec compar PL lo hi pivot a0 stk hPL fuel left middle (middle - 1) (tick s) inv1
              (by omega)
          refine ⟨l, r, s2, ?_, inv2⟩
          rw [← hrun]
          simp [dutch, hrd, hc1, hc, hc0, hr0, bind, Except.bind]
        · obtain ⟨t, ht⟩ := exists_getElem? (l := s.base) (i := right) (by omega)
          let s1 : QState α :=
            { base := (s.base.set right x).set middle t, stack := s.stack, ncmp := s.ncmp + 1,
              nstore := s.nstore + 1 + 1 }
          have inv1 : DutchInv compar PL lo hi pivot a0 stk left middle (right - 1) s1 := by
            refine ⟨inv.stack_eq, inv.seg.seg_trans (SegPerm.seg_swap s.base right middle t x
              (by omega) (by omega) (by omega) (by omega) ht hx), hhi, h1, h2,
              by omega, by omega, ?_, ?_, ?_⟩
            · intro i y hi1 hi2 hy
              simp only [s1] at hy
              rw [List.getElem?_set_ne (by omega), List.getElem?_set_ne (by omega)] at hy
              exact inv.regL i y hi1 hi2 hy
            · intro i y hi1 hi2 hy
              simp only [s1] at hy
              rw [List.getElem?_set_ne (by omega), List.getElem?_set_ne (by omega)] at hy
              exact inv.regE i y hi1 hi2 hy
            · intro i y hi1 hi2 hy
              simp only [s1] at hy
              rw [List.getElem?_set_ne (by omega)] at hy
              by_cases hir : right = i
              · subst hir
                rw [List.getElem?_set_self (by omega)] at hy
                cases hy
                exact hc
              · rw [List.getElem?_set_ne hir] at hy
                exact inv.regR i y (by omega) hi2 hy
          obtain ⟨l, r, s2, hrun, inv2⟩ :=
            dutch_spec compar PL lo hi pivot a0 stk hPL fuel left middle (right - 1) s1 inv1
              (by omega)
          refine ⟨l, r, s2, ?_, inv2⟩
          rw [← hrun]
          have hrdl : rdBase (tick s) lo hi right = Except.ok t :=
            rdBase_ok (by omega) (by omega) ht
          have hrdm : rdBase (tick s) lo hi middle = Except.ok x :=
            rdBase_ok (by omega) (by omega) hx
          simp [dutch, hm, hrd, hc1, hc, hc0, hmr, hr0, hrdl, hrdm, bind, Except.bind,
            wrBase_ok (tick s) lo hi right x (by omega) (by omega) (by simp; omega)]
          rw [wrBase_ok _ lo hi _ t (by omega) (by omega) (by simp; omega)]
    · have hmr : middle = right + 1 := by have := inv.mid_le; omega
      refine ⟨left, right, s, by simp [dutch, hm], ?_⟩
      rw [← hmr]; exact inv

/-! ## The sorter: the pre-scan loop -/

theorem prescan_spec {α : Type} (compar : α → α → Int) (lo hi right : Nat) :
    ∀ (fuel left : Nat) (s : QState α),
      lo ≤ left → left ≤ right → right < hi → hi ≤ s.base.length → right - left ≤ fuel →
      (∀ i x y, lo ≤ i → i < left → s.base[i]? = some x → s.base[i + 1]? = some y →
        compar x y ≤ 0) →
      ∃ inv l s1, prescan compar lo hi right fuel left s = Except.ok (inv, l, s1) ∧
        s1.base = s.base ∧ s1.stack = s.stack ∧ s1.nstore = s.nstore ∧
        s1.ncmp = s.ncmp + (l - left) + (if inv then 1 else 0) ∧
        left ≤ l ∧ l ≤ right ∧
        (∀ i x y, lo ≤ i → i < l → s.base[i]? = some x → s.base[i + 1]? = some y →
          compar x y ≤ 0) ∧
        (inv = true → l < right ∧
          ∃ x y, s.base[l]? = some x ∧ s.base[l + 1]? = some y ∧ 0 < compar x y) ∧
        (inv = false → l = right)
  | 0, left, s, h1, h2, h3, h4, hf, hch => by
    have hl : ¬ left < right := by omega
    exact ⟨false, left, s, by simp [prescan, hl], rfl, rfl, rfl, by simp, le_refl _, h2, hch,
      by simp, fun _ => by omega⟩
  | fuel + 1, left, s, h1, h2, h3, h4, hf, hch => by
    by_cases hl : left < right
    · obtain ⟨x, hx⟩ := exists_getElem? (l := s.base) (i := left) (by omega)
      obtain ⟨y, hy⟩ := exists_getElem? (l := s.base) (i := left + 1) (by omega)
      have hrx : rdBase s lo hi left = Except.ok x := rdBase_ok (by omega) (by omega) hx
      have hry : rdBase s lo hi (left + 1) = Except.ok y := rdBase_ok (by omega) (by omega) hy
      by_cases hc : 0 < compar x y
      · refine ⟨true, left, tick s, by simp [prescan, hl, hrx, hry, hc, bind, Except.bind],
          rfl, rfl, rfl, by simp, le_refl _, h2, hch, fun _ => ⟨hl, x, y, hx, hy, hc⟩, by simp⟩
      · have hch1 : ∀ i u v, lo ≤ i → i < left + 1 → (tick s).base[i]? = some u →
            (tick s).base[i + 1]? = some v → compar u v ≤ 0 := by
          intro i u v hi1 hi2 hu hv
          by_cases hil : i = left
          · subst hil
            rw [tick_base] at hu hv
            rw [hx] at hu; rw [hy] at hv
            cases hu; cases hv
            omega
          · exact hch i u v hi1 (by omega) hu hv
        obtain ⟨inv, l, s1, hrun, hb, hs, hn, hk, hl1, hl2, hch2, hT, hF⟩ :=
          prescan_spec compar lo hi right fuel (left + 1) (tick s) (by omega) (by omega) h3
            (by simpa using h4) (by omega) hch1
        refine ⟨inv, l, s1, ?_, hb, hs, hn, ?_, by omega, hl2, hch2, hT, hF⟩
        · rw [← hrun]
          simp [prescan, hl, hrx, hry, hc, bind, Except.bind]
        · rw [hk, tick_ncmp]; omega
    · exact ⟨false, left, s, by simp [prescan, hl], rfl, rfl, rfl, by simp, le_refl _, h2, hch,
        by simp, fun _ => by omega⟩

/-! ## The sorter: comparators -/

theorem IsTotalPreorder.self_le {α : Type} {compar : α → α → Int} (h : IsTotalPreorder compar)
    (a : α) : compar a a ≤ 0 := by
  by_cases h0 : 0 ≤ compar a a
  · exact h.total a a h0
  · omega

/-- Adjacent pairs in order give all pairs in order. -/
theorem chain_pairs {α : Type} {compar : α → α → Int} (h : IsTotalPreorder compar)
    (a : List α) (lo r : Nat)
    (hch : ∀ i x y, lo ≤ i → i < r → a[i]? = some x → a[i + 1]? = some y → compar x y ≤ 0) :
    ∀ (d i : Nat) (x y : α), lo ≤ i → i + d ≤ r → a[i]? = some x → a[i + d]? = some y →
      compar x y ≤ 0
  | 0, i, x, y, _, _, hx, hy => by
    rw [Nat.add_zero, hx] at hy
    cases hy
    exact h.self_le x
  | d + 1, i, x, y, h1, h2, hx, hy => by
    obtain ⟨z, hz⟩ := exists_getElem? (l := a) (i := i + d) (by
      have := getElem?_lt_length hy; omega)
    have hxz := chain_pairs h a lo r hch d i x z h1 (by omega) hx hz
    have hzy := hch (i + d) z y (by omega) (by omega) hz hy
    exact h.trans x z y hxz hzy

/-! ## The sorter: one partition step -/

/-- What one call of `click_qsort_partition` on the range `[lo, hi)` does, for
an element size below the limit and a range of at least two records: it
returns `0`, stores two boundaries `l` and `h` in `stack[1]` and `stack[2]`,
rearranges the records of the range only, leaves strictly fewer records in
`[lo, l)` and `[h, hi)` together than the range had, and (for a total preorder)
every record before `h` is not after every later record from `l` on. -/
theorem partition_spec {α : Type} (compar : α → α → Int) (size sp lo hi : Nat) (s : QState α)
    (hsize : size < 64) (h0 : s.stack[sp]? = some lo) (h3 : s.stack[sp + 3]? = some hi)
    (hlt : lo + 1 < hi) (hlen : hi ≤ s.base.length) :
    ∃ l h s1, click_qsort_partition compar size sp s = Except.ok (0, s1) ∧
      s1.stack = (s.stack.set (sp + 1) l).set (sp + 2) h ∧
      SegPerm lo hi s.base s1.base ∧
      lo ≤ l ∧ l ≤ h ∧ h ≤ hi ∧ (l - lo) + (hi - h) + 1 ≤ hi - lo ∧
      (IsTotalPreorder compar → ∀ i j x y, lo ≤ i → i < j → j < hi → l ≤ j → i < h →
        s1.base[i]? = some x → s1.base[j]? = some y → compar x y ≤ 0) := by
  have hs3 : sp + 3 < s.stack.length := getElem?_lt_length h3
  have hsz : ¬ size ≥ 64 := by omega
  have hhi0 : hi ≠ 0 := by omega
  have hr0 : rdStack s (sp + 0) = Except.ok lo := rdStack_ok (by simpa using h0)
  have hr3 : rdStack s (sp + 3) = Except.ok hi := rdStack_ok h3
  obtain ⟨inv, l, s1, hrun, hb, hst, hn, hk, hl1, hl2, hch, hT, hF⟩ :=
    prescan_spec compar lo hi (hi - 1) (hi - 1 - lo) lo s (le_refl _) (by omega) (by omega) hlen
      (le_refl _) (fun i x y h1 h2 => by omega)
  cases inv with
  | false =>
    have hl : l = hi - 1 := hF rfl
    have hr0a : rdStack s1 (sp + 0) = Except.ok lo := rdStack_ok (by rw [hst]; simpa using h0)
    have hw1 := wrStack_ok (s := s1) (i := sp + 1) lo (by rw [hst]; omega)
    have hr3a : rdStack { s1 with stack := s1.stack.set (sp + 1) lo } (sp + 3) = Except.ok hi :=
      rdStack_ok (by
        show (s1.stack.set (sp + 1) lo)[sp + 3]? = some hi
        rw [List.getElem?_set_ne (by omega), hst]; exact h3)
    have hw2 := wrStack_ok (s := { s1 with stack := s1.stack.set (sp + 1) lo }) (i := sp + 2) hi
      (by simp [hst]; omega)
    refine ⟨lo, hi, { s1 with stack := (s1.stack.set (sp + 1) lo).set (sp + 2) hi }, ?_, ?_, ?_,
      le_refl _, by omega, le_refl _, by omega, ?_⟩
    · simp only [click_qsort_partition, hsz, if_false, hr0, hr3, hhi0, bind, Except.bind, hrun,
        hr0a, hw1, hr3a, hw2]
      rfl
    · simp [hst]
    · simp only [hb]; exact SegPerm.seg_refl lo hi s.base
    · intro hpre i j x y hi1 hij hj _ _ hx hy
      simp only [hb] at hx hy
      have hj' : j = i + (j - i) := by omega
      rw [hj'] at hy
      exact chain_pairs hpre s.base lo (hi - 1) (by rw [← hl]; exact hch) (j - i) i x y hi1
        (by omega) hx hy
  | true =>
    obtain ⟨hlr, x, y, hx, hy, hxy⟩ := hT rfl
    have hrx : rdBase s1 lo hi l = Except.ok x := rdBase_ok (by omega) (by omega) (by rw [hb]; exact hx)
    have hry : rdBase s1 lo hi (l + 1) = Except.ok y :=
      rdBase_ok (by omega) (by omega) (by rw [hb]; exact hy)
    have hw1 := wrBase_ok s1 lo hi l y (by omega) (by omega) (by rw [hb]; omega)
    have hw2 := wrBase_ok { s1 with base := s1.base.set l y, nstore := s1.nstore + 1 }
      lo hi (l + 1) x (by omega) (by omega) (by simp [hb]; omega)
    have inv0 : DutchInv compar (fun u => IsTotalPreorder compar → compar u x ≤ 0) lo hi x s.base
        s.stack (l + 1) (l + 1 + 1) (hi - 1)
        { base := (s1.base.set l y).set (l + 1) x, stack := s1.stack, ncmp := s1.ncmp,
          nstore := s1.nstore + 1 + 1 } := by
      refine ⟨hst, ?_, hlen, by omega, by omega, by omega, by omega, ?_, ?_, ?_⟩
      · simp only [hb]
        exact SegPerm.seg_swap s.base l (l + 1) x y (by omega) (by omega) (by omega) (by omega) hx hy
      · intro i u hi1 hi2 hu hpre
        simp only [hb] at hu
        rw [List.getElem?_set_ne (by omega)] at hu
        by_cases hil : l = i
        · subst hil
          rw [List.getElem?_set_self (by omega)] at hu
          cases hu
          exact hpre.total _ _ (le_of_lt hxy)
        · rw [List.getElem?_set_ne hil] at hu
          have hl' : l = i + (l - i) := by omega
          rw [hl'] at hx
          exact chain_pairs hpre s.base lo l hch (l - i) i u x hi1 (by omega) hu hx
      · intro i u hi1 hi2 hu
        have hil : i = l + 1 := by omega
        subst hil
        simp only [hb] at hu
        rw [List.getElem?_set_self (by simp; omega)] at hu
        cases hu
        exact Or.inr rfl
      · intro i u hi1 hi2 _
        omega
    obtain ⟨l2, r2, s2, hrun2, inv2⟩ :=
      dutch_spec compar (fun u => IsTotalPreorder compar → compar u x ≤ 0) lo hi x s.base s.stack
        (fun u hu _ => le_of_lt hu) (hi - 1 + 1 - (l + 1 + 1)) (l + 1) (l + 1 + 1) (hi - 1) _ inv0
        (le_refl _)
    have hw3 := wrStack_ok (s := s2) (i := sp + 1) l2 (by rw [inv2.stack_eq]; omega)
    have hw4 := wrStack_ok (s := { s2 with stack := s2.stack.set (sp + 1) l2 }) (i := sp + 2)
      (r2 + 1) (by simp [inv2.stack_eq]; omega)
    have g1 := inv2.lo_lt
    have g2 := inv2.left_lt
    have g3 := inv2.right_lt
    refine ⟨l2, r2 + 1, { s2 with stack := (s2.stack.set (sp + 1) l2).set (sp + 2) (r2 + 1) }, ?_, ?_,
      inv2.seg, by omega, by omega, by omega, by omega, ?_⟩
    · simp only [click_qsort_partition, hsz, if_false, hr0, hr3, hhi0, bind, Except.bind, hrun,
        hrx, hry, hw1, hw2, hrun2, hw3, hw4]
      rfl
    · simp [inv2.stack_eq]
    · intro hpre i j u v hi1 hij hj hlj hih hu hv
      simp only [] at hu hv
      have hux : compar u x ≤ 0 := by
        by_cases hil : i < l2
        · exact inv2.regL i u hi1 hil hu hpre
        · rcases inv2.regE i u (by omega) hih hu with h | h
          · omega
          · rw [h]; exact hpre.self_le x
      have hxv : compar x v ≤ 0 := by
        by_cases hjr : j < r2 + 1
        · rcases inv2.regE j v hlj hjr hv with h | h
          · exact hpre.total _ _ (by omega)
          · rw [h]; exact hpre.self_le x
        · exact hpre.total _ _ (le_of_lt (inv2.regR j v (by omega) hj hv))
      exact hpre.trans u x v hux hxv

/-! ## The sorter: the descriptor stack -/

theorem flat_length : ∀ ds : List (Nat × Nat), (flat ds).length = 2 * ds.length
  | [] => rfl
  | d :: ds => by simp [flat, flat_length ds]; omega

theorem getElem?_append_at {β : Type} (xs ys : List β) (k n : Nat) (h : xs.length = n) :
    (xs ++ ys)[n + k]? = ys[k]? := by
  subst h
  rw [List.getElem?_append_right (by omega)]
  congr 1
  omega

theorem growStack_spec {α : Type} (lalloc : Nat → Bool) (stacksiz sp : Nat) (s : QState α)
    (hcap : s.stack.length = stacksiz) (h2 : 2 ≤ stacksiz) (hsp : sp + 2 ≤ stacksiz) :
    (growStack lalloc stacksiz sp s = Except.ok none ∧ ¬ ∀ k, lalloc k = true) ∨
    ∃ sz sg, growStack lalloc stacksiz sp s = Except.ok (some (sz, sg)) ∧ sg.base = s.base ∧
      sg.ncmp = s.ncmp ∧ sg.nstore = s.nstore ∧
      sg.stack.length = sz ∧ sp + 4 ≤ sz ∧ 2 ≤ sz ∧
      ∀ i, i < sp + 2 → sg.stack[i]? = s.stack[i]? := by
  by_cases hg : sp + 4 > stacksiz
  · by_cases ha : lalloc (SIZEOF_SIZE_T * stacksiz * 2) = true
    · refine Or.inr ⟨stacksiz * 2,
        { s with stack := s.stack.take stacksiz ++ List.replicate stacksiz 0 },
        by simp [growStack, hg, ha, hcap], rfl, rfl, rfl, ?_, by omega, by omega, ?_⟩
      · simp [hcap]; omega
      · intro i hi
        show (s.stack.take stacksiz ++ List.replicate stacksiz 0)[i]? = s.stack[i]?
        rw [List.take_of_length_le (by omega), List.getElem?_append_left (by omega)]
    · refine Or.inl ⟨by simp [growStack, hg, ha], fun h => ha (h _)⟩
  · exact Or.inr ⟨stacksiz, s, by simp [growStack, hg], rfl, rfl, rfl, hcap, by omega, h2,
      fun _ _ => rfl⟩

/-! ## The sorter: the main loop -/

theorem loop_done {α : Type} (compar : α → α → Int) (lalloc : Nat → Bool) (size : Nat)
    (fuel stacksiz stackpos : Nat) (r : Int) (s : QState α) (h : stackpos = 0 ∨ r < 0) :
    click_qsort_loop compar lalloc size fuel stacksiz stackpos r s = Except.ok (r, s) := by
  have hc : ¬ (stackpos ≠ 0 ∧ r ≥ 0) := by
    rintro ⟨h1, h2⟩
    rcases h with h | h
    · exact h1 h
    · omega
  cases fuel <;> simp [click_qsort_loop, hc]

theorem loop_continue {α : Type} (compar : α → α → Int) (lalloc : Nat → Bool) (size : Nat)
    (fuel stacksiz sp a b : Nat) (s : QState α)
    (ha : rdStack s sp = Except.ok a) (hb : rdStack s (sp + 1) = Except.ok b) (hab : a + 1 ≥ b) :
    click_qsort_loop compar lalloc size (fuel + 1) stacksiz (sp + 2) 0 s =
      click_qsort_loop compar lalloc size fuel stacksiz sp 0 s := by
  simp [click_qsort_loop, ha, hb, hab, bind, Except.bind]

theorem loop_oom {α : Type} (compar : α → α → Int) (lalloc : Nat → Bool) (size : Nat)
    (fuel stacksiz sp a b : Nat) (s : QState α)
    (ha : rdStack s sp = Except.ok a) (hb : rdStack s (sp + 1) = Except.ok b) (hab : ¬ a + 1 ≥ b)
    (hg : growStack lalloc stacksiz sp s = Except.ok none) :
    click_qsort_loop compar lalloc size (fuel + 1) stacksiz (sp + 2) 0 s =
      Except.ok (-ENOMEM, s) := by
  simp [click_qsort_loop, ha, hb, hab, hg, bind, Except.bind]

theorem loop_partition {α : Type} (compar : α → α → Int) (lalloc : Nat → Bool) (size : Nat)
    (fuel stacksiz sp a b sz c : Nat) (r : Int) (s sg sw s1 : QState α)
    (ha : rdStack s sp = Except.ok a) (hb : rdStack s (sp + 1) = Except.ok b) (hab : ¬ a + 1 ≥ b)
    (hg : growStack lalloc stacksiz sp s = Except.ok (some (sz, sg)))
    (hc : rdStack sg (sp + 1) = Except.ok c) (hw : wrStack sg (sp + 3) c = Except.ok sw)
    (hp : click_qsort_partition compar size sp sw = Except.ok (r, s1)) :
    click_qsort_loop compar lalloc size (fuel + 1) stacksiz (sp + 2) 0 s =
      click_qsort_loop compar lalloc size fuel sz (sp + 4) r s1 := by
  simp [click_qsort_loop, ha, hb, hab, hg, hc, hw, hp, bind, Except.bind]

theorem loop_spec {α : Type} (compar : α → α → Int) (lalloc : Nat → Bool) (size n : Nat)
    (a0 : List α) (hsize : size < 64) :
    ∀ (fuel : Nat) (ds : List (Nat × Nat)) (stacksiz stackpos : Nat) (s : QState α),
      LoopInv compar n a0 ds stacksiz stackpos s → weight ds ≤ fuel →
      ∃ r s1, click_qsort_loop compar lalloc size fuel stacksiz stackpos 0 s = Except.ok (r, s1) ∧
        (r = 0 ∨ r = -ENOMEM) ∧ ((∀ k, lalloc k = true) → r = 0) ∧ s1.base.Perm a0 ∧
        (r = 0 → IsTotalPreorder compar → ∀ (i j : Nat) (x y : α), i < j → s1.base[i]? = some x →
          s1.base[j]? = some y → compar x y ≤ 0)
  | fuel, [], stacksiz, stackpos, s, inv, _ => by
    have h0 : stackpos = 0 := by simpa using inv.pos
    refine ⟨0, s, loop_done compar lalloc size fuel stacksiz stackpos 0 s (Or.inl h0),
      Or.inl rfl, fun _ => rfl, inv.perm, ?_⟩
    intro _ hpre i j x y hij hx hy
    exact inv.sorted hpre i j x y hij hx hy (by simp)
  | 0, d :: rest, stacksiz, stackpos, s, inv, hf => by
    simp [weight] at hf
  | fuel + 1, (L, R) :: rest, stacksiz, stackpos, s, inv, hf => by
    have hpos : stackpos = 2 * rest.length + 2 := by
      have := inv.pos; simp at this; omega
    subst hpos
    have hfl : (flat rest).length = 2 * rest.length := flat_length rest
    have hcap := inv.cap
    have hple := inv.pos_le
    have hwf := inv.wf (L, R) (by simp)
    simp only at hwf
    have hsL : s.stack[2 * rest.length]? = some L := by
      rw [inv.cells _ (by omega)]
      exact getElem?_append_at (flat rest) [L, R] 0 _ hfl
    have hsR : s.stack[2 * rest.length + 1]? = some R := by
      rw [inv.cells _ (by omega)]
      exact getElem?_append_at (flat rest) [L, R] 1 _ hfl
    have hrL : rdStack s (2 * rest.length) = Except.ok L := rdStack_ok hsL
    have hrR : rdStack s (2 * rest.length + 1) = Except.ok R := rdStack_ok hsR
    have hord := inv.ordered
    rw [List.pairwise_cons] at hord
    simp only [weight] at hf
    by_cases hab : L + 1 ≥ R
    · -- fewer than two records: the descriptor is discarded
      have inv1 : LoopInv compar n a0 rest stacksiz (2 * rest.length) s := by
        refine ⟨hcap, inv.two_le, rfl, by omega, ?_, inv.len, inv.perm,
          fun d hd => inv.wf d (List.mem_cons_of_mem _ hd), hord.2, ?_⟩
        · intro i hi
          rw [inv.cells i (by omega)]
          simp only [flat]
          rw [List.getElem?_append_left (by omega)]
        · intro hpre i j x y hij hx hy hcov
          refine inv.sorted hpre i j x y hij hx hy ?_
          intro d hd
          rcases List.mem_cons.mp hd with h | h
          · subst h
            simp only
            omega
          · exact hcov d h
      obtain ⟨r, s1, hrun, h1, h2, h3, h4⟩ :=
        loop_spec compar lalloc size n a0 hsize fuel rest stacksiz (2 * rest.length) s inv1
          (by omega)
      exact ⟨r, s1, by rw [loop_continue compar lalloc size fuel stacksiz _ L R s hrL hrR hab, hrun],
        h1, h2, h3, h4⟩
    · rcases growStack_spec lalloc stacksiz (2 * rest.length) s hcap inv.two_le (by omega) with
        ⟨hg, hno⟩ | ⟨sz, sg, hg, hgb, _, _, hgl, hg4, hg2, hgc⟩
      · exact ⟨-ENOMEM, s, loop_oom compar lalloc size fuel stacksiz _ L R s hrL hrR hab hg,
          Or.inr rfl, fun h => absurd h hno, inv.perm, fun h => by simp [ENOMEM] at h⟩
      · -- the range is partitioned and replaced by its two outer parts
        have hLR : L + 1 < R := by omega
        have hgR : sg.stack[2 * rest.length + 1]? = some R := by
          rw [hgc _ (by omega)]; exact hsR
        have hgL : sg.stack[2 * rest.length]? = some L := by
          rw [hgc _ (by omega)]; exact hsL
        have hc : rdStack sg (2 * rest.length + 1) = Except.ok R := rdStack_ok hgR
        have hw := wrStack_ok (s := sg) (i := 2 * rest.length + 3) R (by omega)
        have hwL : (sg.stack.set (2 * rest.length + 3) R)[2 * rest.length]? = some L := by
          rw [List.getElem?_set_ne (by omega)]; exact hgL
        have hwR : (sg.stack.set (2 * rest.length + 3) R)[2 * rest.length + 3]? = some R := by
          rw [List.getElem?_set_self (by omega)]
        obtain ⟨l, h, s1, hp, hst, hseg, hl1, hl2, hl3, hl4, hsort⟩ :=
          partition_spec compar size (2 * rest.length) L R
            { sg with stack := sg.stack.set (2 * rest.length + 3) R } hsize hwL hwR hLR
            (by show R ≤ sg.base.length; rw [hgb, inv.len]; exact hwf.2)
        simp only at hst hseg
        rw [hgb] at hseg
        have inv1 : LoopInv compar n a0 ((h, R) :: (L, l) :: rest) sz (2 * rest.length + 4) s1 := by
          refine ⟨by simp [hst, hgl], hg2, by simp; omega, hg4, ?_, by rw [hseg.len, inv.len],
            hseg.perm.trans inv.perm, ?_, ?_, ?_⟩
          · intro i hi
            rw [hst]
            have hfl2 : (flat rest ++ [L, l, h, R]).length = 2 * rest.length + 4 := by
              simp [hfl]
            have hflat : flat ((h, R) :: (L, l) :: rest) = flat rest ++ [L, l, h, R] := by
              simp [flat]
            rw [hflat]
            rcases Nat.lt_or_ge i (2 * rest.length) with hlt | hge
            · rw [List.getElem?_set_ne (by omega), List.getElem?_set_ne (by omega),
                List.getElem?_set_ne (by omega), hgc i (by omega), inv.cells i (by omega),
                List.getElem?_append_left (by omega)]
              simp only [flat]
              rw [List.getElem?_append_left (by omega)]
            · obtain ⟨k, rfl⟩ : ∃ k, i = 2 * rest.length + k := ⟨i - 2 * rest.length, by omega⟩
              rw [getElem?_append_at (flat rest) [L, l, h, R] k _ hfl]
              have hk : k = 0 ∨ k = 1 ∨ k = 2 ∨ k = 3 := by omega
              rcases hk with rfl | rfl | rfl | rfl
              · rw [List.getElem?_set_ne (by omega), List.getElem?_set_ne (by omega)]
                exact hwL
              · rw [List.getElem?_set_ne (by omega), List.getElem?_set_self (by simp; omega)]
                rfl
              · rw [List.getElem?_set_self (by simp; omega)]
                rfl
              · rw [List.getElem?_set_ne (by omega), List.getElem?_set_ne (by omega)]
                exact hwR
          · intro d hd
            rcases List.mem_cons.mp hd with hd | hd
            · subst hd; exact ⟨hl3, hwf.2⟩
            · rcases List.mem_cons.mp hd with hd | hd
              · subst hd; exact ⟨hl1, by simp only; omega⟩
              · exact inv.wf d (List.mem_cons_of_mem _ hd)
          · refine List.pairwise_cons.mpr ⟨?_, List.pairwise_cons.mpr ⟨?_, hord.2⟩⟩
            · intro e he
              rcases List.mem_cons.mp he with he | he
              · subst he; exact hl2
              · have := hord.1 e he
                simp only at this ⊢
                omega
            · intro e he
              exact hord.1 e he
          · intro hpre i j x y hij hx hy hcov
            have hcov1 := hcov (h, R) (by simp)
            have hcov2 := hcov (L, l) (by simp)
            simp only at hcov1 hcov2
            have hcovr : ∀ d ∈ rest, ¬ (d.1 ≤ i ∧ j < d.2) := fun d hd =>
              hcov d (List.mem_cons_of_mem _ (List.mem_cons_of_mem _ hd))
            have hrestL : ∀ d ∈ rest, d.2 ≤ L := fun d hd => hord.1 d hd
            by_cases hiin : L ≤ i ∧ i < R
            · by_cases hjin : j < R
              · exact hsort hpre i j x y hiin.1 hij hjin (by omega) (by omega) hx hy
              · obtain ⟨k, hk1, hk2, hk⟩ := hseg.from_seg i x hiin.1 hiin.2 hx
                rw [hseg.frame j (Or.inr (by omega))] at hy
                refine inv.sorted hpre k j x y (by omega) hk hy ?_
                intro d hd
                rcases List.mem_cons.mp hd with hd | hd
                · subst hd; simp only; omega
                · have := hrestL d hd; omega
            · by_cases hjin : L ≤ j ∧ j < R
              · obtain ⟨k, hk1, hk2, hk⟩ := hseg.from_seg j y hjin.1 hjin.2 hy
                rw [hseg.frame i (by omega)] at hx
                refine inv.sorted hpre i k x y (by omega) hx hk ?_
                intro d hd
                rcases List.mem_cons.mp hd with hd | hd
                · subst hd; simp only; omega
                · have := hrestL d hd; omega
              · rw [hseg.frame i (by omega)] at hx
                rw [hseg.frame j (by omega)] at hy
                refine inv.sorted hpre i j x y hij hx hy ?_
                intro d hd
                rcases List.mem_cons.mp hd with hd | hd
                · subst hd; simp only; omega
                · exact hcovr d hd
        obtain ⟨r, s2, hrun, h1, h2, h3, h4⟩ :=
          loop_spec compar lalloc size n a0 hsize fuel ((h, R) :: (L, l) :: rest) sz
            (2 * rest.length + 4) s1 inv1 (by simp only [weight]; omega)
        exact ⟨r, s2, by
          rw [loop_partition compar lalloc size fuel stacksiz _ L R sz R 0 s sg _ s1 hrL hrR hab hg
            hc hw hp, hrun], h1, h2, h3, h4⟩

/-! ## The sorter: `click_qsort` as a whole -/

theorem click_qsort_eq_loop {α : Type} (compar : α → α → Int) (lalloc : Nat → Bool) (fuel : Nat)
    (base : List α) (n size : Nat) :
    click_qsort compar lalloc fuel base n size =
      click_qsort_loop compar lalloc size fuel 20 2 0
        { base := base, stack := initStack n, ncmp := 0, nstore := 0 } := by
  simp [click_qsort, wrStack, CLICK_QSORT_INITSTACK, bind, Except.bind, initStack]

/-- Below the size limit, with enough fuel: the run ends without a fault, with
result `0` or `-ENOMEM`, a permuted array and, when the result is `0` and the
comparator is a total preorder, all pairs of records in order. -/
theorem qsort_small {α : Type} (compar : α → α → Int) (lalloc : Nat → Bool) (fuel : Nat)
    (base : List α) (size : Nat) (hsize : size < 64) (hfuel : 2 * base.length + 1 ≤ fuel) :
    ∃ r s, click_qsort compar lalloc fuel base base.length size = Except.ok (r, s) ∧
      (r = 0 ∨ r = -ENOMEM) ∧ ((∀ k, lalloc k = true) → r = 0) ∧ s.base.Perm base ∧
      (r = 0 → IsTotalPreorder compar → ∀ (i j : Nat) (x y : α), i < j → s.base[i]? = some x →
        s.base[j]? = some y → compar x y ≤ 0) := by
  rw [click_qsort_eq_loop]
  refine loop_spec compar lalloc size base.length base hsize fuel [(0, base.length)] 20 2 _ ?_
    (by simp only [weight]; omega)
  refine ⟨rfl, by omega, rfl, by omega, ?_, rfl, List.Perm.refl _, ?_, ?_, ?_⟩
  · intro i hi
    have hi' : i = 0 ∨ i = 1 := by omega
    rcases hi' with rfl | rfl <;> rfl
  · intro d hd
    simp at hd
    subst hd
    simp
  · simp
  · intro _ i j x y hij hx hy hcov
    have hj := getElem?_lt_length hy
    exact absurd ⟨Nat.zero_le i, hj⟩ (hcov (0, base.length) (by simp))

/-- At or above the size limit: ranges of fewer than two records are discarded
without a look at the size; otherwise the first partition call refuses, before
any access to the array. -/
theorem qsort_big {α : Type} (compar : α → α → Int) (lalloc : Nat → Bool) (fuel : Nat)
    (base : List α) (n size : Nat) (hsize : 64 ≤ size) (hfuel : 1 ≤ fuel) :
    ∃ stk, click_qsort compar lalloc fuel base n size =
      Except.ok (if 2 ≤ n then -E2BIG else 0,
        { base := base, stack := stk, ncmp := 0, nstore := 0 }) := by
  obtain ⟨f, rfl⟩ : ∃ f, fuel = f + 1 := ⟨fuel - 1, by omega⟩
  rw [click_qsort_eq_loop]
  have ha : rdStack (α := α) { base := base, stack := initStack n, ncmp := 0, nstore := 0 } 0 =
      Except.ok 0 := rfl
  have hb : rdStack (α := α) { base := base, stack := initStack n, ncmp := 0, nstore := 0 } (0 + 1) =
      Except.ok n := rfl
  by_cases hn : 2 ≤ n
  · have hg : growStack lalloc 20 0
        ({ base := base, stack := initStack n, ncmp := 0, nstore := 0 } : QState α) =
        Except.ok (some (20, { base := base, stack := initStack n, ncmp := 0, nstore := 0 })) := by
      simp [growStack]
    have hp : click_qsort_partition compar size 0
        ({ base := base, stack := (initStack n).set (0 + 3) n, ncmp := 0, nstore := 0 } : QState α) =
        Except.ok (-E2BIG, ⟨base, (((initStack n).set (0 + 3) n).set 2 0).set 1 0, 0, 0⟩) := by
      simp [click_qsort_partition, hsize, wrStack, initStack, bind, Except.bind]
    refine ⟨(((initStack n).set (0 + 3) n).set 2 0).set 1 0, ?_⟩
    rw [loop_partition compar lalloc size f 20 0 0 n 20 n (-E2BIG) _ _ _ _ ha hb (by omega) hg hb
      (wrStack_ok n (by simp [initStack])) hp]
    rw [loop_done _ _ _ _ _ _ _ _ (Or.inr (by simp [E2BIG]))]
    simp [hn]
  · refine ⟨initStack n, ?_⟩
    rw [loop_continue compar lalloc size f 20 0 0 n _ ha hb (by omega)]
    rw [loop_done _ _ _ _ _ _ _ _ (Or.inl rfl)]
    simp [hn]

/-- Fewer than two records: the only range is discarded in the first iteration,
whatever the element size is; the result is 0 and nothing has been touched. -/
theorem qsort_tiny {α : Type} (compar : α → α → Int) (lalloc : Nat → Bool) (fuel : Nat)
    (base : List α) (n size : Nat) (hn : n < 2) (hfuel : 1 ≤ fuel) :
    click_qsort compar lalloc fuel base n size =
      Except.ok (0, { base := base, stack := initStack n, ncmp := 0, nstore := 0 }) := by
  obtain ⟨f, rfl⟩ : ∃ f, fuel = f + 1 := ⟨fuel - 1, by omega⟩
  rw [click_qsort_eq_loop]
  have ha : rdStack (α := α) { base := base, stack := initStack n, ncmp := 0, nstore := 0 } 0 =
      Except.ok 0 := rfl
  have hb : rdStack (α := α) { base := base, stack := initStack n, ncmp := 0, nstore := 0 } (0 + 1) =
      Except.ok n := rfl
  rw [loop_continue compar lalloc size f 20 0 0 n _ ha hb (by omega)]
  rw [loop_done _ _ _ _ _ _ _ _ (Or.inl rfl)]

theorem pairwise_of_index {α : Type} (R : α → α → Prop) (l : List α)
    (h : ∀ (i j : Nat) (x y : α), i < j → l[i]? = some x → l[j]? = some y → R x y) :
    l.Pairwise R := by
  rw [List.pairwise_iff_getElem]
  intro i j hi hj hij
  exact h i j _ _ hij (List.getElem?_eq_getElem hi) (List.getElem?_eq_getElem hj)

theorem intCompar_isTotalPreorder : IsTotalPreorder intCompar := by
  refine ⟨?_, ?_⟩
  · intro a b h
    unfold intCompar at h ⊢
    split_ifs at h ⊢ <;> omega
  · intro a b c h1 h2
    unfold intCompar at h1 h2 ⊢
    split_ifs at h1 h2 ⊢ <;> omega

/-! ## The sorter: the claims -/

/-- C1: for a comparator that is a consistent total preorder and enough fuel,
`click_qsort` returns, and whenever it returns success (0) the final array is a
permutation of the input in which every two consecutive records `a`, `b`
satisfy `compar a b ≤ 0`. -/
theorem click_qsort_sorts {α : Type} (compar : α → α → Int) (lalloc : Nat → Bool) (fuel : Nat)
    (base : List α) (size : Nat) (hpre : IsTotalPreorder compar)
    (hfuel : 2 * base.length + 1 ≤ fuel) :
    ∃ r s, click_qsort compar lalloc fuel base base.length size = Except.ok (r, s) ∧
      (r = 0 → s.base.Perm base ∧ List.Chain' (fun a b => compar a b ≤ 0) s.base) := by
  rcases Nat.lt_or_ge size 64 with hsize | hsize
  · obtain ⟨r, s, hrun, _, _, hperm, hsorted⟩ :=
      qsort_small compar lalloc fuel base size hsize hfuel
    exact ⟨r, s, hrun, fun h0 =>
      ⟨hperm, (pairwise_of_index _ _ (hsorted h0 hpre)).chain'⟩⟩
  · obtain ⟨stk, hrun⟩ := qsort_big compar lalloc fuel base base.length size hsize (by omega)
    refine ⟨_, _, hrun, fun h0 => ⟨List.Perm.refl _, ?_⟩⟩
    have hn : ¬ 2 ≤ base.length := by
      intro h2
      rw [if_pos h2] at h0
      simp [E2BIG] at h0
    show List.Chain' _ base
    match base, hn with
    | [], _ => exact List.chain'_nil
    | [a], _ => exact List.chain'_singleton a
    | a :: b :: l, hn => simp at hn

/-- C1, witness: the integers `[5,3,3,8,1,3,9]` with record size 4. -/
theorem click_qsort_sorts_witness :
    IsTotalPreorder intCompar ∧ 2 * [5, 3, 3, 8, 1, 3, 9].length + 1 ≤ 15 ∧
    (click_qsort intCompar (fun _ => true) 15 [5, 3, 3, 8, 1, 3, 9] 7 4).map
      (fun p => (p.1, p.2.base)) = Except.ok (0, [1, 3, 3, 3, 5, 8, 9]) ∧
    ∃ r s, click_qsort intCompar (fun _ => true) 15 [5, 3, 3, 8, 1, 3, 9] 7 4 = Except.ok (r, s) ∧
      (r = 0 → s.base.Perm [5, 3, 3, 8, 1, 3, 9] ∧
        List.Chain' (fun a b => intCompar a b ≤ 0) s.base) :=
  ⟨intCompar_isTotalPreorder, by decide, rfl,
    click_qsort_sorts intCompar (fun _ => true) 15 [5, 3, 3, 8, 1, 3, 9] 4
      intCompar_isTotalPreorder (by decide)⟩

/-- C2, as stated, fails: one record of 65 bytes is accepted (the result is 0,
not `-E2BIG`), and two records of 64 bytes are refused with `-E2BIG`. -/
theorem click_qsort_e2big_counterexample :
    (click_qsort intCompar (fun _ => true) 5 [5] 1 65).map Prod.fst = Except.ok 0 ∧
    (click_qsort intCompar (fun _ => true) 5 [] 0 65).map Prod.fst = Except.ok 0 ∧
    (click_qsort intCompar (fun _ => true) 5 [2, 1] 2 64).map Prod.fst = Except.ok (-E2BIG) :=
  ⟨rfl, rfl, rfl⟩

/-- C2, amended: with enough fuel `click_qsort` returns, whatever the
comparator and the allocation primitive do; its result is `-E2BIG` exactly when
the element size is at least 64 and the array has at least two records; and
with fewer than two records the result is success (0), whatever the element
size is. -/
theorem click_qsort_e2big_iff {α : Type} (compar : α → α → Int) (lalloc : Nat → Bool)
    (fuel : Nat) (base : List α) (size : Nat) (hfuel : 2 * base.length + 1 ≤ fuel) :
    ∃ r s, click_qsort compar lalloc fuel base base.length size = Except.ok (r, s) ∧
      (r = -E2BIG ↔ (64 ≤ size ∧ 2 ≤ base.length)) ∧
      (base.length < 2 → r = 0) := by
  by_cases hn : base.length < 2
  · refine ⟨0, _, qsort_tiny compar lalloc fuel base base.length size hn (by omega), ?_,
      fun _ => rfl⟩
    constructor
    · intro h
      simp [E2BIG] at h
    · intro h
      omega
  · rcases Nat.lt_or_ge size 64 with hsize | hsize
    · obtain ⟨r, s, hrun, hr, _⟩ := qsort_small compar lalloc fuel base size hsize hfuel
      refine ⟨r, s, hrun, ⟨fun h => ?_, fun h => by omega⟩, fun h => absurd h hn⟩
      rcases hr with h0 | h0 <;> rw [h0] at h <;> simp [E2BIG, ENOMEM] at h
    · obtain ⟨stk, hrun⟩ := qsort_big compar lalloc fuel base base.length size hsize (by omega)
      refine ⟨_, _, hrun, ?_, fun h => absurd h hn⟩
      have h2 : 2 ≤ base.length := by omega
      simp [h2, hsize]

/-- C2, witness of the amended claim: two records of 64 bytes are refused, and
one record of 65 bytes is accepted even when the allocation primitive always
fails. -/
theorem click_qsort_e2big_iff_witness :
    (2 * [2, 1].length + 1 ≤ 5 ∧
      ∃ r s, click_qsort intCompar (fun _ => true) 5 [2, 1] [2, 1].length 64 = Except.ok (r, s) ∧
        (r = -E2BIG ↔ (64 ≤ 64 ∧ 2 ≤ [2, 1].length)) ∧
        ([2, 1].length < 2 → r = 0)) ∧
    (2 * [5].length + 1 ≤ 3 ∧
      ∃ r s, click_qsort intCompar (fun _ => false) 3 [5] [5].length 65 = Except.ok (r, s) ∧
        (r = -E2BIG ↔ (64 ≤ 65 ∧ 2 ≤ [5].length)) ∧
        ([5].length < 2 → r = 0)) :=
  ⟨⟨by decide, click_qsort_e2big_iff intCompar (fun _ => true) 5 [2, 1] 64 (by decide)⟩,
    ⟨by decide, click_qsort_e2big_iff intCompar (fun _ => false) 3 [5] 65 (by decide)⟩⟩

/-- C3: for every comparator whatsoever, every element size and every behaviour
of the allocation primitive, with enough fuel `click_qsort` returns (0, `-E2BIG`
or `-ENOMEM`) and the array on return is a permutation of the input array. -/
theorem click_qsort_perm {α : Type} (compar : α → α → Int) (lalloc : Nat → Bool) (fuel : Nat)
    (base : List α) (size : Nat) (hfuel : 2 * base.length + 1 ≤ fuel) :
    ∃ r s, click_qsort compar lalloc fuel base base.length size = Except.ok (r, s) ∧
      (r = 0 ∨ r = -E2BIG ∨ r = -ENOMEM) ∧ s.base.Perm base := by
  rcases Nat.lt_or_ge size 64 with hsize | hsize
  · obtain ⟨r, s, hrun, hr, _, hperm, _⟩ := qsort_small compar lalloc fuel base size hsize hfuel
    exact ⟨r, s, hrun, by tauto, hperm⟩
  · obtain ⟨stk, hrun⟩ := qsort_big compar lalloc fuel base base.length size hsize (by omega)
    refine ⟨_, _, hrun, ?_, List.Perm.refl _⟩
    by_cases hn : 2 ≤ base.length <;> simp [hn]

/-- C3, witness: twenty records, a comparator that is not an order, and an
allocation primitive that fails: the sort aborts with `-ENOMEM` and the array is
a permutation of the input. -/
theorem click_qsort_perm_witness :
    2 * twenty.length + 1 ≤ 41 ∧
    (click_qsort alwaysAfter (fun _ => false) 41 twenty 20 4).map Prod.fst =
      Except.ok (-ENOMEM) ∧
    ∃ r s, click_qsort alwaysAfter (fun _ => false) 41 twenty 20 4 = Except.ok (r, s) ∧
      (r = 0 ∨ r = -E2BIG ∨ r = -ENOMEM) ∧ s.base.Perm twenty :=
  ⟨by decide, rfl, click_qsort_perm alwaysAfter (fun _ => false) 41 twenty 4 (by decide)⟩

/-- C4: whenever `click_qsort` returns `-E2BIG`, the array is exactly the input
array, no record was stored and the comparator was never called. -/
theorem click_qsort_e2big_untouched {α : Type} (compar : α → α → Int) (lalloc : Nat → Bool)
    (fuel : Nat) (base : List α) (size : Nat) (r : Int) (s : QState α)
    (hfuel : 2 * base.length + 1 ≤ fuel)
    (hrun : click_qsort compar lalloc fuel base base.length size = Except.ok (r, s))
    (hr : r = -E2BIG) : s.base = base ∧ s.nstore = 0 ∧ s.ncmp = 0 := by
  rcases Nat.lt_or_ge size 64 with hsize | hsize
  · obtain ⟨r1, s1, hrun1, hr1, _⟩ := qsort_small compar lalloc fuel base size hsize hfuel
    rw [hrun1] at hrun
    injection hrun with hrun
    injection hrun with h1 h2
    subst h1
    subst hr
    rcases hr1 with h | h <;> simp [E2BIG, ENOMEM] at h
  · obtain ⟨stk, hrun1⟩ := qsort_big compar lalloc fuel base base.length size hsize (by omega)
    rw [hrun1] at hrun
    injection hrun with hrun
    injection hrun with h1 h2
    subst h2
    exact ⟨rfl, rfl, rfl⟩

/-- C4, witness: two records of 65 bytes are refused, untouched and uncompared. -/
theorem click_qsort_e2big_untouched_witness :
    2 * [2, 1].length + 1 ≤ 5 ∧
    click_qsort intCompar (fun _ => true) 5 [2, 1] 2 65 =
      Except.ok (-E2BIG, ⟨[2, 1], 0 :: 0 :: 0 :: 2 :: List.replicate 16 0, 0, 0⟩) ∧
    (⟨[2, 1], 0 :: 0 :: 0 :: 2 :: List.replicate 16 0, 0, 0⟩ : QState Int).base = [2, 1] ∧
    (⟨[2, 1], 0 :: 0 :: 0 :: 2 :: List.replicate 16 0, 0, 0⟩ : QState Int).nstore = 0 ∧
    (⟨[2, 1], 0 :: 0 :: 0 :: 2 :: List.replicate 16 0, 0, 0⟩ : QState Int).ncmp = 0 :=
  ⟨by decide, rfl,
    click_qsort_e2big_untouched intCompar (fun _ => true) 5 [2, 1] 65 (-E2BIG)
      ⟨[2, 1], 0 :: 0 :: 0 :: 2 :: List.replicate 16 0, 0, 0⟩ (by decide) rfl rfl⟩

/-- C5: for every comparator whatsoever, every element size and every behaviour
of the allocation primitive, with enough fuel `click_qsort` terminates without a
fault: no access to the array outside the range being partitioned, no access to
the descriptor stack outside its buffer, no wrapping subtraction.  If the
allocations succeed, the result is 0 or `-E2BIG`. -/
theorem click_qsort_safe {α : Type} (compar : α → α → Int) (lalloc : Nat → Bool) (fuel : Nat)
    (base : List α) (size : Nat) (hfuel : 2 * base.length + 1 ≤ fuel) :
    (∀ f, click_qsort compar lalloc fuel base base.length size ≠ Except.error f) ∧
    ∃ r s, click_qsort compar lalloc fuel base base.length size = Except.ok (r, s) ∧
      ((∀ k, lalloc k = true) → r = 0 ∨ r = -E2BIG) := by
  have key : ∃ r s, click_qsort compar lalloc fuel base base.length size = Except.ok (r, s) ∧
      ((∀ k, lalloc k = true) → r = 0 ∨ r = -E2BIG) := by
    rcases Nat.lt_or_ge size 64 with hsize | hsize
    · obtain ⟨r, s, hrun, _, hr, _⟩ := qsort_small compar lalloc fuel base size hsize hfuel
      exact ⟨r, s, hrun, fun h => Or.inl (hr h)⟩
    · obtain ⟨stk, hrun⟩ := qsort_big compar lalloc fuel base base.length size hsize (by omega)
      refine ⟨_, _, hrun, fun _ => ?_⟩
      by_cases hn : 2 ≤ base.length <;> simp [hn]
  refine ⟨fun f hf => ?_, key⟩
  obtain ⟨r, s, hrun, _⟩ := key
  rw [hrun] at hf
  cases hf

/-- C5, witness: twenty records and a comparator that is not an order; the
stack is grown once and the sort ends with result 0. -/
theorem click_qsort_safe_witness :
    2 * twenty.length + 1 ≤ 41 ∧
    (click_qsort alwaysAfter (fun _ => true) 41 twenty 20 4).map
      (fun p => (p.1, p.2.stack.length)) = Except.ok (0, 40) ∧
    (∀ f, click_qsort alwaysAfter (fun _ => true) 41 twenty 20 4 ≠ Except.error f) ∧
    ∃ r s, click_qsort alwaysAfter (fun _ => true) 41 twenty 20 4 = Except.ok (r, s) ∧
      ((∀ k : Nat, (fun _ : Nat => true) k = true) → r = 0 ∨ r = -E2BIG) :=
  ⟨by decide, rfl, click_qsort_safe alwaysAfter (fun _ => true) 41 twenty 4 (by decide)⟩

/-! ## The allocator: misuse-free call sequences and the registry invariant -/

theorem cover_mem (l : List Block) (x : Nat) (hx : x ∈ cover l) :
    ∃ b ∈ l, b.addr ≤ x ∧ x < b.addr + SIZEOF_CHUNK + b.size := by
  induction l with
  | nil => simp [cover] at hx
  | cons b l ih =>
    simp only [cover, Finset.mem_union, Finset.mem_Ico] at hx
    rcases hx with h | h
    · exact ⟨b, by simp, h.1, h.2⟩
    · obtain ⟨c, hc, h1, h2⟩ := ih h
      exact ⟨c, List.mem_cons_of_mem _ hc, h1, h2⟩

theorem cover_card (l : List Block) (h : l.Pairwise Apart) :
    (cover l).card = SIZEOF_CHUNK * l.length + (l.map Block.size).sum := by
  induction l with
  | nil => simp [cover]
  | cons b l ih =>
    rw [List.pairwise_cons] at h
    have hd : Disjoint (Finset.Ico b.addr (b.addr + SIZEOF_CHUNK + b.size)) (cover l) := by
      rw [Finset.disjoint_left]
      intro x hx hx2
      obtain ⟨c, hc, h1, h2⟩ := cover_mem l x hx2
      rw [Finset.mem_Ico] at hx
      have := h.1 c hc
      unfold Apart at this
      omega
    simp only [cover]
    rw [Finset.card_union_of_disjoint hd, ih h.2, Nat.card_Ico]
    simp only [List.length_cons, List.map_cons, List.sum_cons]
    rw [Nat.mul_succ]
    omega

theorem cover_subset (l : List Block) (m : Nat)
    (h : ∀ b ∈ l, b.addr + SIZEOF_CHUNK + b.size ≤ m) : cover l ⊆ Finset.range m := by
  intro x hx
  obtain ⟨c, hc, _, h2⟩ := cover_mem l x hx
  have := h c hc
  rw [Finset.mem_range]
  omega

/-- Blocks that do not overlap and lie inside the address space: their number
and their sizes are bounded by the size of the address space. -/
theorem blocks_fit (l : List Block) (m : Nat) (h : l.Pairwise Apart)
    (hm : ∀ b ∈ l, b.addr + SIZEOF_CHUNK + b.size ≤ m) :
    SIZEOF_CHUNK * l.length + (l.map Block.size).sum ≤ m := by
  rw [← cover_card l h]
  have := Finset.card_le_card (cover_subset l m hm)
  rwa [Finset.card_range] at this

/-! ## The allocator: stores through chunk pointers -/

theorem SameData.same (st : DState) : SameData st st :=
  ⟨rfl, rfl, rfl, rfl, rfl, rfl, rfl, fun _ => ⟨rfl, rfl, rfl⟩⟩

theorem SameData.then {st st1 st2 : DState} (h1 : SameData st st1) (h2 : SameData st1 st2) :
    SameData st st2 :=
  ⟨h2.tag_eq.trans h1.tag_eq, h2.curnew.trans h1.curnew, h2.totalnew.trans h1.totalnew,
    h2.curmem.trans h1.curmem, h2.maxmem.trans h1.maxmem, h2.bytes.trans h1.bytes,
    h2.chatter.trans h1.chatter, fun a =>
      ⟨(h2.hdr a).1.trans (h1.hdr a).1, (h2.hdr a).2.1.trans (h1.hdr a).2.1,
        (h2.hdr a).2.2.trans (h1.hdr a).2.2⟩⟩

theorem setNext_spec (st : DState) (p q : Ptr) (hp : p ≠ Ptr.null) :
    ∃ st1, setNext st p q = Except.ok st1 ∧
      (∀ x, nextOf st1 x = if x = p then q else nextOf st x) ∧
      (∀ x, prevOf st1 x = prevOf st x) ∧ SameData st st1 := by
  cases p with
  | null => exact absurd rfl hp
  | chunks =>
    refine ⟨_, rfl, ?_, ?_, ⟨rfl, rfl, rfl, rfl, rfl, rfl, rfl, fun _ => ⟨rfl, rfl, rfl⟩⟩⟩
    · intro x
      cases x <;> simp [nextOf]
    · intro x
      cases x <;> simp [prevOf]
  | heap a =>
    refine ⟨_, rfl, ?_, ?_, ⟨rfl, rfl, rfl, rfl, rfl, rfl, rfl, fun b => ?_⟩⟩
    · intro x
      cases x with
      | null => simp [nextOf]
      | chunks => simp [nextOf]
      | heap b =>
        by_cases hb : b = a
        · subst hb; simp [nextOf]
        · simp [nextOf, Function.update_noteq hb, hb]
    · intro x
      cases x with
      | null => simp [prevOf]
      | chunks => simp [prevOf]
      | heap b =>
        by_cases hb : b = a
        · subst hb; simp [prevOf]
        · simp [prevOf, Function.update_noteq hb]
    · by_cases hb : b = a
      · subst hb; simp
      · simp [Function.update_noteq hb]

theorem setPrev_spec (st : DState) (p q : Ptr) (hp : p ≠ Ptr.null) :
    ∃ st1, setPrev st p q = Except.ok st1 ∧
      (∀ x, prevOf st1 x = if x = p then q else prevOf st x) ∧
      (∀ x, nextOf st1 x = nextOf st x) ∧ SameData st st1 := by
  cases p with
  | null => exact absurd rfl hp
  | chunks =>
    refine ⟨_, rfl, ?_, ?_, ⟨rfl, rfl, rfl, rfl, rfl, rfl, rfl, fun _ => ⟨rfl, rfl, rfl⟩⟩⟩
    · intro x
      cases x <;> simp [prevOf]
    · intro x
      cases x <;> simp [nextOf]
  | heap a =>
    refine ⟨_, rfl, ?_, ?_, ⟨rfl, rfl, rfl, rfl, rfl, rfl, rfl, fun b => ?_⟩⟩
    · intro x
      cases x with
      | null => simp [prevOf]
      | chunks => simp [prevOf]
      | heap b =>
        by_cases hb : b = a
        · subst hb; simp [prevOf]
        · simp [prevOf, Function.update_noteq hb, hb]
    · intro x
      cases x with
      | null => simp [nextOf]
      | chunks => simp [nextOf]
      | heap b =>
        by_cases hb : b = a
        · subst hb; simp [nextOf]
        · simp [nextOf, Function.update_noteq hb]
    · by_cases hb : b = a
      · subst hb; simp
      · simp [Function.update_noteq hb]

/-! ## The allocator: the registry as a chain of links -/

theorem chain_frame (st st1 : DState) (a : Ptr) (l : List Ptr)
    (h : List.Chain (Link st) a l)
    (hn : ∀ x y, x ∈ a :: l → y ∈ l → nextOf st x = y → prevOf st y = x → nextOf st1 x = y)
    (hp : ∀ x y, x ∈ a :: l → y ∈ l → nextOf st x = y → prevOf st y = x → prevOf st1 y = x) :
    List.Chain (Link st1) a l := by
  rw [List.Chain.iff_mem] at h
  refine h.imp ?_
  rintro x y ⟨hx, hy, h1, h2⟩
  exact ⟨hn x y hx hy h1 h2, hp x y hx hy h1 h2⟩

theorem chain_snoc {α : Type} (R : α → α → Prop) : ∀ (a : α) (l : List α) (b : α),
    List.Chain R a (l ++ [b]) ↔ List.Chain R a l ∧ R ((a :: l).getLast (by simp)) b
  | a, [], b => by simp
  | a, c :: l, b => by
    have ih := chain_snoc R c l b
    simp only [List.cons_append, List.chain_cons, ih, List.getLast_cons_cons, and_assoc]

theorem ptrs_append (l1 l2 : List Block) : ptrs (l1 ++ l2) = ptrs l1 ++ ptrs l2 := by
  simp [ptrs]

theorem ptrs_cons (b : Block) (l : List Block) : ptrs (b :: l) = Ptr.heap b.addr :: ptrs l := rfl

theorem mem_ptrs {l : List Block} {x : Ptr} (h : x ∈ ptrs l) : ∃ b ∈ l, x = Ptr.heap b.addr := by
  simp only [ptrs, List.mem_map] at h
  obtain ⟨b, hb, rfl⟩ := h
  exact ⟨b, hb, rfl⟩

theorem getLast_mem_ring (l : List Block) :
    (Ptr.chunks :: ptrs l).getLast (by simp) = Ptr.chunks ∨
      (Ptr.chunks :: ptrs l).getLast (by simp) ∈ ptrs l := by
  have h := List.getLast_mem (l := Ptr.chunks :: ptrs l) (by simp)
  rcases List.mem_cons.mp h with h | h
  · exact Or.inl h
  · exact Or.inr h

/-- Taking the chunk `c` out of the registry by the two stores
`c->prev->next = c->next; c->next->prev = c->prev;` -/
theorem unlink_ring (st : DState) (l1 l2 : List Block) (c : Block)
    (hring : Ring st (l1 ++ c :: l2)) (hnd : (ptrs (l1 ++ c :: l2)).Nodup) :
    prevOf st (Ptr.heap c.addr) = (Ptr.chunks :: ptrs l1).getLast (by simp) ∧
    ∃ st1 st2,
      setNext st (prevOf st (Ptr.heap c.addr)) (nextOf st (Ptr.heap c.addr)) = Except.ok st1 ∧
      setPrev st1 (nextOf st1 (Ptr.heap c.addr)) (prevOf st1 (Ptr.heap c.addr)) = Except.ok st2 ∧
      (∀ x, prevOf st1 x = prevOf st x) ∧
      Ring st2 (l1 ++ l2) ∧ SameData st st2 := by
  obtain ⟨S, B, hSB⟩ : ∃ S B, ptrs l2 ++ [Ptr.chunks] = S :: B := by
    cases h : ptrs l2 ++ [Ptr.chunks] with
    | nil => simp at h
    | cons S B => exact ⟨S, B, rfl⟩
  unfold Ring at hring
  rw [List.Chain', ptrs_append, ptrs_cons, List.append_assoc, List.cons_append, hSB] at hring
  rw [ptrs_append, ptrs_cons] at hnd
  have hc1 : Ptr.heap c.addr ∉ ptrs l1 := fun h =>
    (List.nodup_append.mp hnd).2.2 h (List.mem_cons_self _ _)
  have hc2 : Ptr.heap c.addr ∉ ptrs l2 :=
    (List.nodup_cons.mp (List.nodup_append.mp hnd).2.1).1
  have hcX : Ptr.heap c.addr ∉ Ptr.chunks :: ptrs l1 := by
    intro h
    rcases List.mem_cons.mp h with h | h
    · cases h
    · exact hc1 h
  have hcY : Ptr.heap c.addr ∉ S :: B := by
    rw [← hSB]
    intro h
    rcases List.mem_append.mp h with h | h
    · exact hc2 h
    · simp at h
  obtain ⟨h1, h2⟩ := List.chain_split.mp hring
  obtain ⟨h1a, hPc⟩ := (chain_snoc (Link st) _ _ _).mp h1
  rw [List.chain_cons] at h2
  obtain ⟨hcS, h2b⟩ := h2
  have hP : prevOf st (Ptr.heap c.addr) = (Ptr.chunks :: ptrs l1).getLast (by simp) := hPc.2
  have hS : nextOf st (Ptr.heap c.addr) = S := hcS.1
  have hPmem : (Ptr.chunks :: ptrs l1).getLast (by simp) ∈ Ptr.chunks :: ptrs l1 :=
    List.getLast_mem _
  refine ⟨hP, ?_⟩
  obtain ⟨P, hPdef⟩ : ∃ P, P = (Ptr.chunks :: ptrs l1).getLast (by simp) := ⟨_, rfl⟩
  rw [← hPdef] at hP hPc hPmem
  have hSmem : S ∈ ptrs l2 ++ [Ptr.chunks] := by rw [hSB]; exact List.mem_cons_self _ _
  have hPnull : P ≠ Ptr.null := by
    rintro rfl
    rcases List.mem_cons.mp hPmem with h | h
    · cases h
    · obtain ⟨b, _, hb⟩ := mem_ptrs h
      cases hb
  have hSnull : S ≠ Ptr.null := by
    rintro rfl
    rcases List.mem_append.mp hSmem with h | h
    · obtain ⟨b, _, hb⟩ := mem_ptrs h
      cases hb
    · simp at h
  have hPc' : Ptr.heap c.addr ≠ P := fun h => hcX (h ▸ hPmem)
  have hSc' : Ptr.heap c.addr ≠ S := fun h => hcY (h ▸ List.mem_cons_self _ _)
  obtain ⟨st1, hst1, hn1, hp1, same1⟩ := setNext_spec st P S hPnull
  obtain ⟨st2, hst2, hp2, hn2, same2⟩ := setPrev_spec st1 S P hSnull
  have e1 : nextOf st1 (Ptr.heap c.addr) = S := by rw [hn1, if_neg hPc', hS]
  have e2 : prevOf st1 (Ptr.heap c.addr) = P := by rw [hp1, hP]
  refine ⟨st1, st2, by rw [hP, hS]; exact hst1, by rw [e1, e2]; exact hst2, hp1, ?_,
    same1.then same2⟩
  unfold Ring
  rw [List.Chain', ptrs_append, List.append_assoc, hSB]
  refine List.chain_split.mpr ⟨(chain_snoc (Link st2) _ _ _).mpr ⟨?_, ?_⟩, ?_⟩
  · refine chain_frame st st2 _ _ h1a ?_ ?_
    · intro x y hx hy hxy hyx
      rw [hn2, hn1]
      by_cases hxP : x = P
      · subst hxP
        rw [hPc.1] at hxy
        exact absurd (hxy ▸ hy) hc1
      · rw [if_neg hxP]; exact hxy
    · intro x y hx hy hxy hyx
      rw [hp2, hp1]
      by_cases hyS : y = S
      · subst hyS
        rw [hcS.2] at hyx
        exact absurd (hyx ▸ hx) hcX
      · rw [if_neg hyS]; exact hyx
  · rw [← hPdef]
    refine ⟨?_, ?_⟩
    · rw [hn2, hn1, if_pos rfl]
    · rw [hp2, if_pos rfl]
  · refine chain_frame st st2 _ _ h2b ?_ ?_
    · intro x y hx hy hxy hyx
      rw [hn2, hn1]
      by_cases hxP : x = P
      · subst hxP
        rw [hPc.1] at hxy
        exact absurd (hxy ▸ List.mem_cons_of_mem _ hy) hcY
      · rw [if_neg hxP]; exact hxy
    · intro x y hx hy hxy hyx
      rw [hp2, hp1]
      by_cases hyS : y = S
      · subst hyS
        rw [hcS.2] at hyx
        exact absurd (hyx ▸ hx) hcY
      · rw [if_neg hyS]; exact hyx

/-! ## The allocator: `operator new` and `operator delete` step by step -/

theorem operator_new_eq (st : DState) (sz v : Nat) (hv : v ≠ 0) (st1 : DState)
    (h : setPrev (newLinked st sz v) st.chunks.next (Ptr.heap v) = Except.ok st1) :
    operator_new st sz v = Except.ok (v + SIZEOF_CHUNK, newCounted st1 sz) := by
  unfold newLinked at h
  simp only [operator_new, hv, if_false, bind, Except.bind, Function.update_same, h, newCounted]

theorem operator_delete_eq (st : DState) (addr : Nat) (h0 : addr ≠ 0)
    (hm : (st.heap (addr - SIZEOF_CHUNK)).magic = CHUNK_MAGIC) (st1 st2 : DState)
    (h1 : setNext (delMarked st (addr - SIZEOF_CHUNK))
      (prevOf (delMarked st (addr - SIZEOF_CHUNK)) (Ptr.heap (addr - SIZEOF_CHUNK)))
      (nextOf (delMarked st (addr - SIZEOF_CHUNK)) (Ptr.heap (addr - SIZEOF_CHUNK))) =
        Except.ok st1)
    (h2 : setPrev st1 (nextOf st1 (Ptr.heap (addr - SIZEOF_CHUNK)))
      (prevOf st1 (Ptr.heap (addr - SIZEOF_CHUNK))) = Except.ok st2) :
    operator_delete st addr = Except.ok st2 := by
  have hne : CHUNK_MAGIC ≠ CHUNK_MAGIC_FREED := by decide
  unfold delMarked prevOf nextOf at h1
  simp only [Function.update_same] at h1
  unfold prevOf nextOf at h2
  simp only at h2
  simp only [operator_delete, h0, ne_eq, not_false_eq_true, if_true, hm, hne, if_false,
    not_true_eq_false, bind, Except.bind, Function.update_same, h1, h2]

theorem apart_addr_ne {a b : Block} (h : Apart a b) : a.addr ≠ b.addr := by
  unfold Apart SIZEOF_CHUNK at h
  omega

theorem ptrs_nodup : ∀ (l : List Block), l.Pairwise Apart → (ptrs l).Nodup
  | [], _ => by simp [ptrs]
  | b :: l, h => by
    rw [List.pairwise_cons] at h
    rw [ptrs_cons, List.nodup_cons]
    refine ⟨fun hm => ?_, ptrs_nodup l h.2⟩
    obtain ⟨c, hc, hbc⟩ := mem_ptrs hm
    injection hbc with hbc
    exact apart_addr_ne (h.1 c hc) hbc

theorem body_nodup (l : List Block) (h : l.Pairwise Apart) : (ptrs l ++ [Ptr.chunks]).Nodup := by
  rw [List.nodup_append]
  refine ⟨ptrs_nodup l h, by simp, ?_⟩
  intro x hx hx2
  obtain ⟨c, _, hc⟩ := mem_ptrs hx
  subst hc
  simp at hx2

theorem ring_congr (st st1 : DState) (l : List Block)
    (hn : ∀ x, nextOf st1 x = nextOf st x) (hp : ∀ x, prevOf st1 x = prevOf st x)
    (h : Ring st l) : Ring st1 l := by
  unfold Ring at h ⊢
  refine h.imp ?_
  rintro x y ⟨h1, h2⟩
  exact ⟨by rw [hn, h1], by rw [hp, h2]⟩

theorem filter_release (l1 l2 : List Block) (b : Block) (h : (l1 ++ b :: l2).Pairwise Apart) :
    (l1 ++ b :: l2).filter (fun x => decide (x.addr + SIZEOF_CHUNK ≠ b.addr + SIZEOF_CHUNK)) =
      l1 ++ l2 := by
  rw [List.pairwise_append] at h
  obtain ⟨_, h2, h3⟩ := h
  rw [List.pairwise_cons] at h2
  rw [List.filter_append, List.filter_cons]
  have e1 : l1.filter (fun x => decide (x.addr + SIZEOF_CHUNK ≠ b.addr + SIZEOF_CHUNK)) = l1 := by
    rw [List.filter_eq_self]
    intro x hx
    have := apart_addr_ne (h3 x hx b (List.mem_cons_self _ _))
    simpa using this
  have e2 : l2.filter (fun x => decide (x.addr + SIZEOF_CHUNK ≠ b.addr + SIZEOF_CHUNK)) = l2 := by
    rw [List.filter_eq_self]
    intro x hx
    have := apart_addr_ne (h2.1 x hx)
    simp only [ne_eq, Nat.add_right_cancel_iff, decide_not, Bool.not_eq_eq_eq_not, Bool.not_true,
      decide_eq_false_iff_not]
    exact fun h => this h.symm
  rw [e1, e2]
  simp

theorem newCounted_heap (st : DState) (sz : Nat) : (newCounted st sz).heap = st.heap := by
  unfold newCounted; split <;> rfl

theorem newCounted_chunks (st : DState) (sz : Nat) : (newCounted st sz).chunks = st.chunks := by
  unfold newCounted; split <;> rfl

theorem newCounted_same (st : DState) (sz : Nat) :
    (newCounted st sz).click_dmalloc_where = st.click_dmalloc_where ∧
    (newCounted st sz).click_dmalloc_curnew = st.click_dmalloc_curnew ∧
    (newCounted st sz).click_dmalloc_totalnew = st.click_dmalloc_totalnew ∧
    (newCounted st sz).bytes = st.bytes ∧ (newCounted st sz).chatter = st.chatter := by
  unfold newCounted; split <;> exact ⟨rfl, rfl, rfl, rfl, rfl⟩

theorem newCounted_mem (st : DState) (sz : Nat) :
    (newCounted st sz).click_dmalloc_curmem = (st.click_dmalloc_curmem + sz) % SIZE_T_MOD ∧
    (newCounted st sz).click_dmalloc_maxmem =
      max st.click_dmalloc_maxmem ((st.click_dmalloc_curmem + sz) % SIZE_T_MOD) := by
  unfold newCounted
  split
  · refine ⟨rfl, ?_⟩
    simp only
    omega
  · refine ⟨rfl, ?_⟩
    simp only
    omega

theorem nextOf_newCounted (st : DState) (sz : Nat) (x : Ptr) :
    nextOf (newCounted st sz) x = nextOf st x := by
  cases x <;> simp [nextOf, newCounted_heap, newCounted_chunks]

theorem prevOf_newCounted (st : DState) (sz : Nat) (x : Ptr) :
    prevOf (newCounted st sz) x = prevOf st x := by
  cases x <;> simp [prevOf, newCounted_heap, newCounted_chunks]

/-- A misuse-free call of `operator new` returns the payload pointer and keeps
the invariant; the peak is the larger of the old peak and the new current
bytes. -/
theorem operator_new_inv (strict : Bool) (g : Ghost) (st : DState) (sz v : Nat)
    (inv : AInv strict g st) (hok : okOp strict g (Op.alloc sz v)) :
    ∃ st1, operator_new st sz v = Except.ok (v + SIZEOF_CHUNK, st1) ∧
      AInv strict (g.step (Op.alloc sz v)) st1 ∧
      st1.click_dmalloc_maxmem = max st.click_dmalloc_maxmem st1.click_dmalloc_curmem ∧
      st1.bytes = st.bytes := by
  obtain ⟨hv, hin, hap⟩ := hok
  have hap1 : (({ addr := v, size := sz, tag := g.tag } : Block) :: g.live).Pairwise Apart :=
    List.pairwise_cons.mpr ⟨hap, inv.apart⟩
  have hin1 : ∀ b ∈ (({ addr := v, size := sz, tag := g.tag } : Block) :: g.live),
      b.addr ≠ 0 ∧ b.addr + SIZEOF_CHUNK + b.size ≤ SIZE_T_MOD := by
    intro b hb
    rcases List.mem_cons.mp hb with h | h
    · subst h; exact ⟨hv, hin⟩
    · exact inv.inside b h
  have hfit := blocks_fit _ SIZE_T_MOD hap1 (fun b hb => (hin1 b hb).2)
  simp only [List.length_cons, List.map_cons, List.sum_cons] at hfit
  obtain ⟨S, B, hSB⟩ : ∃ S B, ptrs g.live ++ [Ptr.chunks] = S :: B := by
    cases h : ptrs g.live ++ [Ptr.chunks] with
    | nil => simp at h
    | cons S B => exact ⟨S, B, rfl⟩
  have hring := inv.ring
  unfold Ring at hring
  rw [List.Chain', hSB, List.chain_cons] at hring
  obtain ⟨hcS, hchain⟩ := hring
  have hnd : (S :: B).Nodup := hSB ▸ body_nodup g.live inv.apart
  have hvfresh : ∀ a, Ptr.heap a ∈ S :: B → a ≠ v := by
    intro a ha hav
    subst hav
    rw [← hSB] at ha
    rcases List.mem_append.mp ha with h | h
    · obtain ⟨c, hc, hbc⟩ := mem_ptrs h
      injection hbc with hbc
      exact apart_addr_ne (hap c hc) hbc
    · simp at h
  have hSnull : S ≠ Ptr.null := by
    rintro rfl
    have : Ptr.null ∈ ptrs g.live ++ [Ptr.chunks] := hSB ▸ List.mem_cons_self _ _
    rcases List.mem_append.mp this with h | h
    · obtain ⟨c, _, hc⟩ := mem_ptrs h
      cases hc
    · simp at h
  obtain ⟨stB, hB, hpB, hnB, sameB⟩ := setPrev_spec (newLinked st sz v) S (Ptr.heap v) hSnull
  have hnA : ∀ x, x ≠ Ptr.chunks → x ≠ Ptr.heap v →
      nextOf (newLinked st sz v) x = nextOf st x := by
    intro x h1 h2
    cases x with
    | null => rfl
    | chunks => exact absurd rfl h1
    | heap a =>
      have : a ≠ v := fun h => h2 (by rw [h])
      simp [nextOf, newLinked, Function.update_noteq this]
  have hpA : ∀ x, x ≠ Ptr.heap v → prevOf (newLinked st sz v) x = prevOf st x := by
    intro x h2
    cases x with
    | null => rfl
    | chunks => rfl
    | heap a =>
      have : a ≠ v := fun h => h2 (by rw [h])
      simp [prevOf, newLinked, Function.update_noteq this]
  refine ⟨newCounted stB sz, operator_new_eq st sz v hv stB
    (by have h := hcS.1; simp only [nextOf] at h; rw [h]; exact hB), ?_, ?_, ?_⟩
  · refine ⟨?_, ?_, ?_, ?_, hap1, hin1, ?_, ?_, ?_, ?_⟩
    · rw [(newCounted_same stB sz).1, sameB.tag_eq]
      exact inv.tag_eq
    · show Ring _ (_ :: g.live)
      unfold Ring
      rw [List.Chain', ptrs_cons, List.cons_append, hSB]
      have hvS : Ptr.heap v ≠ S := fun h => hvfresh v (h ▸ List.mem_cons_self _ _) rfl
      refine List.Chain.cons ⟨?_, ?_⟩ (List.Chain.cons ⟨?_, ?_⟩ ?_)
      · rw [nextOf_newCounted, hnB]; simp [nextOf, newLinked]
      · rw [prevOf_newCounted, hpB, if_neg hvS]; simp [prevOf, newLinked]
      · rw [nextOf_newCounted, hnB]; simp [nextOf, newLinked]; exact hcS.1
      · rw [prevOf_newCounted, hpB, if_pos rfl]
      · refine chain_frame st _ _ _ hchain ?_ ?_
        · intro x y hx hy hxy hyx
          rw [nextOf_newCounted, hnB, hnA x ?_ ?_]
          · exact hxy
          · rintro rfl
            rw [hcS.1] at hxy
            exact (List.nodup_cons.mp hnd).1 (hxy ▸ hy)
          · rintro rfl
            exact hvfresh v hx rfl
        · intro x y hx hy hxy hyx
          have hyS : y ≠ S := fun h => (List.nodup_cons.mp hnd).1 (h ▸ hy)
          rw [prevOf_newCounted, hpB, if_neg hyS, hpA y ?_]
          · exact hyx
          · rintro rfl
            exact hvfresh v (List.mem_cons_of_mem _ hy) rfl
    · intro b hb
      rw [newCounted_heap]
      obtain ⟨e1, e2, e3⟩ := sameB.hdr b.addr
      rw [e1, e2, e3]
      rcases List.mem_cons.mp hb with h | h
      · subst h
        simp [newLinked, inv.tag_eq]
      · have hbv : b.addr ≠ v := fun hbv => apart_addr_ne (hap b h) hbv.symm
        simp only [newLinked, Function.update_noteq hbv]
        exact inv.hdr b h
    · intro a ha
      have ha1 : a ∈ g.freed.filter
          (fun a => decide (a + SIZEOF_CHUNK ≤ v ∨ v + SIZEOF_CHUNK + sz ≤ a)) := ha
      rw [List.mem_filter, decide_eq_true_eq] at ha1
      have hav : a ≠ v := by
        have := ha1.2
        unfold SIZEOF_CHUNK at this
        omega
      rw [newCounted_heap, (sameB.hdr a).1]
      simp only [newLinked, Function.update_noteq hav]
      exact inv.gone a ha1.1
    · intro hs
      rw [(newCounted_same stB sz).2.1, sameB.curnew]
      show (st.click_dmalloc_curnew + 1) % SIZE_T_MOD = (g.live.length + 1)
      rw [inv.curnew hs]
      apply Nat.mod_eq_of_lt
      unfold SIZEOF_CHUNK at hfit
      omega
    · rw [(newCounted_mem stB sz).1, sameB.curmem]
      show (st.click_dmalloc_curmem + sz) % SIZE_T_MOD = sz + (g.live.map Block.size).sum
      rw [inv.curmem]
      rw [Nat.mod_eq_of_lt]
      · omega
      · unfold SIZEOF_CHUNK at hfit
        omega
    · rw [(newCounted_mem stB sz).1, (newCounted_mem stB sz).2]
      exact le_max_right _ _
    · intro hs
      rw [(newCounted_same stB sz).2.2.2.2, sameB.chatter]
      exact inv.quiet hs
  · rw [(newCounted_mem stB sz).1, (newCounted_mem stB sz).2, sameB.maxmem]
    rfl
  · rw [(newCounted_same stB sz).2.2.2.1, sameB.bytes]
    rfl

theorem delMarked_heap (st : DState) (c : Nat) :
    (delMarked st c).heap =
      Function.update st.heap c { st.heap c with magic := CHUNK_MAGIC_FREED } := by
  simp only [delMarked]

theorem delMarked_chunks (st : DState) (c : Nat) : (delMarked st c).chunks = st.chunks := by
  simp only [delMarked]

theorem nextOf_delMarked (st : DState) (c : Nat) (x : Ptr) :
    nextOf (delMarked st c) x = nextOf st x := by
  cases x with
  | null => simp only [nextOf]
  | chunks => simp only [nextOf, delMarked_chunks]
  | heap a =>
    by_cases h : a = c
    · subst h; simp only [nextOf, delMarked_heap, Function.update_same]
    · simp only [nextOf, delMarked_heap, Function.update_noteq h]

theorem prevOf_delMarked (st : DState) (c : Nat) (x : Ptr) :
    prevOf (delMarked st c) x = prevOf st x := by
  cases x with
  | null => simp only [prevOf]
  | chunks => simp only [prevOf, delMarked_chunks]
  | heap a =>
    by_cases h : a = c
    · subst h; simp only [prevOf, delMarked_heap, Function.update_same]
    · simp only [prevOf, delMarked_heap, Function.update_noteq h]

theorem sum_size_append (l1 l2 : List Block) (b : Block) :
    ((l1 ++ b :: l2).map Block.size).sum = ((l1 ++ l2).map Block.size).sum + b.size := by
  simp only [List.map_append, List.map_cons, List.sum_append, List.sum_cons]
  omega

/-- On a second release of a pointer, `operator delete` has counted the
outstanding count down before it looks at the header: the double free is
reported and the lifetime count, the current bytes, the peak bytes and the
memory stay as they are, but the outstanding count does not. -/
theorem operator_delete_double_free (st : DState) (addr : Nat) (h0 : addr ≠ 0)
    (hm : (st.heap (addr - SIZEOF_CHUNK)).magic = CHUNK_MAGIC_FREED) :
    operator_delete st addr = Except.ok
      { st with
        click_dmalloc_curnew :=
          if st.click_dmalloc_curnew = 0 then SIZE_T_MOD - 1 else st.click_dmalloc_curnew - 1
        chatter := st.chatter ++
          [Chatter.doubleFree addr (st.heap (addr - SIZEOF_CHUNK)).size
            (printable_where (st.heap (addr - SIZEOF_CHUNK)))] } := by
  simp only [operator_delete, h0, ne_eq, not_false_eq_true, if_true, hm]

theorem any_live_false (g : Ghost) (addr : Nat)
    (h : ∀ b ∈ g.live, b.addr + SIZEOF_CHUNK ≠ addr) :
    g.live.any (fun b => decide (b.addr + SIZEOF_CHUNK = addr)) = false := by
  rw [List.any_eq_false]
  intro b hb
  simpa using h b hb

theorem step_release_none (g : Ghost) (addr : Nat)
    (h : ∀ b ∈ g.live, b.addr + SIZEOF_CHUNK ≠ addr) : g.step (Op.release addr) = g := by
  have h1 : g.live.filter (fun b => decide (b.addr + SIZEOF_CHUNK ≠ addr)) = g.live := by
    rw [List.filter_eq_self]
    intro b hb
    simpa using h b hb
  simp only [Ghost.step, h1, any_live_false g addr h]
  rfl

/-- A call of `operator delete` that `okOp` admits keeps the invariant; the peak
stays and the current bytes do not grow. -/
theorem operator_delete_inv (strict : Bool) (g : Ghost) (st : DState) (addr : Nat)
    (inv : AInv strict g st) (hok : okOp strict g (Op.release addr)) :
    ∃ st1, operator_delete st addr = Except.ok st1 ∧
      AInv strict (g.step (Op.release addr)) st1 ∧
      st1.click_dmalloc_maxmem = st.click_dmalloc_maxmem ∧
      st1.click_dmalloc_curmem ≤ st.click_dmalloc_curmem ∧
      st1.bytes = st.bytes := by
  rcases hok with h0 | ⟨b, hb, hbaddr⟩ | ⟨hs, a, ha, haddr⟩
  · subst h0
    rw [step_release_none g 0 (fun b _ => by simp [SIZEOF_CHUNK])]
    exact ⟨st, by simp [operator_delete], inv, rfl, le_refl _, rfl⟩
  · subst hbaddr
    obtain ⟨l1, l2, hl⟩ := List.append_of_mem hb
    have hap := inv.apart
    rw [hl] at hap
    have hlive : (g.step (Op.release (b.addr + SIZEOF_CHUNK))).live = l1 ++ l2 := by
      show g.live.filter _ = l1 ++ l2
      rw [hl]
      exact filter_release l1 l2 b hap
    have hc : b.addr + SIZEOF_CHUNK - SIZEOF_CHUNK = b.addr := Nat.add_sub_cancel ..
    have hany : g.live.any (fun x => decide (x.addr + SIZEOF_CHUNK = b.addr + SIZEOF_CHUNK)) =
        true := by
      rw [List.any_eq_true]
      exact ⟨b, hb, by simp⟩
    have hfreed : (g.step (Op.release (b.addr + SIZEOF_CHUNK))).freed = b.addr :: g.freed := by
      show (if g.live.any _ = true then _ else _) = _
      rw [if_pos hany, hc]
    have h0 : b.addr + SIZEOF_CHUNK ≠ 0 := by simp [SIZEOF_CHUNK]
    have hm : (st.heap (b.addr + SIZEOF_CHUNK - SIZEOF_CHUNK)).magic = CHUNK_MAGIC := by
      rw [hc]; exact (inv.hdr b hb).1
    have hringM : Ring (delMarked st b.addr) (l1 ++ b :: l2) :=
      ring_congr st _ _ (nextOf_delMarked st b.addr) (prevOf_delMarked st b.addr)
        (hl ▸ inv.ring)
    obtain ⟨_, st1, st2, h1, h2, _, hring2, same⟩ :=
      unlink_ring (delMarked st b.addr) l1 l2 b hringM (ptrs_nodup _ hap)
    have hfit := blocks_fit g.live SIZE_T_MOD inv.apart (fun x hx => (inv.inside x hx).2)
    have hlen : g.live.length = (l1 ++ l2).length + 1 := by
      rw [hl]; simp only [List.length_append, List.length_cons]; omega
    have hsum : (g.live.map Block.size).sum = ((l1 ++ l2).map Block.size).sum + b.size := by
      rw [hl]; exact sum_size_append l1 l2 b
    have hbsz : (st.heap b.addr).size = b.size := (inv.hdr b hb).2.1
    have hmem : ∀ x ∈ l1 ++ l2, x ∈ g.live := by
      intro x hx
      rw [hl]
      rcases List.mem_append.mp hx with h | h
      · exact List.mem_append_left _ h
      · exact List.mem_append_right _ (List.mem_cons_of_mem _ h)
    have hcur : st2.click_dmalloc_curmem = ((l1 ++ l2).map Block.size).sum := by
      rw [same.curmem]
      show (st.click_dmalloc_curmem + SIZE_T_MOD - (st.heap b.addr).size % SIZE_T_MOD) %
        SIZE_T_MOD = _
      rw [hbsz, inv.curmem, hsum]
      have hb1 : b.size < SIZE_T_MOD := by
        have := (inv.inside b hb).2
        unfold SIZEOF_CHUNK at this
        omega
      rw [Nat.mod_eq_of_lt hb1]
      have e : ((l1 ++ l2).map Block.size).sum + b.size + SIZE_T_MOD - b.size =
          ((l1 ++ l2).map Block.size).sum + SIZE_T_MOD := by omega
      rw [e, Nat.add_mod_right]
      apply Nat.mod_eq_of_lt
      unfold SIZEOF_CHUNK at hfit
      omega
    refine ⟨st2, ?_, ?_, same.maxmem, ?_, same.bytes⟩
    · exact operator_delete_eq st _ h0 hm st1 st2 (by rw [hc]; exact h1) (by rw [hc]; exact h2)
    · refine ⟨same.tag_eq.trans inv.tag_eq, hlive ▸ hring2, ?_, ?_, ?_, ?_, ?_, ?_, ?_, ?_⟩
      · rw [hlive]
        intro x hx
        obtain ⟨e1, e2, e3⟩ := same.hdr x.addr
        rw [e1, e2, e3]
        have hxb : x.addr ≠ b.addr := by
          rw [List.pairwise_append] at hap
          rcases List.mem_append.mp hx with h | h
          · exact apart_addr_ne (hap.2.2 x h b (List.mem_cons_self _ _))
          · exact fun e => apart_addr_ne ((List.pairwise_cons.mp hap.2.1).1 x h) e.symm
        rw [delMarked_heap, Function.update_noteq hxb]
        exact inv.hdr x (hmem x hx)
      · rw [hfreed]
        intro a ha
        rw [(same.hdr a).1, delMarked_heap]
        by_cases hab : a = b.addr
        · subst hab
          rw [Function.update_same]
        · rw [Function.update_noteq hab]
          rcases List.mem_cons.mp ha with h | h
          · exact absurd h hab
          · exact inv.gone a h
      · rw [hlive]
        rw [List.pairwise_append] at hap ⊢
        exact ⟨hap.1, (List.pairwise_cons.mp hap.2.1).2,
          fun x hx y hy => hap.2.2 x hx y (List.mem_cons_of_mem _ hy)⟩
      · rw [hlive]
        exact fun x hx => inv.inside x (hmem x hx)
      · intro hs
        rw [hlive, same.curnew]
        show (if st.click_dmalloc_curnew = 0 then SIZE_T_MOD - 1
          else st.click_dmalloc_curnew - 1) = _
        rw [inv.curnew hs, hlen, if_neg (Nat.succ_ne_zero _)]
        rfl
      · rw [hlive]; exact hcur
      · rw [hcur, same.maxmem]
        show _ ≤ st.click_dmalloc_maxmem
        have := inv.maxmem
        rw [inv.curmem, hsum] at this
        omega
      · intro hs
        rw [same.chatter]; exact inv.quiet hs
    · rw [hcur, inv.curmem, hsum]
      omega
  · subst haddr
    have hc : a + SIZEOF_CHUNK - SIZEOF_CHUNK = a := Nat.add_sub_cancel ..
    have hm : (st.heap (a + SIZEOF_CHUNK - SIZEOF_CHUNK)).magic = CHUNK_MAGIC_FREED := by
      rw [hc]; exact inv.gone a ha
    have hnone : ∀ b ∈ g.live, b.addr + SIZEOF_CHUNK ≠ a + SIZEOF_CHUNK := by
      intro b hb hba
      have hba1 : b.addr = a := Nat.add_right_cancel hba
      have h1 := (inv.hdr b hb).1
      rw [hba1, inv.gone a ha] at h1
      exact absurd h1 (by decide)
    rw [step_release_none g _ hnone]
    refine ⟨_, operator_delete_double_free st _ (by simp [SIZEOF_CHUNK]) hm, ?_, rfl, le_refl _,
      rfl⟩
    have hns : strict = true → False := by
      intro h
      rw [hs] at h
      cases h
    exact ⟨inv.tag_eq, inv.ring, inv.hdr, inv.gone, inv.apart, inv.inside,
      fun h => (hns h).elim, inv.curmem, inv.maxmem, fun h => (hns h).elim⟩

/-! ## The allocator: call sequences -/

theorem initState_inv (strict : Bool) (heap : Nat → Chunk) (bytes : Nat → Nat) :
    AInv strict ghost0 (initState heap bytes) := by
  refine ⟨rfl, ?_, fun b hb => by simp [ghost0] at hb, fun a ha => by simp [ghost0] at ha,
    List.Pairwise.nil, fun b hb => by simp [ghost0] at hb, fun _ => rfl, rfl, le_refl _,
    fun _ => rfl⟩
  unfold Ring
  simp [ghost0, ptrs, Link, nextOf, prevOf, initState]

theorem step_inv (strict : Bool) (g : Ghost) (st : DState) (op : Op) (inv : AInv strict g st)
    (hok : okOp strict g op) :
    ∃ st1, step st op = Except.ok st1 ∧ AInv strict (g.step op) st1 ∧
      st1.click_dmalloc_maxmem = max st.click_dmalloc_maxmem st1.click_dmalloc_curmem ∧
      st1.bytes = st.bytes := by
  cases op with
  | tag w =>
    exact ⟨_, rfl, ⟨rfl, inv.ring, inv.hdr, inv.gone, inv.apart, inv.inside, inv.curnew,
      inv.curmem, inv.maxmem, inv.quiet⟩, (max_eq_left inv.maxmem).symm, rfl⟩
  | alloc sz v =>
    obtain ⟨st1, h1, h2, h3, h4⟩ := operator_new_inv strict g st sz v inv hok
    refine ⟨st1, ?_, h2, h3, h4⟩
    simp only [step, h1, Except.map]
  | release addr =>
    obtain ⟨st1, h1, h2, h3, h4, h5⟩ := operator_delete_inv strict g st addr inv hok
    refine ⟨st1, h1, h2, ?_, h5⟩
    rw [h3]
    have := inv.maxmem
    omega

theorem highest_trace_ge (st : DState) (ops : List Op) :
    st.click_dmalloc_curmem ≤ highest (curmemTrace st ops) := by
  cases ops <;> simp [curmemTrace, highest]

/-- Along a sequence of calls of `Valid` no fault occurs, the invariant is
kept, and the peak at the end is the larger of the peak at the start and the
largest value the current bytes took. -/
theorem run_inv (strict : Bool) : ∀ (ops : List Op) (g : Ghost) (st : DState),
    AInv strict g st → Valid strict g ops →
    ∃ st1, run st ops = Except.ok st1 ∧ AInv strict (g.steps ops) st1 ∧
      st1.click_dmalloc_maxmem = max st.click_dmalloc_maxmem (highest (curmemTrace st ops)) ∧
      st1.bytes = st.bytes
  | [], g, st, inv, _ => by
    refine ⟨st, rfl, inv, ?_, rfl⟩
    have := inv.maxmem
    simp only [curmemTrace, highest, List.foldr]
    omega
  | op :: ops, g, st, inv, hv => by
    obtain ⟨st1, h1, inv1, hmax1, hb1⟩ := step_inv strict g st op inv hv.1
    obtain ⟨st2, h2, inv2, hmax2, hb2⟩ := run_inv strict ops (g.step op) st1 inv1 hv.2
    refine ⟨st2, ?_, inv2, ?_, hb2.trans hb1⟩
    · simp only [run, h1, bind, Except.bind, h2]
    · have hge := highest_trace_ge st1 ops
      have hm := inv.maxmem
      have htr : highest (curmemTrace st (op :: ops)) =
          max st.click_dmalloc_curmem (highest (curmemTrace st1 ops)) := by
        simp only [curmemTrace, h1, highest, List.foldr]
      rw [hmax2, hmax1, htr]
      omega

theorem cleanup_done (fuel : Nat) (st : DState) (h : st.chunks.next = Ptr.chunks) :
    click_dmalloc_cleanup fuel st = Except.ok st := by
  cases fuel <;> simp [click_dmalloc_cleanup, h]

theorem cleanup_step (fuel : Nat) (st st1 st2 : DState) (c : Nat)
    (hnext : st.chunks.next = Ptr.heap c)
    (h1 : setNext st Ptr.chunks (nextOf st (Ptr.heap c)) = Except.ok st1)
    (h2 : setPrev st1 (nextOf st1 (Ptr.heap c)) Ptr.chunks = Except.ok st2) :
    click_dmalloc_cleanup (fuel + 1) st =
      click_dmalloc_cleanup fuel { st2 with chatter := st2.chatter ++
        [Chatter.leak (c + SIZEOF_CHUNK) (st2.heap c).size (printable_where (st2.heap c))
          (dumpData st2 c)] } := by
  simp only [setNext, nextOf, Except.ok.injEq] at h1
  subst h1
  simp only [nextOf] at h2
  simp only [click_dmalloc_cleanup, hnext, ne_eq, reduceCtorEq, not_false_eq_true, if_true, bind,
    Except.bind, h2]

/-- With a well-formed registry holding the blocks `l`, the cleanup reports the
blocks of `l` in order, empties the registry and changes nothing else. -/
theorem cleanup_spec : ∀ (l : List Block) (fuel : Nat) (st : DState), Ring st l →
    (ptrs l).Nodup →
    (∀ b ∈ l, (st.heap b.addr).size = b.size ∧ (st.heap b.addr).tag = b.tag) →
    l.length ≤ fuel →
    ∃ st1, click_dmalloc_cleanup fuel st = Except.ok st1 ∧
      st1.chatter = st.chatter ++ l.map (leakReport st.bytes) ∧
      st1.chunks.next = Ptr.chunks ∧ st1.chunks.prev = Ptr.chunks ∧
      st1.click_dmalloc_curnew = st.click_dmalloc_curnew ∧
      st1.click_dmalloc_totalnew = st.click_dmalloc_totalnew ∧
      st1.click_dmalloc_curmem = st.click_dmalloc_curmem ∧
      st1.click_dmalloc_maxmem = st.click_dmalloc_maxmem
  | [], fuel, st, hring, _, _, _ => by
    unfold Ring at hring
    simp only [ptrs, List.map_nil, List.nil_append, List.chain'_cons, List.chain'_singleton,
      and_true] at hring
    exact ⟨st, cleanup_done fuel st hring.1, by simp, hring.1, hring.2, rfl, rfl, rfl, rfl⟩
  | b :: l, 0, st, _, _, _, hf => by simp at hf
  | b :: l, fuel + 1, st, hring, hnd, hdr, hf => by
    have hnext : st.chunks.next = Ptr.heap b.addr := by
      unfold Ring at hring
      rw [ptrs_cons, List.cons_append, List.chain'_cons] at hring
      exact hring.1.1
    obtain ⟨hP, st1, st2, h1, h2, hp1, hring2, same⟩ := unlink_ring st [] l b hring hnd
    simp only [ptrs, List.map_nil, List.getLast_singleton] at hP
    have hP1 : prevOf st1 (Ptr.heap b.addr) = Ptr.chunks := by rw [hp1, hP]
    rw [hP] at h1
    rw [hP1] at h2
    have hnd2 : (ptrs l).Nodup := (List.nodup_cons.mp hnd).2
    have hsz := (same.hdr b.addr).2.1
    have htg := (same.hdr b.addr).2.2
    obtain ⟨st3, h3, hch, hn, hp, e1, e2, e3, e4⟩ :=
      cleanup_spec l fuel { st2 with chatter := st2.chatter ++
        [Chatter.leak (b.addr + SIZEOF_CHUNK) (st2.heap b.addr).size
          (printable_where (st2.heap b.addr)) (dumpData st2 b.addr)] }
        (ring_congr st2 _ _ (fun x => by cases x <;> rfl) (fun x => by cases x <;> rfl) hring2)
        hnd2
        (fun x hx => by
          obtain ⟨_, e2, e3⟩ := same.hdr x.addr
          show (st2.heap x.addr).size = x.size ∧ (st2.heap x.addr).tag = x.tag
          rw [e2, e3]
          exact hdr x (List.mem_cons_of_mem _ hx))
        (by simpa using hf)
    refine ⟨st3, ?_, ?_, hn, hp, e1.trans same.curnew, e2.trans same.totalnew,
      e3.trans same.curmem, e4.trans same.maxmem⟩
    · rw [cleanup_step fuel st st1 st2 b.addr hnext h1 h2, h3]
    · rw [hch]
      simp only [same.chatter, same.bytes, List.map_cons, List.append_assoc, List.singleton_append]
      congr 2
      simp only [leakReport, dumpData, printable_where, hsz, htg, same.bytes, (hdr b (by simp)).1,
        (hdr b (by simp)).2]

/-! ## The allocator: the claims -/

/-- C6, the code at the failing input: a chunk of 16 bytes is allocated
(header at address 4096) and released twice.  After the first release the
counters are (0, 1, 0, 16); the second release reports the double free and
leaves the lifetime count, the current bytes, the peak bytes and the registry
as they were, but the outstanding count has gone from 0 to `SIZE_T_MOD - 1`. -/
theorem double_free_changes_outstanding_count :
    (run (initState heapZero bytesZero) [Op.alloc 16 4096, Op.release 4128]).map
      (fun st => (counters st, st.chunks, st.chatter)) =
      Except.ok ((0, 1, 0, 16),
        { magic := CHUNK_MAGIC, tag := 0, size := 0, prev := Ptr.chunks, next := Ptr.chunks },
        []) ∧
    (run (initState heapZero bytesZero)
      [Op.alloc 16 4096, Op.release 4128, Op.release 4128]).map
      (fun st => (counters st, st.chunks, st.chatter)) =
      Except.ok ((SIZE_T_MOD - 1, 1, 0, 16),
        { magic := CHUNK_MAGIC, tag := 0, size := 0, prev := Ptr.chunks, next := Ptr.chunks },
        [Chatter.doubleFree 4128 16 ['?', '?', '?', '?']]) :=
  ⟨rfl, rfl⟩

/-- The loop of `printable_where` runs four times, for the shifts 24, 16, 8 and
0, and stores the rendering of one byte each time. -/
theorem printable_where_eq (c : Chunk) :
    printable_where c =
      renderByte (byteOf c.tag 24) ++ (renderByte (byteOf c.tag 16) ++
        (renderByte (byteOf c.tag 8) ++ renderByte (byteOf c.tag 0))) := by
  have e1 : (24 : Int) - 8 = 16 := by decide
  have e2 : (16 : Int) - 8 = 8 := by decide
  have e3 : (8 : Int) - 8 = 0 := by decide
  have e4 : (0 : Int) - 8 = -8 := by decide
  have n1 : ¬ ((-8 : Int) ≥ 0) := by decide
  have p1 : (24 : Int) ≥ 0 := by decide
  have p2 : (16 : Int) ≥ 0 := by decide
  have p3 : (8 : Int) ≥ 0 := by decide
  have p4 : (0 : Int) ≥ 0 := by decide
  have t1 : (24 : Int).toNat = 24 := rfl
  have t2 : (16 : Int).toNat = 16 := rfl
  have t3 : (8 : Int).toNat = 8 := rfl
  have t4 : (0 : Int).toNat = 0 := rfl
  have step : ∀ (fuel : Nat) (i : Int) (s : List Char), i ≥ 0 →
      printable_where_loop c.tag (fuel + 1) i s =
        printable_where_loop c.tag fuel (i - 8) (s ++ renderByte (byteOf c.tag i.toNat)) := by
    intro fuel i s hi
    simp only [printable_where_loop, hi, if_true, renderByte, byteOf]
    split <;> rfl
  have stop : ∀ (fuel : Nat) (s : List Char), printable_where_loop c.tag fuel (-8) s = s := by
    intro fuel s
    cases fuel with
    | zero => rfl
    | succ f => simp only [printable_where_loop, n1, if_false]
  unfold printable_where
  rw [step 4 24 _ p1, e1, t1, step 3 16 _ p2, e2, t2, step 2 8 _ p3, e3, t3, step 1 0 _ p4, e4, t4,
    stop]
  simp only [List.nil_append, List.append_assoc]

theorem renderByte_length (ch : Nat) :
    (renderByte ch).length = if ch ≥ 32 ∧ ch < 127 then 1 else 3 := by
  unfold renderByte
  split <;> rfl

/-- C10, as stated, fails: the initial origin tag `0x3F3F3F3F` is rendered as
the four characters `????`, not as twelve characters. -/
theorem printable_where_length_counterexample :
    printable_where questionChunk = ['?', '?', '?', '?'] ∧
    (printable_where questionChunk).length ≠ 12 :=
  ⟨rfl, by decide⟩

/-- C10, amended: the rendering of an origin tag by `printable_where` is at
least 4 and at most 12 characters long, and it is exactly 12 characters long if
and only if none of the four bytes of the tag is printable (at least 32 and
below 127). -/
theorem printable_where_length (c : Chunk) :
    4 ≤ (printable_where c).length ∧ (printable_where c).length ≤ 12 ∧
    ((printable_where c).length = 12 ↔
      ∀ i ∈ [24, 16, 8, 0], ¬ (byteOf c.tag i ≥ 32 ∧ byteOf c.tag i < 127)) := by
  rw [printable_where_eq]
  simp only [List.length_append, renderByte_length, List.mem_cons, List.mem_singleton,
    forall_eq_or_imp, forall_eq, List.not_mem_nil, false_imp_iff, implies_true, and_true]
  refine ⟨?_, ?_, ?_⟩
  · split_ifs <;> omega
  · split_ifs <;> omega
  · constructor
    · intro h
      split_ifs at h with h1 h2 h3 h4 <;> omega
    · rintro ⟨h1, h2, h3, h4⟩
      rw [if_neg h1, if_neg h2, if_neg h3, if_neg h4]

/-! ## The sorter: input that is in order already -/

/-- On a range of at least two records whose adjacent pairs are all in order,
`click_qsort_partition` does the pre-scan only: one comparator call for each
adjacent pair, no store into the array, and the two boundaries are the ends of
the range. -/
theorem partition_sorted {α : Type} (compar : α → α → Int) (size sp lo hi : Nat) (s : QState α)
    (hsize : size < 64) (h0 : s.stack[sp]? = some lo) (h3 : s.stack[sp + 3]? = some hi)
    (hlt : lo + 1 < hi) (hlen : hi ≤ s.base.length)
    (hs : ∀ i x y, lo ≤ i → i + 1 < hi → s.base[i]? = some x → s.base[i + 1]? = some y →
      compar x y ≤ 0) :
    click_qsort_partition compar size sp s =
      Except.ok (0, { s with
        stack := (s.stack.set (sp + 1) lo).set (sp + 2) hi
        ncmp := s.ncmp + (hi - 1 - lo) }) := by
  have hs3 : sp + 3 < s.stack.length := getElem?_lt_length h3
  have hsz : ¬ size ≥ 64 := by omega
  have hhi0 : hi ≠ 0 := by omega
  have hr0 : rdStack s (sp + 0) = Except.ok lo := rdStack_ok (by simpa using h0)
  have hr3 : rdStack s (sp + 3) = Except.ok hi := rdStack_ok h3
  obtain ⟨inv, l, s1, hrun, hb, hst, hn, hk, hl1, hl2, hch, hT, hF⟩ :=
    prescan_spec compar lo hi (hi - 1) (hi - 1 - lo) lo s (le_refl _) (by omega) (by omega) hlen
      (le_refl _) (fun i x y h1 h2 => by omega)
  cases inv with
  | true =>
    obtain ⟨hlr, x, y, hx, hy, hxy⟩ := hT rfl
    have := hs l x y hl1 (by omega) hx hy
    omega
  | false =>
    have hl : l = hi - 1 := hF rfl
    have hs1 : s1 = { s with ncmp := s.ncmp + (hi - 1 - lo) } := by
      cases s1
      cases s
      simp only [QState.mk.injEq] at hb hst hn hk ⊢
      subst hl
      exact ⟨hb, hst, by simpa using hk, hn⟩
    subst hs1
    have hr0a : rdStack { s with ncmp := s.ncmp + (hi - 1 - lo) } (sp + 0) = Except.ok lo :=
      rdStack_ok (by simpa using h0)
    have hw1 := wrStack_ok (s := { s with ncmp := s.ncmp + (hi - 1 - lo) }) (i := sp + 1) lo
      (by show sp + 1 < s.stack.length; omega)
    have hr3a : rdStack { s with ncmp := s.ncmp + (hi - 1 - lo), stack := s.stack.set (sp + 1) lo }
        (sp + 3) = Except.ok hi :=
      rdStack_ok (by
        show (s.stack.set (sp + 1) lo)[sp + 3]? = some hi
        rw [List.getElem?_set_ne (by omega)]; exact h3)
    have hw2 := wrStack_ok
      (s := { s with ncmp := s.ncmp + (hi - 1 - lo), stack := s.stack.set (sp + 1) lo })
      (i := sp + 2) hi (by simp; omega)
    simp only [click_qsort_partition, hsz, if_false, hr0, hr3, hhi0, bind, Except.bind, hrun,
      hr0a, hw1, hr3a, hw2]
    rfl

theorem chain_index {α : Type} (R : α → α → Prop) : ∀ (l : List α), List.Chain' R l →
    ∀ (i : Nat) (x y : α), l[i]? = some x → l[i + 1]? = some y → R x y
  | [], _, i, x, y, hx, _ => by simp at hx
  | [a], _, i, x, y, _, hy => by simp at hy
  | a :: b :: l, h, i, x, y, hx, hy => by
    rw [List.chain'_cons] at h
    cases i with
    | zero =>
      simp only [List.getElem?_cons_zero, Option.some.injEq, zero_add,
        List.getElem?_cons_succ] at hx hy
      subst hx; subst hy
      exact h.1
    | succ i =>
      simp only [List.getElem?_cons_succ] at hx hy
      exact chain_index R (b :: l) h.2 i x y hx (by simpa using hy)

/-- C14, as stated, fails: two records of 64 bytes that are in order.  The
call returns `-E2BIG` and has not called the comparator. -/
theorem sorted_input_counterexample :
    List.Chain' (fun a b => intCompar a b ≤ 0) [1, 2] ∧
    (click_qsort intCompar (fun _ => true) 5 [1, 2] 2 64).map
      (fun r => (r.1, r.2.base, r.2.ncmp, r.2.nstore)) = Except.ok (-E2BIG, [1, 2], 0, 0) :=
  ⟨by simp [intCompar], rfl⟩

/-- C14, amended: for an element size below 64, an array of `n ≥ 1` records
whose adjacent pairs are all in order (the comparator returns at most 0 on
them) and at least three iterations of fuel, `click_qsort` returns success
whatever the allocation primitive does, has stored no record (the array is the
input array) and has called the comparator exactly `n - 1` times. -/
theorem sorted_input_prescan_only {α : Type} (compar : α → α → Int) (lalloc : Nat → Bool)
    (fuel : Nat) (base : List α) (size : Nat) (hsize : size < 64) (hn : 1 ≤ base.length)
    (hfuel : 3 ≤ fuel) (hsorted : List.Chain' (fun a b => compar a b ≤ 0) base) :
    ∃ stk, click_qsort compar lalloc fuel base base.length size =
      Except.ok (0, { base := base, stack := stk, ncmp := base.length - 1, nstore := 0 }) := by
  obtain ⟨f, rfl⟩ : ∃ f, fuel = f + 3 := ⟨fuel - 3, by omega⟩
  rw [click_qsort_eq_loop]
  have ha : rdStack (α := α)
      { base := base, stack := initStack base.length, ncmp := 0, nstore := 0 } 0 =
      Except.ok 0 := rfl
  have hb : rdStack (α := α)
      { base := base, stack := initStack base.length, ncmp := 0, nstore := 0 } (0 + 1) =
      Except.ok base.length := rfl
  by_cases h2 : 2 ≤ base.length
  · have hg : growStack lalloc 20 0
        ({ base := base, stack := initStack base.length, ncmp := 0, nstore := 0 } : QState α) =
        Except.ok (some (20,
          { base := base, stack := initStack base.length, ncmp := 0, nstore := 0 })) := by
      simp [growStack]
    have hp : click_qsort_partition compar size 0
        (⟨base, (initStack base.length).set (0 + 3) base.length, 0, 0⟩ : QState α) =
        Except.ok (0, ⟨base, (((initStack base.length).set (0 + 3) base.length).set (0 + 1) 0).set
          (0 + 2) base.length, base.length - 1, 0⟩) := by
      rw [partition_sorted compar size 0 0 base.length
        ⟨base, (initStack base.length).set (0 + 3) base.length, 0, 0⟩ hsize rfl rfl (by omega)
        (le_refl _) (fun i x y _ _ hx hy => chain_index _ base hsorted i x y hx hy)]
      simp
    rw [loop_partition compar lalloc size (f + 2) 20 0 0 base.length 20 base.length 0 _ _ _ _
      ha hb (by omega) hg hb (wrStack_ok base.length (by simp [initStack])) hp]
    rw [loop_continue compar lalloc size (f + 1) 20 2 base.length base.length _
      (by simp [rdStack, initStack]) (by simp [rdStack, initStack]) (by omega)]
    rw [loop_continue compar lalloc size f 20 0 0 0 _
      (by simp [rdStack, initStack]) (by simp [rdStack, initStack]) (by omega)]
    rw [loop_done _ _ _ _ _ _ _ _ (Or.inl rfl)]
    exact ⟨_, rfl⟩
  · refine ⟨initStack base.length, ?_⟩
    rw [loop_continue compar lalloc size (f + 2) 20 0 0 base.length _ ha hb (by omega)]
    rw [loop_done _ _ _ _ _ _ _ _ (Or.inl rfl)]
    have : base.length - 1 = 0 := by omega
    rw [this]

/-- C14, witness: five records with equal neighbours, four comparator calls. -/
theorem sorted_input_prescan_only_witness :
    ((4 : Nat) < 64 ∧ 1 ≤ [1, 2, 2, 5, (7 : Int)].length ∧ 3 ≤ 3 ∧
      List.Chain' (fun a b => intCompar a b ≤ 0) [1, 2, 2, 5, 7]) ∧
    (click_qsort intCompar (fun _ => false) 3 [1, 2, 2, 5, 7] 5 4).map
      (fun r => (r.1, r.2.base, r.2.ncmp, r.2.nstore)) = Except.ok (0, [1, 2, 2, 5, 7], 4, 0) ∧
    ∃ stk, click_qsort intCompar (fun _ => false) 3 [1, 2, 2, 5, 7]
      [1, 2, 2, 5, (7 : Int)].length 4 =
      Except.ok (0, ⟨[1, 2, 2, 5, 7], stk, [1, 2, 2, 5, (7 : Int)].length - 1, 0⟩) :=
  ⟨⟨by decide, by decide, by decide, by simp [intCompar]⟩, rfl,
    sorted_input_prescan_only intCompar (fun _ => false) 3 [1, 2, 2, 5, 7] 4 (by decide)
      (by decide) (by decide) (by simp [intCompar])⟩

/-! ## The sorter: the three regions of a partition step -/

/-- C15, as stated, fails: on the records 3, 3, 1 the pre-scan finds the
inversion (3, 1), the pivot is the second 3, and the call leaves the array
3, 1, 3 with the boundaries 2 and 3.  The record at index 0, inside `[0, 2)`,
compares equal to the pivot, not strictly less, and it is part of the
descriptor `(0, 2)` handed back for later partitioning. -/
theorem partition_strictly_less_counterexample :
    click_qsort_partition intCompar 4 0 threeRecords =
      Except.ok (0, { base := [3, 1, 3], stack := [0, 2, 3, 3], ncmp := 2, nstore := 2 }) ∧
    intCompar 3 3 = 0 ∧ ¬ intCompar 3 3 < 0 :=
  ⟨rfl, by decide, by decide⟩

/-- C15, amended: for an element size below 64, a total-preorder comparator
that returns 0 on a record and itself, and a range `[lo, hi)` (the window
`stack[sp]`, `stack[sp + 3]`) in which some adjacent pair is out of order,
`click_qsort_partition` returns 0 and stores boundaries `l`, `h` in
`stack[sp + 1]` and `stack[sp + 2]` with `lo < l < h ≤ hi`; for the pivot it
chose, every record in `[l, h)` compares equal to the pivot, every record in
`[lo, l)` compares less than or equal to the pivot, and every record in
`[h, hi)` compares strictly greater than the pivot.  The window then holds the
descriptors `(lo, l)` and `(h, hi)`, so no record of `[l, h)` is in a later
descriptor. -/
theorem partition_three_way {α : Type} (compar : α → α → Int) (size sp lo hi : Nat)
    (s : QState α) (hsize : size < 64) (hpre : IsTotalPreorder compar)
    (hrefl : ∀ a, compar a a = 0)
    (h0 : s.stack[sp]? = some lo) (h3 : s.stack[sp + 3]? = some hi) (hlen : hi ≤ s.base.length)
    (hinv : ∃ i x y, lo ≤ i ∧ i + 1 < hi ∧ s.base[i]? = some x ∧ s.base[i + 1]? = some y ∧
      0 < compar x y) :
    ∃ l h pivot s1, click_qsort_partition compar size sp s = Except.ok (0, s1) ∧
      s1.stack[sp]? = some lo ∧ s1.stack[sp + 1]? = some l ∧
      s1.stack[sp + 2]? = some h ∧ s1.stack[sp + 3]? = some hi ∧
      lo < l ∧ l < h ∧ h ≤ hi ∧
      (∀ i x, lo ≤ i → i < l → s1.base[i]? = some x → compar x pivot ≤ 0) ∧
      (∀ i x, l ≤ i → i < h → s1.base[i]? = some x → compar x pivot = 0) ∧
      (∀ i x, h ≤ i → i < hi → s1.base[i]? = some x → 0 < compar x pivot) := by
  obtain ⟨i0, x0, y0, hi0, hi1, hx0, hy0, hxy0⟩ := hinv
  have hlt : lo + 1 < hi := by omega
  have hs3 : sp + 3 < s.stack.length := getElem?_lt_length h3
  have hsz : ¬ size ≥ 64 := by omega
  have hhi0 : hi ≠ 0 := by omega
  have hr0 : rdStack s (sp + 0) = Except.ok lo := rdStack_ok (by simpa using h0)
  have hr3 : rdStack s (sp + 3) = Except.ok hi := rdStack_ok h3
  obtain ⟨inv, l, s1, hrun, hb, hst, hn, hk, hl1, hl2, hch, hT, hF⟩ :=
    prescan_spec compar lo hi (hi - 1) (hi - 1 - lo) lo s (le_refl _) (by omega) (by omega) hlen
      (le_refl _) (fun i x y h1 h2 => by omega)
  cases inv with
  | false =>
    have hl : l = hi - 1 := hF rfl
    have := hch i0 x0 y0 hi0 (by omega) hx0 hy0
    omega
  | true =>
    obtain ⟨hlr, x, y, hx, hy, hxy⟩ := hT rfl
    have hrx : rdBase s1 lo hi l = Except.ok x :=
      rdBase_ok (by omega) (by omega) (by rw [hb]; exact hx)
    have hry : rdBase s1 lo hi (l + 1) = Except.ok y :=
      rdBase_ok (by omega) (by omega) (by rw [hb]; exact hy)
    have hw1 := wrBase_ok s1 lo hi l y (by omega) (by omega) (by rw [hb]; omega)
    have hw2 := wrBase_ok { s1 with base := s1.base.set l y, nstore := s1.nstore + 1 }
      lo hi (l + 1) x (by omega) (by omega) (by simp [hb]; omega)
    have inv0 : DutchInv compar (fun u => compar u x ≤ 0) lo hi x s.base
        s.stack (l + 1) (l + 1 + 1) (hi - 1)
        { base := (s1.base.set l y).set (l + 1) x, stack := s1.stack, ncmp := s1.ncmp,
          nstore := s1.nstore + 1 + 1 } := by
      refine ⟨hst, ?_, hlen, by omega, by omega, by omega, by omega, ?_, ?_, ?_⟩
      · simp only [hb]
        exact SegPerm.seg_swap s.base l (l + 1) x y (by omega) (by omega) (by omega) (by omega)
          hx hy
      · intro i u hi1 hi2 hu
        simp only [hb] at hu
        rw [List.getElem?_set_ne (by omega)] at hu
        by_cases hil : l = i
        · subst hil
          rw [List.getElem?_set_self (by omega)] at hu
          cases hu
          exact hpre.total _ _ (le_of_lt hxy)
        · rw [List.getElem?_set_ne hil] at hu
          have hl' : l = i + (l - i) := by omega
          rw [hl'] at hx
          exact chain_pairs hpre s.base lo l hch (l - i) i u x hi1 (by omega) hu hx
      · intro i u hi1 hi2 hu
        have hil : i = l + 1 := by omega
        subst hil
        simp only [hb] at hu
        rw [List.getElem?_set_self (by simp; omega)] at hu
        cases hu
        exact Or.inr rfl
      · intro i u hi1 hi2 _
        omega
    obtain ⟨l2, r2, s2, hrun2, inv2⟩ :=
      dutch_spec compar (fun u => compar u x ≤ 0) lo hi x s.base s.stack
        (fun u hu => le_of_lt hu) (hi - 1 + 1 - (l + 1 + 1)) (l + 1) (l + 1 + 1) (hi - 1) _ inv0
        (le_refl _)
    have hw3 := wrStack_ok (s := s2) (i := sp + 1) l2 (by rw [inv2.stack_eq]; omega)
    have hw4 := wrStack_ok (s := { s2 with stack := s2.stack.set (sp + 1) l2 }) (i := sp + 2)
      (r2 + 1) (by simp [inv2.stack_eq]; omega)
    have g1 := inv2.lo_lt
    have g2 := inv2.left_lt
    have g3 := inv2.right_lt
    refine ⟨l2, r2 + 1, x, { s2 with stack := (s2.stack.set (sp + 1) l2).set (sp + 2) (r2 + 1) },
      ?_, ?_, ?_, ?_, ?_, g1, g2, by omega, ?_, ?_, ?_⟩
    · simp only [click_qsort_partition, hsz, if_false, hr0, hr3, hhi0, bind, Except.bind, hrun,
        hrx, hry, hw1, hw2, hrun2, hw3, hw4]
      rfl
    · show ((s2.stack.set (sp + 1) l2).set (sp + 2) (r2 + 1))[sp]? = some lo
      rw [List.getElem?_set_ne (by omega), List.getElem?_set_ne (by omega), inv2.stack_eq]
      exact h0
    · show ((s2.stack.set (sp + 1) l2).set (sp + 2) (r2 + 1))[sp + 1]? = some l2
      rw [List.getElem?_set_ne (by omega), List.getElem?_set_self (by rw [inv2.stack_eq]; omega)]
    · show ((s2.stack.set (sp + 1) l2).set (sp + 2) (r2 + 1))[sp + 2]? = some (r2 + 1)
      rw [List.getElem?_set_self (by simp [inv2.stack_eq]; omega)]
    · show ((s2.stack.set (sp + 1) l2).set (sp + 2) (r2 + 1))[sp + 3]? = some hi
      rw [List.getElem?_set_ne (by omega), List.getElem?_set_ne (by omega), inv2.stack_eq]
      exact h3
    · intro i u hi1 hi2 hu
      exact inv2.regL i u hi1 hi2 hu
    · intro i u hi1 hi2 hu
      rcases inv2.regE i u hi1 hi2 hu with h | h
      · exact h
      · rw [h]; exact hrefl x
    · intro i u hi1 hi2 hu
      exact inv2.regR i u (by omega) hi2 hu

theorem intCompar_self (a : Int) : intCompar a a = 0 := by
  simp [intCompar]

/-- C15, witness: the records 5, 3, 3, 8, 1, 3, 9 with the range `[0, 7)`; the
first adjacent pair is out of order. -/
theorem partition_three_way_witness :
    ((4 : Nat) < 64 ∧ IsTotalPreorder intCompar ∧ (∀ a, intCompar a a = 0) ∧
      ([0, 0, 0, 7] : List Nat)[0]? = some 0 ∧ ([0, 0, 0, 7] : List Nat)[0 + 3]? = some 7 ∧
      7 ≤ [5, 3, 3, 8, 1, 3, (9 : Int)].length ∧
      ∃ i x y, 0 ≤ i ∧ i + 1 < 7 ∧ [5, 3, 3, 8, 1, 3, (9 : Int)][i]? = some x ∧
        [5, 3, 3, 8, 1, 3, (9 : Int)][i + 1]? = some y ∧ 0 < intCompar x y) ∧
    (click_qsort_partition intCompar 4 0 ⟨[5, 3, 3, 8, 1, 3, 9], [0, 0, 0, 7], 0, 0⟩).map
      (fun r => (r.1, r.2.base, r.2.stack)) =
      Except.ok (0, [3, 3, 3, 1, 5, 9, 8], [0, 4, 5, 7]) ∧
    ∃ l h pivot s1,
      click_qsort_partition intCompar 4 0 ⟨[5, 3, 3, 8, 1, 3, 9], [0, 0, 0, 7], 0, 0⟩ =
        Except.ok (0, s1) ∧
      s1.stack[0]? = some 0 ∧ s1.stack[0 + 1]? = some l ∧
      s1.stack[0 + 2]? = some h ∧ s1.stack[0 + 3]? = some 7 ∧
      0 < l ∧ l < h ∧ h ≤ 7 ∧
      (∀ i x, 0 ≤ i → i < l → s1.base[i]? = some x → intCompar x pivot ≤ 0) ∧
      (∀ i x, l ≤ i → i < h → s1.base[i]? = some x → intCompar x pivot = 0) ∧
      (∀ i x, h ≤ i → i < 7 → s1.base[i]? = some x → 0 < intCompar x pivot) :=
  ⟨⟨by decide, intCompar_isTotalPreorder, intCompar_self, rfl, rfl, by decide,
      0, 5, 3, by decide, by decide, rfl, rfl, by decide⟩, rfl,
    partition_three_way intCompar 4 0 0 7 ⟨[5, 3, 3, 8, 1, 3, 9], [0, 0, 0, 7], 0, 0⟩ (by decide)
      intCompar_isTotalPreorder intCompar_self rfl rfl (by decide)
      ⟨0, 5, 3, by decide, by decide, rfl, rfl, by decide⟩⟩

/-! ## The sorter: the stacked descriptors at every iteration -/

theorem pairUp_append_pair : ∀ (k : Nat) (xs : List Nat), xs.length = 2 * k → ∀ a b : Nat,
    pairUp (xs ++ [a, b]) = pairUp xs ++ [(a, b)]
  | 0, xs, h, a, b => by
    have : xs = [] := List.length_eq_zero.mp (by omega)
    subst this
    rfl
  | k + 1, [], h, _, _ => by simp at h
  | k + 1, [x], h, _, _ => by simp at h; omega
  | k + 1, x :: y :: xs, h, a, b => by
    have h2 : xs.length = 2 * k := by simp at h; omega
    exact congrArg (List.cons (x, y)) (pairUp_append_pair k xs h2 a b)

theorem pairUp_flat : ∀ ds : List (Nat × Nat), pairUp (flat ds) = ds.reverse
  | [] => rfl
  | d :: ds => by
    simp only [flat, List.reverse_cons]
    rw [pairUp_append_pair ds.length (flat ds) (flat_length ds), pairUp_flat ds]

theorem StackInv.descriptors_eq {α : Type} {n : Nat} {ds : List (Nat × Nat)} {c : LoopState α}
    (inv : StackInv n ds c) : descriptors c = ds.reverse := by
  have h : c.s.stack.take c.stackpos = flat ds := by
    apply List.ext_getElem?
    intro i
    rw [List.getElem?_take]
    by_cases hi : i < c.stackpos
    · rw [if_pos hi]
      exact inv.cells i hi
    · rw [if_neg hi,
        List.getElem?_eq_none (by rw [flat_length]; have := inv.pos; omega)]
  unfold descriptors
  rw [h, pairUp_flat]

theorem StackInv.covered_iff {α : Type} {n : Nat} {ds : List (Nat × Nat)} {c : LoopState α}
    (inv : StackInv n ds c) (i : Nat) : Covered c i ↔ ∃ d ∈ ds, d.1 ≤ i ∧ i < d.2 := by
  unfold Covered
  rw [inv.descriptors_eq]
  simp only [List.mem_reverse]

theorem StackInv.shape {α : Type} {n : Nat} {ds : List (Nat × Nat)} {c : LoopState α}
    (inv : StackInv n ds c) :
    (descriptors c).Pairwise (fun d e => d.2 ≤ e.1) ∧
    (∀ d ∈ descriptors c, d.1 ≤ d.2 ∧ d.2 ≤ n) := by
  rw [inv.descriptors_eq]
  refine ⟨List.pairwise_reverse.mpr inv.ordered, fun d hd => inv.wf d (List.mem_reverse.mp hd)⟩

theorem pass_continue {α : Type} (compar : α → α → Int) (lalloc : Nat → Bool) (size : Nat)
    (stacksiz sp a b : Nat) (r : Int) (s : QState α)
    (ha : rdStack s sp = Except.ok a) (hb : rdStack s (sp + 1) = Except.ok b) (hab : a + 1 ≥ b) :
    click_qsort_pass compar lalloc size ⟨stacksiz, sp + 2, r, s⟩ =
      Except.ok ⟨stacksiz, sp, r, s⟩ := by
  simp [click_qsort_pass, ha, hb, hab, bind, Except.bind]

theorem pass_oom {α : Type} (compar : α → α → Int) (lalloc : Nat → Bool) (size : Nat)
    (stacksiz sp a b : Nat) (r : Int) (s : QState α)
    (ha : rdStack s sp = Except.ok a) (hb : rdStack s (sp + 1) = Except.ok b) (hab : ¬ a + 1 ≥ b)
    (hg : growStack lalloc stacksiz sp s = Except.ok none) :
    click_qsort_pass compar lalloc size ⟨stacksiz, sp + 2, r, s⟩ =
      Except.ok ⟨stacksiz, sp, -ENOMEM, s⟩ := by
  simp [click_qsort_pass, ha, hb, hab, hg, bind, Except.bind]

theorem pass_partition {α : Type} (compar : α → α → Int) (lalloc : Nat → Bool) (size : Nat)
    (stacksiz sp a b sz c : Nat) (r r1 : Int) (s sg sw s1 : QState α)
    (ha : rdStack s sp = Except.ok a) (hb : rdStack s (sp + 1) = Except.ok b) (hab : ¬ a + 1 ≥ b)
    (hg : growStack lalloc stacksiz sp s = Except.ok (some (sz, sg)))
    (hc : rdStack sg (sp + 1) = Except.ok c) (hw : wrStack sg (sp + 3) c = Except.ok sw)
    (hp : click_qsort_partition compar size sp sw = Except.ok (r1, s1)) :
    click_qsort_pass compar lalloc size ⟨stacksiz, sp + 2, r, s⟩ =
      Except.ok ⟨sz, sp + 4, r1, s1⟩ := by
  simp [click_qsort_pass, ha, hb, hab, hg, hc, hw, hp, bind, Except.bind]

/-- The loop of `click_qsort` is its body run again and again: when the
condition holds, one pass through the body and then the loop from the state
reached. -/
theorem loop_eq_pass {α : Type} (compar : α → α → Int) (lalloc : Nat → Bool) (size : Nat)
    (fuel : Nat) (c : LoopState α) (hc : c.stackpos ≠ 0 ∧ c.r ≥ 0) :
    click_qsort_loop compar lalloc size (fuel + 1) c.stacksiz c.stackpos c.r c.s =
      (click_qsort_pass compar lalloc size c).bind
        (fun c1 => click_qsort_loop compar lalloc size fuel c1.stacksiz c1.stackpos c1.r c1.s) := by
  simp only [click_qsort_loop, click_qsort_pass]
  rw [if_pos hc]
  by_cases h2 : c.stackpos < 2
  · simp only [h2, if_true]
    rfl
  · simp only [h2, if_false, bind, Except.bind]
    cases rdStack c.s (c.stackpos - 2) with
    | error e => rfl
    | ok a =>
      simp only
      cases rdStack c.s (c.stackpos - 2 + 1) with
      | error e => rfl
      | ok b =>
        simp only
        by_cases hab : a + 1 ≥ b
        · simp only [hab, if_true]
        · simp only [hab, if_false]
          cases growStack lalloc c.stacksiz (c.stackpos - 2) c.s with
          | error e => rfl
          | ok o =>
            cases o with
            | none =>
              simp only
              rw [loop_done _ _ _ _ _ _ _ _ (Or.inr (by simp [ENOMEM]))]
            | some p =>
              obtain ⟨sz, sg⟩ := p
              simp only
              cases rdStack sg (c.stackpos - 2 + 1) with
              | error e => rfl
              | ok b2 =>
                simp only
                cases wrStack sg (c.stackpos - 2 + 3) b2 with
                | error e => rfl
                | ok sw =>
                  simp only
                  cases click_qsort_partition compar size (c.stackpos - 2) sw with
                  | error e => rfl
                  | ok p2 => rfl

/-- At or above the size limit `click_qsort_partition` refuses, before any
access to the array. -/
theorem partition_big {α : Type} (compar : α → α → Int) (size sp : Nat) (s : QState α)
    (hsize : 64 ≤ size) (hs : sp + 2 < s.stack.length) :
    click_qsort_partition compar size sp s =
      Except.ok (-E2BIG, { s with stack := (s.stack.set (sp + 2) 0).set (sp + 1) 0 }) := by
  have hw1 := wrStack_ok (s := s) (i := sp + 2) 0 hs
  have hw2 := wrStack_ok (s := { s with stack := s.stack.set (sp + 2) 0 }) (i := sp + 1) 0
    (by simp; omega)
  have hge : size ≥ 64 := hsize
  simp only [click_qsort_partition, hge, if_true, bind, Except.bind, hw1, hw2]

/-- One pass through the body of the loop from a state with the stack
invariant and `r = 0`: no fault occurs; either the next state has `r = 0` and
the stack invariant again, for descriptors of smaller weight that cover no
index that was not covered before, and the array is as before at the indices
that were not covered; or the next state has a negative `r` and the array is as
before. -/
theorem pass_spec {α : Type} (compar : α → α → Int) (lalloc : Nat → Bool) (size n : Nat)
    (d : Nat × Nat) (rest : List (Nat × Nat)) (c : LoopState α)
    (inv : StackInv n (d :: rest) c) (hr : c.r = 0) :
    ∃ c1, click_qsort_pass compar lalloc size c = Except.ok c1 ∧
      ((c1.r = 0 ∧ ∃ ds1, StackInv n ds1 c1 ∧ weight ds1 < weight (d :: rest) ∧
          ∀ i, (∀ e ∈ d :: rest, ¬ (e.1 ≤ i ∧ i < e.2)) →
            (∀ e ∈ ds1, ¬ (e.1 ≤ i ∧ i < e.2)) ∧ c1.s.base[i]? = c.s.base[i]?) ∨
        (c1.r < 0 ∧ c1.s.base = c.s.base)) := by
  obtain ⟨stacksiz, stackpos, r, s⟩ := c
  obtain ⟨L, R⟩ := d
  simp only at hr
  subst hr
  have hpos : stackpos = 2 * rest.length + 2 := by
    have := inv.pos; simp at this; omega
  subst hpos
  have hfl : (flat rest).length = 2 * rest.length := flat_length rest
  have hcap : s.stack.length = stacksiz := inv.cap
  have hple : 2 * rest.length + 2 ≤ stacksiz := inv.pos_le
  have h2le : 2 ≤ stacksiz := inv.two_le
  have hlen : s.base.length = n := inv.len
  have hcells : ∀ i, i < 2 * rest.length + 2 → s.stack[i]? = (flat ((L, R) :: rest))[i]? :=
    inv.cells
  have hwf := inv.wf (L, R) (by simp)
  simp only at hwf
  have hsL : s.stack[2 * rest.length]? = some L := by
    rw [hcells _ (by omega)]
    exact getElem?_append_at (flat rest) [L, R] 0 _ hfl
  have hsR : s.stack[2 * rest.length + 1]? = some R := by
    rw [hcells _ (by omega)]
    exact getElem?_append_at (flat rest) [L, R] 1 _ hfl
  have hrL : rdStack s (2 * rest.length) = Except.ok L := rdStack_ok hsL
  have hrR : rdStack s (2 * rest.length + 1) = Except.ok R := rdStack_ok hsR
  have hord := inv.ordered
  rw [List.pairwise_cons] at hord
  by_cases hab : L + 1 ≥ R
  · -- fewer than two records: the descriptor is discarded
    refine ⟨⟨stacksiz, 2 * rest.length, 0, s⟩,
      pass_continue compar lalloc size stacksiz _ L R 0 s hrL hrR hab, Or.inl ⟨rfl, rest, ?_, ?_, ?_⟩⟩
    · refine ⟨hcap, h2le, rfl, by show 2 * rest.length ≤ stacksiz; omega, ?_, hlen,
        fun e he => inv.wf e (List.mem_cons_of_mem _ he), hord.2⟩
      intro i hi
      have hi2 : i < 2 * rest.length := hi
      rw [hcells i (by omega)]
      simp only [flat]
      rw [List.getElem?_append_left (by omega)]
    · simp only [weight]; omega
    · intro i hcov
      exact ⟨fun e he => hcov e (List.mem_cons_of_mem _ he), rfl⟩
  · rcases growStack_spec lalloc stacksiz (2 * rest.length) s hcap h2le (by omega) with
      ⟨hg, _⟩ | ⟨sz, sg, hg, hgb, _, _, hgl, hg4, hg2, hgc⟩
    · exact ⟨⟨stacksiz, 2 * rest.length, -ENOMEM, s⟩,
        pass_oom compar lalloc size stacksiz _ L R 0 s hrL hrR hab hg,
        Or.inr ⟨by simp [ENOMEM], rfl⟩⟩
    · have hLR : L + 1 < R := by omega
      have hgR : sg.stack[2 * rest.length + 1]? = some R := by
        rw [hgc _ (by omega)]; exact hsR
      have hgL : sg.stack[2 * rest.length]? = some L := by
        rw [hgc _ (by omega)]; exact hsL
      have hc : rdStack sg (2 * rest.length + 1) = Except.ok R := rdStack_ok hgR
      have hw := wrStack_ok (s := sg) (i := 2 * rest.length + 3) R (by omega)
      have hwL : (sg.stack.set (2 * rest.length + 3) R)[2 * rest.length]? = some L := by
        rw [List.getElem?_set_ne (by omega)]; exact hgL
      have hwR : (sg.stack.set (2 * rest.length + 3) R)[2 * rest.length + 3]? = some R := by
        rw [List.getElem?_set_self (by omega)]
      by_cases hsize : size < 64
      · -- the range is partitioned and replaced by its two outer parts
        obtain ⟨l, h, s1, hp, hst, hseg, hl1, hl2, hl3, hl4, _⟩ :=
          partition_spec compar size (2 * rest.length) L R
            { sg with stack := sg.stack.set (2 * rest.length + 3) R } hsize hwL hwR hLR
            (by show R ≤ sg.base.length; rw [hgb, hlen]; exact hwf.2)
        simp only at hst hseg
        rw [hgb] at hseg
        refine ⟨⟨sz, 2 * rest.length + 4, 0, s1⟩,
          pass_partition compar lalloc size stacksiz _ L R sz R 0 0 s sg _ s1 hrL hrR hab hg hc hw hp,
          Or.inl ⟨rfl, (h, R) :: (L, l) :: rest, ?_, ?_, ?_⟩⟩
        · refine ⟨by simp [hst, hgl], hg2, by simp; omega, hg4, ?_,
            by show s1.base.length = n; rw [hseg.len, hlen], ?_, ?_⟩
          · intro i hi
            have hi2 : i < 2 * rest.length + 4 := hi
            show s1.stack[i]? = _
            rw [hst]
            have hflat : flat ((h, R) :: (L, l) :: rest) = flat rest ++ [L, l, h, R] := by
              simp [flat]
            rw [hflat]
            rcases Nat.lt_or_ge i (2 * rest.length) with hlt | hge
            · rw [List.getElem?_set_ne (by omega), List.getElem?_set_ne (by omega),
                List.getElem?_set_ne (by omega), hgc i (by omega), hcells i (by omega),
                List.getElem?_append_left (by omega)]
              simp only [flat]
              rw [List.getElem?_append_left (by omega)]
            · obtain ⟨k, rfl⟩ : ∃ k, i = 2 * rest.length + k := ⟨i - 2 * rest.length, by omega⟩
              rw [getElem?_append_at (flat rest) [L, l, h, R] k _ hfl]
              have hk : k = 0 ∨ k = 1 ∨ k = 2 ∨ k = 3 := by omega
              rcases hk with rfl | rfl | rfl | rfl
              · rw [List.getElem?_set_ne (by omega), List.getElem?_set_ne (by omega)]
                exact hwL
              · rw [List.getElem?_set_ne (by omega), List.getElem?_set_self (by simp; omega)]
                rfl
              · rw [List.getElem?_set_self (by simp; omega)]
                rfl
              · rw [List.getElem?_set_ne (by omega), List.getElem?_set_ne (by omega)]
                exact hwR
          · intro e he
            rcases List.mem_cons.mp he with he | he
            · subst he; exact ⟨hl3, hwf.2⟩
            · rcases List.mem_cons.mp he with he | he
              · subst he; exact ⟨hl1, by simp only; omega⟩
              · exact inv.wf e (List.mem_cons_of_mem _ he)
          · refine List.pairwise_cons.mpr ⟨?_, List.pairwise_cons.mpr ⟨?_, hord.2⟩⟩
            · intro e he
              rcases List.mem_cons.mp he with he | he
              · subst he; exact hl2
              · have := hord.1 e he
                simp only at this ⊢
                omega
            · intro e he
              exact hord.1 e he
        · simp only [weight]; omega
        · intro i hcov
          have h1 := hcov (L, R) (by simp)
          simp only at h1
          refine ⟨?_, ?_⟩
          · intro e he
            rcases List.mem_cons.mp he with he | he
            · subst he; simp only; omega
            · rcases List.mem_cons.mp he with he | he
              · subst he; simp only; omega
              · exact hcov e (List.mem_cons_of_mem _ he)
          · show s1.base[i]? = s.base[i]?
            exact hseg.frame i (by omega)
      · -- the element size is refused
        have hp := partition_big compar size (2 * rest.length)
          { sg with stack := sg.stack.set (2 * rest.length + 3) R } (by omega)
          (by show 2 * rest.length + 2 < (sg.stack.set (2 * rest.length + 3) R).length
              simp; omega)
        exact ⟨_, pass_partition compar lalloc size stacksiz _ L R sz R 0 (-E2BIG) s sg _ _
          hrL hrR hab hg hc hw hp, Or.inr ⟨by simp [E2BIG], hgb⟩⟩

theorem heads_done {α : Type} (compar : α → α → Int) (lalloc : Nat → Bool) (size fuel : Nat)
    (c : LoopState α) (h : c.stackpos = 0 ∨ c.r < 0) :
    click_qsort_heads compar lalloc size fuel c = [] := by
  have hc : ¬ (c.stackpos ≠ 0 ∧ c.r ≥ 0) := by
    rintro ⟨h1, h2⟩
    rcases h with h | h
    · exact h1 h
    · omega
  cases fuel <;> simp [click_qsort_heads, hc]

theorem heads_cons {α : Type} (compar : α → α → Int) (lalloc : Nat → Bool) (size fuel : Nat)
    (c c1 : LoopState α) (hc : c.stackpos ≠ 0 ∧ c.r ≥ 0)
    (hp : click_qsort_pass compar lalloc size c = Except.ok c1) :
    click_qsort_heads compar lalloc size (fuel + 1) c =
      c :: click_qsort_heads compar lalloc size fuel c1 := by
  simp only [click_qsort_heads]
  rw [if_pos hc, hp]

theorem heads_head {α : Type} (compar : α → α → Int) (lalloc : Nat → Bool) (size fuel : Nat)
    (c c0 : LoopState α) (h : (click_qsort_heads compar lalloc size fuel c)[0]? = some c0) :
    c0 = c := by
  cases fuel with
  | zero => simp [click_qsort_heads] at h
  | succ f =>
    simp only [click_qsort_heads] at h
    split at h
    · simp only [List.getElem?_cons_zero, Option.some.injEq] at h
      exact h.symm
    · simp at h

theorem settling_cons {α : Type} (n : Nat) (fin : List α) (c : LoopState α)
    (H : List (LoopState α))
    (hshape : (descriptors c).Pairwise (fun d e => d.2 ≤ e.1) ∧
      (∀ d ∈ descriptors c, d.1 ≤ d.2 ∧ d.2 ≤ n))
    (hfin : ∀ i, i < n → ¬ Covered c i → fin[i]? = c.s.base[i]?)
    (hfut : ∀ i, i < n → ¬ Covered c i → ∀ (m : Nat) (c1 : LoopState α), H[m]? = some c1 →
      ¬ Covered c1 i ∧ c1.s.base[i]? = c.s.base[i]?)
    (hH : Settling n fin H) : Settling n fin (c :: H) := by
  intro k c0 hk
  cases k with
  | zero =>
    simp only [List.getElem?_cons_zero, Option.some.injEq] at hk
    subst hk
    refine ⟨hshape.1, hshape.2, fun i hi hcov => ⟨hfin i hi hcov, fun m c1 _ hm => ?_⟩⟩
    cases m with
    | zero =>
      simp only [List.getElem?_cons_zero, Option.some.injEq] at hm
      subst hm
      exact ⟨hcov, rfl⟩
    | succ m =>
      simp only [List.getElem?_cons_succ] at hm
      exact hfut i hi hcov m c1 hm
  | succ k =>
    simp only [List.getElem?_cons_succ] at hk
    obtain ⟨h1, h2, h3⟩ := hH k c0 hk
    refine ⟨h1, h2, fun i hi hcov => ⟨(h3 i hi hcov).1, fun m c1 hkm hm => ?_⟩⟩
    cases m with
    | zero => omega
    | succ m =>
      simp only [List.getElem?_cons_succ] at hm
      exact (h3 i hi hcov).2 m c1 (by omega) hm

/-- From a state with the stack invariant and `r = 0`, with enough fuel: the
loop ends without a fault, the final array is the array of the state at every
index that no stacked descriptor covers, and the states at the start of the
iterations satisfy `Settling`. -/
theorem heads_spec {α : Type} (compar : α → α → Int) (lalloc : Nat → Bool) (size n : Nat) :
    ∀ (fuel : Nat) (ds : List (Nat × Nat)) (c : LoopState α),
      StackInv n ds c → c.r = 0 → weight ds ≤ fuel →
      ∃ r sf, click_qsort_loop compar lalloc size fuel c.stacksiz c.stackpos c.r c.s =
          Except.ok (r, sf) ∧
        (∀ i, ¬ Covered c i → sf.base[i]? = c.s.base[i]?) ∧
        Settling n sf.base (click_qsort_heads compar lalloc size fuel c)
  | fuel, [], c, inv, _, _ => by
    have h0 : c.stackpos = 0 := by simpa using inv.pos
    refine ⟨c.r, c.s, loop_done compar lalloc size fuel _ _ _ _ (Or.inl h0), fun _ _ => rfl, ?_⟩
    rw [heads_done compar lalloc size fuel c (Or.inl h0)]
    intro k c0 hk
    simp at hk
  | 0, d :: rest, c, _, _, hf => by
    simp [weight] at hf
  | fuel + 1, d :: rest, c, inv, hr, hf => by
    have hcond : c.stackpos ≠ 0 ∧ c.r ≥ 0 := by
      have := inv.pos
      simp only [List.length_cons] at this
      exact ⟨by omega, by omega⟩
    obtain ⟨c1, hp, hcase⟩ := pass_spec compar lalloc size n d rest c inv hr
    have hloop := loop_eq_pass compar lalloc size fuel c hcond
    rw [hp] at hloop
    rw [hloop, heads_cons compar lalloc size fuel c c1 hcond hp]
    rcases hcase with ⟨hr1, ds1, inv1, hw, hfr⟩ | ⟨hr1, hb⟩
    · obtain ⟨r, sf, hrun, hfin, hset⟩ :=
        heads_spec compar lalloc size n fuel ds1 c1 inv1 hr1 (by omega)
      have hstep : ∀ i, ¬ Covered c i → ¬ Covered c1 i ∧ c1.s.base[i]? = c.s.base[i]? := by
        intro i hcov
        have h1 : ∀ e ∈ d :: rest, ¬ (e.1 ≤ i ∧ i < e.2) := fun e he hin =>
          hcov ((inv.covered_iff i).mpr ⟨e, he, hin⟩)
        obtain ⟨h2, h3⟩ := hfr i h1
        refine ⟨fun hc1 => ?_, h3⟩
        obtain ⟨e, he, hin⟩ := (inv1.covered_iff i).mp hc1
        exact h2 e he hin
      refine ⟨r, sf, hrun, fun i hcov => ?_, ?_⟩
      · obtain ⟨h2, h3⟩ := hstep i hcov
        rw [hfin i h2, h3]
      · refine settling_cons n sf.base c _ inv.shape (fun i _ hcov => ?_) (fun i hi hcov m c2 hm => ?_)
          hset
        · obtain ⟨h2, h3⟩ := hstep i hcov
          rw [hfin i h2, h3]
        · obtain ⟨h2, h3⟩ := hstep i hcov
          obtain ⟨x, hx⟩ : ∃ x, (click_qsort_heads compar lalloc size fuel c1)[0]? = some x := by
            have hlen := getElem?_lt_length hm
            exact exists_getElem? (by omega)
          have hx1 := heads_head compar lalloc size fuel c1 x hx
          subst hx1
          obtain ⟨h4, h5⟩ := ((hset 0 x hx).2.2 i hi h2).2 m c2 (Nat.zero_le _) hm
          exact ⟨h4, h5.trans h3⟩
    · refine ⟨c1.r, c1.s, loop_done compar lalloc size fuel _ _ _ _ (Or.inr hr1),
        fun i _ => by rw [hb], ?_⟩
      rw [heads_done compar lalloc size fuel c1 (Or.inr hr1)]
      refine settling_cons n c1.s.base c [] inv.shape (fun i _ _ => by rw [hb])
        (fun i _ _ m c2 hm => by simp at hm) ?_
      intro k c0 hk
      simp at hk

theorem loopStart_inv {α : Type} (base : List α) :
    StackInv base.length [(0, base.length)] (loopStart base base.length) := by
  refine ⟨rfl, by simp [loopStart, CLICK_QSORT_INITSTACK], rfl,
    by simp [loopStart, CLICK_QSORT_INITSTACK], ?_, rfl, ?_, ?_⟩
  · intro i hi
    have hi2 : i < 2 := hi
    have hi' : i = 0 ∨ i = 1 := by omega
    rcases hi' with rfl | rfl <;> rfl
  · intro d hd
    simp at hd
    subst hd
    simp
  · simp

/-- C16: with enough fuel `click_qsort` returns, whatever the comparator, the
element size and the allocation primitive do, and in the state at the start of
every iteration of its loop the stacked range descriptors, read from the bottom
of the stack, are ranges `[d.1, d.2)` inside `[0, n)` of which each one ends
where or before the next one starts; every index of `[0, n)` that none of them
covers holds the record it holds in the final array, and at the start of every
later iteration it still holds that record and is still covered by no stacked
descriptor (the stores of an iteration go to the range on top of the stack
only, so the index is not written again). -/
theorem descriptors_disjoint_rest_settled {α : Type} (compar : α → α → Int)
    (lalloc : Nat → Bool) (fuel : Nat) (base : List α) (size : Nat)
    (hfuel : 2 * base.length + 1 ≤ fuel) :
    ∃ r sf, click_qsort compar lalloc fuel base base.length size = Except.ok (r, sf) ∧
      ∀ (k : Nat) (c : LoopState α),
        (click_qsort_heads compar lalloc size fuel (loopStart base base.length))[k]? = some c →
        (descriptors c).Pairwise (fun d e => d.2 ≤ e.1) ∧
        (∀ d ∈ descriptors c, d.1 ≤ d.2 ∧ d.2 ≤ base.length) ∧
        ∀ i, i < base.length → ¬ Covered c i →
          sf.base[i]? = c.s.base[i]? ∧
          ∀ (m : Nat) (c1 : LoopState α), k ≤ m →
            (click_qsort_heads compar lalloc size fuel (loopStart base base.length))[m]? =
              some c1 →
            ¬ Covered c1 i ∧ c1.s.base[i]? = c.s.base[i]? := by
  obtain ⟨r, sf, hrun, _, hset⟩ :=
    heads_spec compar lalloc size base.length fuel [(0, base.length)]
      (loopStart base base.length) (loopStart_inv base) rfl (by simp only [weight]; omega)
  refine ⟨r, sf, ?_, hset⟩
  rw [click_qsort_eq_loop]
  exact hrun

/-- C16, witness: the records 2, 1, 3, 1.  The states at the start of the five
iterations, with the stacked descriptors (bottom first) and the array. -/
theorem descriptors_disjoint_rest_settled_witness :
    2 * [2, 1, 3, (1 : Int)].length + 1 ≤ 9 ∧
    (click_qsort_heads intCompar (fun _ => true) 4 9 (loopStart [2, 1, 3, 1] 4)).map
      (fun c => (descriptors c, c.s.base)) =
      [([(0, 4)], [2, 1, 3, 1]), ([(0, 2), (3, 4)], [1, 1, 2, 3]), ([(0, 2)], [1, 1, 2, 3]),
        ([(0, 0), (2, 2)], [1, 1, 2, 3]), ([(0, 0)], [1, 1, 2, 3])] ∧
    ∃ r sf, click_qsort intCompar (fun _ => true) 9 [2, 1, 3, 1] [2, 1, 3, (1 : Int)].length 4 =
        Except.ok (r, sf) ∧
      ∀ (k : Nat) (c : LoopState Int),
        (click_qsort_heads intCompar (fun _ => true) 4 9
          (loopStart [2, 1, 3, 1] [2, 1, 3, (1 : Int)].length))[k]? = some c →
        (descriptors c).Pairwise (fun d e => d.2 ≤ e.1) ∧
        (∀ d ∈ descriptors c, d.1 ≤ d.2 ∧ d.2 ≤ [2, 1, 3, (1 : Int)].length) ∧
        ∀ i, i < [2, 1, 3, (1 : Int)].length → ¬ Covered c i →
          sf.base[i]? = c.s.base[i]? ∧
          ∀ (m : Nat) (c1 : LoopState Int), k ≤ m →
            (click_qsort_heads intCompar (fun _ => true) 4 9
              (loopStart [2, 1, 3, 1] [2, 1, 3, (1 : Int)].length))[m]? = some c1 →
            ¬ Covered c1 i ∧ c1.s.base[i]? = c.s.base[i]? :=
  ⟨by decide, rfl,
    descriptors_disjoint_rest_settled intCompar (fun _ => true) 9 [2, 1, 3, 1] 4 (by decide)⟩

/-! ## The allocator: the rendering rule of `printable_where` -/

theorem byteOf_eq (tag i : Nat) : byteOf tag i = tag / 2 ^ i % 256 := by
  unfold byteOf
  rw [Nat.shiftRight_eq_div_pow]
  exact Nat.and_pow_two_sub_one_eq_mod _ 8

theorem hexstr_getD : ∀ d, d < 16 → hexstr.getD d '0' = hexDigit d := by
  decide

theorem renderByte_eq (ch : Nat) (h : ch < 256) : renderByte ch = escapeByte ch := by
  unfold renderByte escapeByte
  have e1 : (ch >>> 4) &&& 0xF = ch / 16 := by
    rw [Nat.shiftRight_eq_div_pow]
    have := Nat.and_pow_two_sub_one_eq_mod (ch / 2 ^ 4) 4
    simp only [Nat.reducePow, Nat.add_one_sub_one] at this ⊢
    rw [this]
    omega
  have e2 : ch &&& 0xF = ch % 16 := Nat.and_pow_two_sub_one_eq_mod ch 4
  rw [e1, e2, hexstr_getD _ (by omega), hexstr_getD _ (by omega)]

theorem escape_length (l : List Nat) :
    (l.foldr (fun b s => escapeByte b ++ s) []).length =
      l.length + 2 * l.countP (fun b => decide (¬ (32 ≤ b ∧ b < 127))) := by
  induction l with
  | nil => rfl
  | cons b l ih =>
    simp only [List.foldr_cons, List.length_append, ih, List.length_cons, List.countP_cons]
    unfold escapeByte
    by_cases h : 32 ≤ b ∧ b < 127
    · simp only [h, and_self, if_true, List.length_singleton, not_true_eq_false, decide_False,
        Bool.false_eq_true, if_false]
      omega
    · simp only [h, if_false, List.length_cons, List.length_singleton, List.length_nil,
        not_false_eq_true, decide_True, if_true]
      omega

/-- C11: `printable_where` renders the four bytes of the origin tag, the most
significant first, each byte as itself when it is at least 32 and below 127 and
otherwise as a percent sign followed by its two uppercase hexadecimal digits;
the rendering is `4 + 2k` characters long, where `k` is the number of bytes
outside that range, so at most 12, and with the terminating zero it takes at
most the 13 bytes of `wherebuf`. -/
theorem printable_where_renders (c : Chunk) :
    printable_where c = escapeTag c.tag ∧
    (printable_where c).length = 4 + 2 * unprintable c.tag ∧
    unprintable c.tag ≤ 4 ∧
    (printable_where c).length ≤ 12 ∧
    (printable_where c).length + 1 ≤ 13 := by
  have hb : ∀ i, byteOf c.tag i < 256 := fun i => by
    rw [byteOf_eq]
    exact Nat.mod_lt _ (by decide)
  have heq : printable_where c = escapeTag c.tag := by
    rw [printable_where_eq, renderByte_eq _ (hb 24), renderByte_eq _ (hb 16),
      renderByte_eq _ (hb 8), renderByte_eq _ (hb 0)]
    simp only [byteOf_eq, escapeTag, bytesOf, List.foldr_cons, List.foldr_nil,
      List.append_nil, pow_zero, Nat.div_one]
  have hlen : (printable_where c).length = 4 + 2 * unprintable c.tag := by
    rw [heq, escapeTag, escape_length]
    rfl
  have hk : unprintable c.tag ≤ 4 := by
    unfold unprintable
    exact (List.countP_le_length _).trans (by simp [bytesOf])
  exact ⟨heq, hlen, hk, by omega, by omega⟩

/-! ## The allocator: corrupted headers and failed raw allocations -/

/-- C12: when the `magic` field of the header in front of a non-null pointer
is neither `CHUNK_MAGIC` nor `CHUNK_MAGIC_FREED`, `operator delete` reports the
corruption and leaves the sentinel, every header (links, size, tag and magic),
the origin tag, the lifetime count, the current bytes and the peak bytes as
they are; so the registry holds the same blocks in the same order. -/
theorem corrupted_release_keeps_registry (st : DState) (addr : Nat) (h0 : addr ≠ 0)
    (hlive : (st.heap (addr - SIZEOF_CHUNK)).magic ≠ CHUNK_MAGIC)
    (hfreed : (st.heap (addr - SIZEOF_CHUNK)).magic ≠ CHUNK_MAGIC_FREED) :
    ∃ st1, operator_delete st addr = Except.ok st1 ∧
      st1.chatter = st.chatter ++ [Chatter.corruption addr] ∧
      st1.chunks = st.chunks ∧ st1.heap = st.heap ∧
      st1.click_dmalloc_where = st.click_dmalloc_where ∧
      st1.click_dmalloc_totalnew = st.click_dmalloc_totalnew ∧
      st1.click_dmalloc_curmem = st.click_dmalloc_curmem ∧
      st1.click_dmalloc_maxmem = st.click_dmalloc_maxmem ∧
      ∀ l, Ring st l → Ring st1 l := by
  refine ⟨{ st with
      click_dmalloc_curnew :=
        if st.click_dmalloc_curnew = 0 then SIZE_T_MOD - 1 else st.click_dmalloc_curnew - 1
      chatter := st.chatter ++ [Chatter.corruption addr] }, ?_, rfl, rfl, rfl, rfl, rfl, rfl, rfl,
    fun l h => ring_congr st _ l (fun x => by cases x <;> rfl) (fun x => by cases x <;> rfl) h⟩
  simp only [operator_delete, h0, ne_eq, not_false_eq_true, if_true, hfreed, if_false, hlive]

/-- C12, witness: two chunks are allocated and the `magic` field of the first
one is overwritten with `0xdeadbeef`; its release is reported as a corruption
and the registry still holds both chunks, with 24 current bytes. -/
theorem corrupted_release_keeps_registry_witness :
    (4128 ≠ 0 ∧ (corruptedState.heap (4128 - SIZEOF_CHUNK)).magic ≠ CHUNK_MAGIC ∧
      (corruptedState.heap (4128 - SIZEOF_CHUNK)).magic ≠ CHUNK_MAGIC_FREED) ∧
    (operator_delete corruptedState 4128).map
      (fun st => (st.chatter, st.chunks.next, (st.heap 8192).next, (st.heap 4096).next,
        st.click_dmalloc_curmem)) =
      Except.ok ([Chatter.corruption 4128], Ptr.heap 8192, Ptr.heap 4096, Ptr.chunks, 24) ∧
    ∃ st1, operator_delete corruptedState 4128 = Except.ok st1 ∧
      st1.chatter = corruptedState.chatter ++ [Chatter.corruption 4128] ∧
      st1.chunks = corruptedState.chunks ∧ st1.heap = corruptedState.heap ∧
      st1.click_dmalloc_where = corruptedState.click_dmalloc_where ∧
      st1.click_dmalloc_totalnew = corruptedState.click_dmalloc_totalnew ∧
      st1.click_dmalloc_curmem = corruptedState.click_dmalloc_curmem ∧
      st1.click_dmalloc_maxmem = corruptedState.click_dmalloc_maxmem ∧
      ∀ l, Ring corruptedState l → Ring st1 l :=
  ⟨⟨by decide, by decide, by decide⟩, rfl,
    corrupted_release_keeps_registry corruptedState 4128 (by decide) (by decide) (by decide)⟩

/-- C13, the code at the failing input: when `CLICK_ALLOC` returns a null
pointer, `operator new` has counted `click_dmalloc_curnew` and
`click_dmalloc_totalnew` up and then stores the header through the null
pointer, where `click_lalloc` hands the null pointer back and leaves the
counters alone. -/
theorem operator_new_null_block (st : DState) (sz : Nat) :
    operator_new st sz 0 = Except.error Fault.nullDeref ∧
    click_lalloc st sz 0 = (0, st) :=
  ⟨rfl, rfl⟩

/-! ## The allocator: what the cleanup leaves alone -/

/-- Whatever the state, a call of `click_dmalloc_cleanup` that returns has left
the four counters, the origin tag, the payload bytes and the `magic`, `size`
and `tag` fields of every header as they were. -/
theorem cleanup_frame : ∀ (fuel : Nat) (st st1 : DState),
    click_dmalloc_cleanup fuel st = Except.ok st1 →
    counters st1 = counters st ∧ st1.click_dmalloc_where = st.click_dmalloc_where ∧
      st1.bytes = st.bytes ∧
      ∀ a, (st1.heap a).magic = (st.heap a).magic ∧ (st1.heap a).size = (st.heap a).size ∧
        (st1.heap a).tag = (st.heap a).tag
  | 0, st, st1, h => by
    simp only [click_dmalloc_cleanup] at h
    split at h
    · cases h
    · injection h with h
      subst h
      exact ⟨rfl, rfl, rfl, fun _ => ⟨rfl, rfl, rfl⟩⟩
  | fuel + 1, st, st1, h => by
    simp only [click_dmalloc_cleanup] at h
    split at h
    · split at h
      · rename_i c hc
        simp only [bind, Except.bind] at h
        split at h
        · cases h
        · rename_i st2 h2
          obtain ⟨e1, e2, e3, e4⟩ := cleanup_frame fuel _ st1 h
          have hp : (st.heap c).next ≠ Ptr.null := by
            intro hn
            rw [hn] at h2
            simp [setPrev] at h2
          obtain ⟨st3, h3, _, _, same⟩ :=
            setPrev_spec { st with chunks := { st.chunks with next := (st.heap c).next } }
              (st.heap c).next Ptr.chunks hp
          rw [h3] at h2
          injection h2 with h2
          subst h2
          refine ⟨e1.trans ?_, e2.trans same.tag_eq, e3.trans same.bytes, fun a => ?_⟩
          · simp only [counters, same.curnew, same.totalnew, same.curmem, same.maxmem]
          · obtain ⟨a1, a2, a3⟩ := e4 a
            obtain ⟨b1, b2, b3⟩ := same.hdr a
            exact ⟨a1.trans b1, a2.trans b2, a3.trans b3⟩
      · cases h
    · injection h with h
      subst h
      exact ⟨rfl, rfl, rfl, fun _ => ⟨rfl, rfl, rfl⟩⟩

theorem threeLeaks_valid : Valid true ghost0 threeLeaks := by
  simp [threeLeaks, Valid, okOp, Ghost.step, ghost0, Apart, SIZEOF_CHUNK, SIZE_T_MOD]

/-- C19: a call of `click_dmalloc_cleanup` that returns leaves the outstanding
count, the lifetime count, the current bytes and the peak bytes as they were,
whatever the state.  After a misuse-free sequence of calls that leaves `N`
allocations unreleased the call returns (with fuel `N`), the registry is empty
afterwards, and the outstanding count is still `N` and the current bytes are
still the sum of the sizes of the leaked allocations. -/
theorem cleanup_keeps_counters (heap : Nat → Chunk) (bytes : Nat → Nat) (ops : List Op)
    (fuel : Nat) (hv : Valid true ghost0 ops)
    (hfuel : (ghost0.steps ops).live.length ≤ fuel) :
    (∀ (fuel2 : Nat) (s s1 : DState), click_dmalloc_cleanup fuel2 s = Except.ok s1 →
      counters s1 = counters s) ∧
    ∃ st st1, run (initState heap bytes) ops = Except.ok st ∧
      click_dmalloc_cleanup fuel st = Except.ok st1 ∧
      counters st1 = counters st ∧
      st1.chunks.next = Ptr.chunks ∧ st1.chunks.prev = Ptr.chunks ∧
      st1.click_dmalloc_curnew = (ghost0.steps ops).live.length ∧
      st1.click_dmalloc_curmem = ((ghost0.steps ops).live.map Block.size).sum := by
  refine ⟨fun fuel2 s s1 h => (cleanup_frame fuel2 s s1 h).1, ?_⟩
  obtain ⟨st, hrun, inv, _, _⟩ := run_inv true ops ghost0 _ (initState_inv true heap bytes) hv
  obtain ⟨st1, h1, _, hn, hp, e1, e2, e3, e4⟩ :=
    cleanup_spec (ghost0.steps ops).live fuel st inv.ring (ptrs_nodup _ inv.apart)
      (fun b hb => (inv.hdr b hb).2) hfuel
  refine ⟨st, st1, hrun, h1, ?_, hn, hp, e1.trans (inv.curnew rfl), e3.trans inv.curmem⟩
  simp only [counters, e1, e2, e3, e4]

/-- C19, witness: chunks of 16, 32 and 8 bytes are allocated and never
released.  Before the drain the counters are (3, 3, 56, 56) and the registry
starts at the chunk at 12288; after the drain the counters are the same and
the sentinel points to itself. -/
theorem cleanup_keeps_counters_witness :
    (Valid true ghost0 threeLeaks ∧ (ghost0.steps threeLeaks).live.length ≤ 3) ∧
    (run (initState heapZero bytesZero) threeLeaks).map
      (fun st => (counters st, st.chunks.next)) = Except.ok ((3, 3, 56, 56), Ptr.heap 12288) ∧
    ((run (initState heapZero bytesZero) threeLeaks).bind (click_dmalloc_cleanup 3)).map
      (fun st => (counters st, st.chunks.next, st.chunks.prev)) =
      Except.ok ((3, 3, 56, 56), Ptr.chunks, Ptr.chunks) ∧
    ((∀ (fuel2 : Nat) (s s1 : DState), click_dmalloc_cleanup fuel2 s = Except.ok s1 →
      counters s1 = counters s) ∧
    ∃ st st1, run (initState heapZero bytesZero) threeLeaks = Except.ok st ∧
      click_dmalloc_cleanup 3 st = Except.ok st1 ∧
      counters st1 = counters st ∧
      st1.chunks.next = Ptr.chunks ∧ st1.chunks.prev = Ptr.chunks ∧
      st1.click_dmalloc_curnew = (ghost0.steps threeLeaks).live.length ∧
      st1.click_dmalloc_curmem = ((ghost0.steps threeLeaks).live.map Block.size).sum) :=
  ⟨⟨threeLeaks_valid, by decide⟩, rfl, rfl,
    cleanup_keeps_counters heapZero bytesZero threeLeaks 3 threeLeaks_valid (by decide)⟩

/-! ## The allocator: the registry along calls of the whole interface -/

end Click
